import Mathlib

/-!
# Limit order book and inventory-aware quoting (`lob_single.cpp`)

A shallow embedding of the order book (`OrderBook`), the quote engine
(`size_for_inventory`, `compute_quotes_inventory_aware`) and the per-event body of the
replay loop of `main`, followed by the properties established about them.

Modelling conventions.

* `Price`, `Quantity`, `Timestamp` (`long long`) are mathematical integers (`Int`); signed
  overflow is undefined behaviour in the source and lies outside the model.
* `double` parameters and intermediate values are exact rationals (`ℚ`).
* `std::map<Price, deque<Order>, Cmp>` is the list of its `(price, queue)` entries in
  iteration order, so `begin()` is the head of the list.  A `std::map` always has strictly
  ordered keys, and `add_order` files every order under its own side and price; theorems
  that depend on this assume `OrderBook.WellFormed` or `OrderBook.Filed`, and
  `reachable_wellFormed_filed` shows that every book reachable from `OrderBook()` by the
  member functions has both.
* `std::unordered_map<string, pair<Side, Price>>` is an association list; only lookups are
  observable.  `index_set` / `index_erase` keep at most one entry per key
  (`OrderBook.IndexKeysUnique`), and the member functions never leave a level with an empty
  queue (`NoEmptyLevels`); `reachable_tidy` shows both for every reachable book.
* A `while` loop becomes a recursive function on the container it consumes.  Where the
  recursion stops without popping (the head order or head level survives), the loop
  condition of the source is false at that point; `sweep_queue_exit`, `sweep_levels_exit`,
  `fill_queue_exit` state this.
-/

namespace Lob

/-! ## Types -/

/-- Mirror of `enum class Side`. -/
inductive Side where
  | BID
  | ASK
deriving DecidableEq

/-- Mirror of `struct Order`. -/
structure Order where
  id : String
  side : Side
  px : Int
  qty : Int
  ts : Int
  is_our_quote : Bool
deriving DecidableEq

/-- Mirror of `struct Fill`. -/
structure Fill where
  side : Side
  qty : Int
  px : Int
deriving DecidableEq

/-- Mirror of `LevelQueue = deque<Order>`; the head of the list is `front()`. -/
abbrev LevelQueue := List Order

/-- Entries of a `map<Price, LevelQueue, Cmp>` in iteration order. -/
abbrev PriceMap := List (Int × LevelQueue)

/-- Entries of `unordered_map<string, pair<Side, Price>>`. -/
abbrev Index := List (String × (Side × Int))

/-- Mirror of the private members of `class OrderBook`. -/
structure OrderBook where
  bids_ : PriceMap
  asks_ : PriceMap
  index_ : Index
deriving DecidableEq

/-! ## Container primitives -/

/-- Comparator `greater<Price>` of `bids_`. -/
def bidBefore (a b : Int) : Bool := decide (b < a)

/-- Comparator `less<Price>` of `asks_`. -/
def askBefore (a b : Int) : Bool := decide (a < b)

/-- The statement `m[px].push_back(o)`: find the level at `px`, creating it at its place in
the iteration order when absent, and append `o` to its queue. -/
def level_push (before : Int → Int → Bool) (px : Int) (o : Order) : PriceMap → PriceMap
  | [] => [(px, [o])]
  | (k, q) :: rest =>
    if px = k then (k, q ++ [o]) :: rest
    else if before px k then (px, [o]) :: (k, q) :: rest
    else (k, q) :: level_push before px o rest

/-- The lookup `m.find(px)`: the queue stored under key `px`, if any. -/
def level_find (px : Int) : PriceMap → Option LevelQueue
  | [] => none
  | (k, q) :: rest => if k = px then some q else level_find px rest

/-- The statement `m.erase(it)` for `it = m.find(px)`. -/
def level_erase (px : Int) : PriceMap → PriceMap
  | [] => []
  | (k, q) :: rest => if k = px then rest else (k, q) :: level_erase px rest

/-- In-place update of the queue referenced by `m.find(px)->second`. -/
def level_set (px : Int) (q' : LevelQueue) : PriceMap → PriceMap
  | [] => []
  | (k, q) :: rest => if k = px then (k, q') :: rest else (k, q) :: level_set px q' rest

/-- The scan `for (dq = q.begin(); dq != q.end(); ++dq) if (dq->id == id) { q.erase(dq); ... }`
of `cancel_order`: the queue without the first order carrying `id`, or `none` when the scan
reaches `q.end()`. -/
def queue_erase (id : String) : LevelQueue → Option LevelQueue
  | [] => none
  | o :: rest => if o.id = id then some rest else (queue_erase id rest).map (fun r => o :: r)

/-- The lookup `index_.find(id)`. -/
def index_find (id : String) : Index → Option (Side × Int)
  | [] => none
  | (k, v) :: rest => if k = id then some v else index_find id rest

/-- The assignment `index_[id] = v`. -/
def index_set (id : String) (v : Side × Int) : Index → Index
  | [] => [(id, v)]
  | (k, w) :: rest => if k = id then (k, v) :: rest else (k, w) :: index_set id v rest

/-- The statement `index_.erase(it)` for `it = index_.find(id)`. -/
def index_erase (id : String) : Index → Index
  | [] => []
  | (k, w) :: rest => if k = id then rest else (k, w) :: index_erase id rest

/-! ## Matching loops -/

/-- Inner loop of `external_trade`:
`while (qty > 0 && !q.empty()) { take = min(qty, front.qty); if (front.is_our_quote) out.push_back(...);
front.qty -= take; qty -= take; if (front.qty == 0) q.pop_front(); }`.
Returns the queue, the remaining `qty` and `out` at loop exit. -/
def sweep_queue (level_px : Int) : LevelQueue → Int → List Fill → LevelQueue × Int × List Fill
  | [], qty, out => ([], qty, out)
  | front :: rest, qty, out =>
    if 0 < qty then
      let take := min qty front.qty
      let out' := if front.is_our_quote then out ++ [Fill.mk front.side take level_px] else out
      if front.qty - take = 0 then sweep_queue level_px rest (qty - take) out'
      else ({ front with qty := front.qty - take } :: rest, qty - take, out')
    else (front :: rest, qty, out)

/-- Outer loop of `external_trade` on one side of the book:
`while (qty > 0 && !m.empty()) { best_it = m.begin(); ...inner loop...; if (q.empty()) m.erase(best_it); }`. -/
def sweep_levels : PriceMap → Int → List Fill → PriceMap × Int × List Fill
  | [], qty, out => ([], qty, out)
  | (level_px, q) :: rest, qty, out =>
    if 0 < qty then
      match sweep_queue level_px q qty out with
      | (q', qty', out') =>
        if q' = [] then sweep_levels rest qty' out'
        else ((level_px, q') :: rest, qty', out')
    else ((level_px, q) :: rest, qty, out)

/-- Inner loop of the crossing branch of `place_quote_and_sim_fill`:
`while (remain > 0 && !q.empty()) { take = min(remain, front.qty); front.qty -= take;
remain -= take; filled += take; if (front.qty == 0) q.pop_front(); }`.
Returns the queue, `remain` and `filled` at loop exit. -/
def fill_queue : LevelQueue → Int → Int → LevelQueue × Int × Int
  | [], remain, filled => ([], remain, filled)
  | front :: rest, remain, filled =>
    if 0 < remain then
      let take := min remain front.qty
      if front.qty - take = 0 then fill_queue rest (remain - take) (filled + take)
      else ({ front with qty := front.qty - take } :: rest, remain - take, filled + take)
    else (front :: rest, remain, filled)

/-- Outer loop of the crossing branch of `place_quote_and_sim_fill`:
`while (remain > 0 && !m.empty()) { it = m.begin(); ...inner loop...; if (q.empty()) m.erase(it); else break; }`. -/
def fill_levels : PriceMap → Int → Int → PriceMap × Int × Int
  | [], remain, filled => ([], remain, filled)
  | (px, q) :: rest, remain, filled =>
    if 0 < remain then
      match fill_queue q remain filled with
      | (q', remain', filled') =>
        if q' = [] then fill_levels rest remain' filled'
        else ((px, q') :: rest, remain', filled')
    else ((px, q) :: rest, remain, filled)

/-! ## `OrderBook` member functions -/

namespace OrderBook

/-- The book built by `OrderBook()`. -/
def empty : OrderBook := { bids_ := [], asks_ := [], index_ := [] }

/-- Mirror of `OrderBook::add_order`. -/
def add_order (b : OrderBook) (o : Order) : OrderBook :=
  match o.side with
  | Side.BID =>
    { bids_ := level_push bidBefore o.px o b.bids_, asks_ := b.asks_,
      index_ := index_set o.id (o.side, o.px) b.index_ }
  | Side.ASK =>
    { bids_ := b.bids_, asks_ := level_push askBefore o.px o b.asks_,
      index_ := index_set o.id (o.side, o.px) b.index_ }

/-- Mirror of `OrderBook::cancel_order`; returns the book after the call and the result. -/
def cancel_order (b : OrderBook) (id : String) : OrderBook × Bool :=
  match index_find id b.index_ with
  | none => (b, false)
  | some (Side.BID, px) =>
    match level_find px b.bids_ with
    | none => (b, false)
    | some q =>
      match queue_erase id q with
      | none => (b, false)
      | some q' =>
        ({ bids_ := if q' = [] then level_erase px b.bids_ else level_set px q' b.bids_,
           asks_ := b.asks_, index_ := index_erase id b.index_ }, true)
  | some (Side.ASK, px) =>
    match level_find px b.asks_ with
    | none => (b, false)
    | some q =>
      match queue_erase id q with
      | none => (b, false)
      | some q' =>
        ({ bids_ := b.bids_,
           asks_ := if q' = [] then level_erase px b.asks_ else level_set px q' b.asks_,
           index_ := index_erase id b.index_ }, true)

/-- Mirror of `OrderBook::external_trade`; returns the book after the call and `out`. -/
def external_trade (b : OrderBook) (aggressor : Side) (qty : Int) : OrderBook × List Fill :=
  match aggressor with
  | Side.BID =>
    match sweep_levels b.asks_ qty [] with
    | (asks', _, out) => ({ bids_ := b.bids_, asks_ := asks', index_ := b.index_ }, out)
  | Side.ASK =>
    match sweep_levels b.bids_ qty [] with
    | (bids', _, out) => ({ bids_ := bids', asks_ := b.asks_, index_ := b.index_ }, out)

/-- Mirror of `OrderBook::best_bid`. -/
def best_bid (b : OrderBook) : Option Int :=
  match b.bids_ with
  | [] => none
  | (px, _) :: _ => some px

/-- Mirror of `OrderBook::best_ask`. -/
def best_ask (b : OrderBook) : Option Int :=
  match b.asks_ with
  | [] => none
  | (px, _) :: _ => some px

/-- Mirror of `OrderBook::place_quote_and_sim_fill`; returns the book after the call and the
returned pair `(filled, exec_px)`. -/
def place_quote_and_sim_fill (b : OrderBook) (o : Order) (pre_best_opposite : Int) :
    OrderBook × (Int × Int) :=
  let rest_as_maker : OrderBook × (Int × Int) :=
    (b.add_order { o with is_our_quote := true }, (0, 0))
  match o.side with
  | Side.BID =>
    match b.asks_ with
    | [] => rest_as_maker
    | (best_px, _) :: _ =>
      if best_px ≤ o.px then
        match fill_levels b.asks_ o.qty 0 with
        | (asks', _, filled) =>
          ({ bids_ := b.bids_, asks_ := asks', index_ := b.index_ }, (filled, pre_best_opposite))
      else rest_as_maker
  | Side.ASK =>
    match b.bids_ with
    | [] => rest_as_maker
    | (best_px, _) :: _ =>
      if o.px ≤ best_px then
        match fill_levels b.bids_ o.qty 0 with
        | (bids', _, filled) =>
          ({ bids_ := bids', asks_ := b.asks_, index_ := b.index_ }, (filled, pre_best_opposite))
      else rest_as_maker

end OrderBook

/-! ## Strategy state and quote engine -/

/-- The tunable globals `TICK_USD`, `DELTA`, `QTY_BASE`, `QTY_MIN`, `LAMBDA`, `INV_SOFT`,
`INV_HARD`, `MAX_DD_USD`, passed explicitly. -/
structure Params where
  TICK_USD : ℚ
  DELTA : ℚ
  QTY_BASE : Int
  QTY_MIN : Int
  LAMBDA : ℚ
  INV_SOFT : Int
  INV_HARD : Int
  MAX_DD_USD : ℚ

/-- The initial values of the globals (also the defaults of the command line). -/
def Params.defaults : Params :=
  { TICK_USD := 1 / 100, DELTA := 1 / 2, QTY_BASE := 2, QTY_MIN := 1, LAMBDA := 1 / 20,
    INV_SOFT := 50, INV_HARD := 80, MAX_DD_USD := 200 }

/-- Mirror of `struct State`; the fields `sigma2` and `prev_mid` are never read or written
by the program and are left out. -/
structure State where
  inv_ticks : Int
  cash_ticks : Int
  peak_pnl_ticks : Int
deriving DecidableEq

/-- Mirror of `size_for_inventory`. -/
def size_for_inventory (P : Params) (inv : Int) : Int :=
  let scale : ℚ := max (1 / 5) (1 - ((|inv| : Int) : ℚ) / ((max 1 P.INV_SOFT : Int) : ℚ))
  let s : Int := ⌊(P.QTY_BASE : ℚ) * scale⌋
  max P.QTY_MIN s

/-- Mirror of `struct Quotes`. -/
structure Quotes where
  bid_px : Int
  ask_px : Int
  enable_bid : Bool
  enable_ask : Bool
  qty_bid : Int
  qty_ask : Int
deriving DecidableEq

/-- Mirror of `compute_quotes_inventory_aware`.  Each `let` is one assignment of the source;
the numbered names `bid_q0, bid_q1, bid_q2` are the successive values of `bid_q`. -/
def compute_quotes_inventory_aware (P : Params) (best_bid best_ask : Int) (st : State)
    (risk_off : Bool) : Quotes :=
  let mid : ℚ := (1 / 2) * ((best_bid + best_ask : Int) : ℚ)
  let r : ℚ := mid - P.LAMBDA * (st.inv_ticks : ℚ)
  let bid_q0 : Int := ⌊r - P.DELTA⌋
  let ask_q0 : Int := ⌈r + P.DELTA⌉
  -- never cross
  let bid_q1 : Int := if bid_q0 > best_bid then best_bid else bid_q0
  let ask_q1 : Int := if ask_q0 < best_ask then best_ask else ask_q0
  -- side gating near limits (and in risk-off)
  let gate : Bool := decide (|st.inv_ticks| ≥ P.INV_SOFT) || risk_off
  let enable_bid : Bool := if gate && decide (st.inv_ticks > 0) then false else true
  let enable_ask : Bool :=
    if gate && !decide (st.inv_ticks > 0) && decide (st.inv_ticks < 0) then false else true
  let ask_q2 : Int := if gate && !enable_bid then max (ask_q1 - 1) best_ask else ask_q1
  let bid_q2 : Int := if gate && !enable_ask then min (bid_q1 + 1) best_bid else bid_q1
  -- sizes
  let q_base : Int := size_for_inventory P st.inv_ticks
  let soft : Bool := decide (|st.inv_ticks| ≥ P.INV_SOFT)
  let qty_ask : Int :=
    if soft && decide (st.inv_ticks > 0) then max q_base (q_base + 1)
    else if soft && decide (st.inv_ticks < 0) then P.QTY_MIN
    else q_base
  let qty_bid : Int :=
    if soft && decide (st.inv_ticks > 0) then P.QTY_MIN
    else if soft && decide (st.inv_ticks < 0) then max q_base (q_base + 1)
    else q_base
  { bid_px := bid_q2, ask_px := ask_q2, enable_bid := enable_bid, enable_ask := enable_ask,
    qty_bid := qty_bid, qty_ask := qty_ask }

/-! ## Replay loop of `main` -/

/-- One parsed row of the event file.  `ts` is `none` when the `ts` column is empty.  `OTHER`
stands for a row whose `event` column is none of `ADD`, `CANCEL`, `TRADE`. -/
inductive Event where
  | ADD (ts : Option Int) (side : Side) (px qty : Int) (id : String)
  | CANCEL (ts : Option Int) (id : String)
  | TRADE (ts : Option Int) (side : Side) (qty : Int)
  | OTHER (ts : Option Int)

/-- The `ts` column of a row. -/
def Event.ts : Event → Option Int
  | .ADD ts _ _ _ _ => ts
  | .CANCEL ts _ => ts
  | .TRADE ts _ _ => ts
  | .OTHER ts => ts

/-- The local variables of `main` that live across events. -/
structure Driver where
  ob : OrderBook
  S : State
  trades_total : Int
  buys_total : Int
  sells_total : Int
  ts_counter : Int
  risk_off : Bool
deriving DecidableEq

/-- The state of `main` when the replay loop is entered. -/
def Driver.init : Driver :=
  { ob := OrderBook.empty, S := { inv_ticks := 0, cash_ticks := 0, peak_pnl_ticks := 0 },
    trades_total := 0, buys_total := 0, sells_total := 0, ts_counter := 0, risk_off := false }

/-- Body of the loop `for (const auto& f : fills)` of the `TRADE` branch. -/
def account_fill (d : Driver) (f : Fill) : Driver :=
  match f.side with
  | Side.BID =>
    { d with
      S := { d.S with inv_ticks := d.S.inv_ticks + f.qty,
                      cash_ticks := d.S.cash_ticks - f.qty * f.px },
      trades_total := d.trades_total + 1, buys_total := d.buys_total + 1 }
  | Side.ASK =>
    { d with
      S := { d.S with inv_ticks := d.S.inv_ticks - f.qty,
                      cash_ticks := d.S.cash_ticks + f.qty * f.px },
      trades_total := d.trades_total + 1, sells_total := d.sells_total + 1 }

/-- The loop `for (const auto& f : fills)` of the `TRADE` branch. -/
def account_fills (d : Driver) (fills : List Fill) : Driver :=
  fills.foldl account_fill d

/-- The C library function `llround` on an exact value: nearest integer, halves away from
zero. -/
def llround (x : ℚ) : Int := if 0 ≤ x then ⌊x + 1 / 2⌋ else ⌈x - 1 / 2⌉

/-- Section "apply event to book" of the loop body. -/
def apply_event (d : Driver) (e : Event) : Driver :=
  match e with
  | .ADD _ side px qty id =>
    { d with ob := OrderBook.add_order d.ob (Order.mk id side px qty d.ts_counter false) }
  | .CANCEL _ id => { d with ob := (d.ob.cancel_order id).1 }
  | .TRADE _ side qty =>
    match d.ob.external_trade side qty with
    | (ob', fills) => account_fills { d with ob := ob' } fills
  | .OTHER _ => d

/-- Sections "compute dynamic risk state", "compute quotes" and "place quotes" of the loop
body, entered with both best prices present.  The pairs returned by
`place_quote_and_sim_fill` are dropped, as in the source. -/
def quote_step (P : Params) (d : Driver) (bb ba : Int) : Driver :=
  let mid : ℚ := (1 / 2) * ((bb + ba : Int) : ℚ)
  let pnl_ticks : Int := d.S.cash_ticks + llround ((d.S.inv_ticks : ℚ) * mid)
  let peak : Int := max d.S.peak_pnl_ticks pnl_ticks
  let dd_usd : ℚ := ((peak - pnl_ticks : Int) : ℚ) * P.TICK_USD
  let risk_off : Bool := decide (|d.S.inv_ticks| ≥ P.INV_HARD) || decide (dd_usd ≥ P.MAX_DD_USD)
  let S' : State := { d.S with peak_pnl_ticks := peak }
  let q := compute_quotes_inventory_aware P bb ba S' risk_off
  let ob1 : OrderBook :=
    if q.enable_bid then
      (d.ob.place_quote_and_sim_fill
        (Order.mk ("qb" ++ toString d.ts_counter) Side.BID q.bid_px q.qty_bid d.ts_counter true)
        ba).1
    else d.ob
  let ob2 : OrderBook :=
    if q.enable_ask then
      (ob1.place_quote_and_sim_fill
        (Order.mk ("qa" ++ toString d.ts_counter) Side.ASK q.ask_px q.qty_ask d.ts_counter true)
        bb).1
    else ob1
  { d with ob := ob2, S := S', risk_off := risk_off }

/-- Body of the loop `while (getline(fin, line))` for one parsed row, with the synthetic flow
off (`BUY_RATE = SELL_RATE = 0`, the defaults), so that both synthetic branches are skipped.
Output (dashboard, results file) and the pacing sleep are not modelled. -/
def process_event (P : Params) (d : Driver) (e : Event) : Driver :=
  let d0 : Driver :=
    { d with ts_counter := match e.ts with
                           | none => d.ts_counter + 1
                           | some t => t }
  let d1 := apply_event d0 e
  match d1.ob.best_bid, d1.ob.best_ask with
  | some bb, some ba => quote_step P d1 bb ba
  | _, _ => d1

/-- The loop `while (getline(fin, line))` over the rows of one pass, the book being the one
held by `d`. -/
def process_events (P : Params) (d : Driver) (events : List Event) : Driver :=
  events.foldl (process_event P) d

/-- One pass of the outer `while (true)`: the book is reset, the strategy state is kept. -/
def run_pass (P : Params) (d : Driver) (events : List Event) : Driver :=
  process_events P { d with ob := OrderBook.empty } events

open OrderBook

/-! ## Specification-side notions and example states -/

/-- Orders resting on one side in priority order: levels in iteration order (best price
first), each queue from front to back. -/
def resting : PriceMap → List Order
  | [] => []
  | (_, q) :: rest => q ++ resting rest

/-- Sum of the quantities of a list of orders. -/
def qty_sum : List Order → Int
  | [] => 0
  | o :: os => o.qty + qty_sum os

/-- Total quantity resting on one side. -/
def total_qty (m : PriceMap) : Int := qty_sum (resting m)

/-- The matching loops seen on the orders of a side in priority order, without the level
structure and the fills: the orders left and the quantity left. -/
def consume : List Order → Int → List Order × Int
  | [], n => ([], n)
  | o :: os, n =>
    if 0 < n then
      if o.qty - min n o.qty = 0 then consume os (n - min n o.qty)
      else ({ o with qty := o.qty - min n o.qty } :: os, n - min n o.qty)
    else (o :: os, n)

/-- The relation `TakenFromFront L L' taken`: the list `L'` is what is left of `L` (orders
in priority order) after `taken` units were removed from its front: a prefix `gone` of `L`
has disappeared entirely, at most the first order behind it has given up a part `r` of its
quantity, and every order further back is untouched. -/
def TakenFromFront (L L' : List Order) (taken : Int) : Prop :=
  ∃ gone rest, L = gone ++ rest ∧
    ((L' = rest ∧ qty_sum gone = taken) ∨
     ∃ o os r, rest = o :: os ∧ 0 < r ∧ r < o.qty ∧
       L' = { o with qty := o.qty - r } :: os ∧ qty_sum gone + r = taken)

/-- The price map of one side of the book. -/
def OrderBook.side_map (b : OrderBook) : Side → PriceMap
  | Side.BID => b.bids_
  | Side.ASK => b.asks_

/-- The other side. -/
def Side.opposite : Side → Side
  | Side.BID => Side.ASK
  | Side.ASK => Side.BID

/-- Orders resting on one side in priority order, each with the price of the level whose
queue holds it. -/
def resting_at : PriceMap → List (Int × Order)
  | [] => []
  | (p, q) :: rest => q.map (fun o => (p, o)) ++ resting_at rest

/-- The matching rule in the words of the specification: walking the resting orders in
priority order, while quantity remains each order met gives up
`min remaining order.qty`, and both are decremented by it.  The result lists every take as
`(level price, order, take)` in consumption order. -/
def spec_takes : List (Int × Order) → Int → List (Int × Order × Int)
  | [], _ => []
  | (p, o) :: rest, n =>
    if 0 < n then (p, o, min n o.qty) :: spec_takes rest (n - min n o.qty) else []

/-- The fills the specification asks for: one per take from an order tagged ours, carrying
the side of that order, the take and the level price. -/
def spec_fills (L : List (Int × Order)) (n : Int) : List Fill :=
  ((spec_takes L n).filter (fun t => t.2.1.is_our_quote)).map
    (fun t => Fill.mk t.2.1.side t.2.2 t.1)

/-- Sum of the quantities of a list of fills. -/
def fill_qty_sum : List Fill → Int
  | [] => 0
  | f :: fs => f.qty + fill_qty_sum fs

/-- Total quantity of the orders tagged ours in a list. -/
def ours_qty (L : List Order) : Int := qty_sum (L.filter (fun o => o.is_our_quote))

/-- The crossing test of the specification: a BID priced at or above the best ask, or an ASK
priced at or below the best bid. -/
def OrderBook.crosses (b : OrderBook) (o : Order) : Bool :=
  match o.side with
  | Side.BID =>
    match b.best_ask with
    | some ba => decide (ba ≤ o.px)
    | none => false
  | Side.ASK =>
    match b.best_bid with
    | some bb => decide (o.px ≤ bb)
    | none => false

/-- Scenario S1: bids at 100 (quantity 5) and 99 (quantity 3), an ask at 101 (quantity 4). -/
def book_S1 : OrderBook :=
  ((OrderBook.empty.add_order ⟨"b1", Side.BID, 100, 5, 1, false⟩).add_order
    ⟨"b2", Side.BID, 99, 3, 2, false⟩).add_order ⟨"a1", Side.ASK, 101, 4, 3, false⟩

/-- Scenario S2: at 100, our bid `A` (quantity 2) ahead of the foreign bid `B`
(quantity 3). -/
def book_S2 : OrderBook :=
  (OrderBook.empty.add_order ⟨"A", Side.BID, 100, 2, 1, true⟩).add_order
    ⟨"B", Side.BID, 100, 3, 2, false⟩

/-- Scenario S3: a foreign ask at 101 (quantity 5) and our ask at 102 (quantity 2). -/
def book_S3 : OrderBook :=
  (OrderBook.empty.add_order ⟨"a1", Side.ASK, 101, 5, 1, false⟩).add_order
    ⟨"a2", Side.ASK, 102, 2, 2, true⟩

/-- Scenario S3: the crossing bid quote at 102 for 6. -/
def quote_S3 : Order := ⟨"qb3", Side.BID, 102, 6, 3, true⟩

/-- The base size in the words of the specification, over the rationals:
`max(qty_min, floor(qty_base * max(0.2, 1 - |I| / max(1, inv_soft))))`. -/
def spec_q_base (P : Params) (I : Int) : Int :=
  max P.QTY_MIN ⌊(P.QTY_BASE : ℚ) * max (1 / 5) (1 - |(I : ℚ)| / max 1 (P.INV_SOFT : ℚ))⌋

/-- Scenario S4: inventory 55 (long), no cash, peak 0. -/
def state_S4 : State := { inv_ticks := 55, cash_ticks := 0, peak_pnl_ticks := 0 }

/-- Two rows that leave the book crossed: a bid at 100, then an ask at 99, five units each,
with empty `ts` columns. -/
def crossed_rows : List Event :=
  [Event.ADD none Side.BID 100 5 "x", Event.ADD none Side.ASK 99 5 "y"]

/-- The driver in the second tick of `crossed_rows`, after the row is applied to the book
and before the quotes are computed and placed. -/
def driver_before_quotes : Driver :=
  apply_event
    { process_event Params.defaults Driver.init (Event.ADD none Side.BID 100 5 "x") with
      ts_counter := 2 }
    (Event.ADD none Side.ASK 99 5 "y")

/-- The price keys of a map in iteration order. -/
def keys (m : PriceMap) : List Int := m.map Prod.fst

/-- The representation invariant of `std::map`: in iteration order every key comes strictly
before all later ones under the comparator. -/
def KeysOrdered (before : Int → Int → Bool) (m : PriceMap) : Prop :=
  (keys m).Pairwise (fun a b => before a b = true)

instance (before : Int → Int → Bool) (m : PriceMap) : Decidable (KeysOrdered before m) := by
  unfold KeysOrdered; infer_instance

/-- Both price maps of the book satisfy the representation invariant of `std::map`. -/
def OrderBook.WellFormed (b : OrderBook) : Prop :=
  KeysOrdered bidBefore b.bids_ ∧ KeysOrdered askBefore b.asks_

instance (b : OrderBook) : Decidable b.WellFormed := by
  unfold OrderBook.WellFormed; infer_instance

/-- The comparator is a strict total order, as `greater<Price>` and `less<Price>` are. -/
structure StrictCmp (before : Int → Int → Bool) : Prop where
  irrefl : ∀ a, before a a = false
  trans : ∀ a b c, before a b = true → before b c = true → before a c = true
  total : ∀ a b, a ≠ b → before a b = false → before b a = true

/-- An order with the identifier of the resting order `A` of `book_S2`. -/
def dup_order : Order := ⟨"A", Side.ASK, 105, 1, 3, false⟩

/-- The relation `Shrunk o' o`: the order `o'` is the order `o`, possibly with a smaller
but still positive quantity. -/
def Shrunk (o' o : Order) : Prop :=
  o'.id = o.id ∧ o'.side = o.side ∧ o'.px = o.px ∧ (o' = o ∨ 0 < o'.qty)

/-- All resting orders of the book: the bid side, then the ask side, each in priority
order. -/
def OrderBook.all_resting (b : OrderBook) : List Order := resting b.bids_ ++ resting b.asks_

/-- Every resting order is filed under its own side and at its own price. -/
def OrderBook.Filed (b : OrderBook) : Prop :=
  (∀ po ∈ resting_at b.bids_, po.2.side = Side.BID ∧ po.2.px = po.1) ∧
  (∀ po ∈ resting_at b.asks_, po.2.side = Side.ASK ∧ po.2.px = po.1)

/-- The consistency the code maintains between the price maps and the index: ordered keys,
orders filed under their side and price, positive quantities, every resting order indexed
at its side and price, and no identifier resting twice. -/
structure OrderBook.Consistent (b : OrderBook) : Prop where
  wf : b.WellFormed
  filed : b.Filed
  positive : ∀ o ∈ b.all_resting, 0 < o.qty
  indexed : ∀ o ∈ b.all_resting, index_find o.id b.index_ = some (o.side, o.px)
  unique : (b.all_resting.map Order.id).Nodup

/-- The admission test of the reachability relations: the order has positive quantity
and its identifier is not in the index of the book. -/
def OrderBook.admits (b : OrderBook) (o : Order) : Prop :=
  0 < o.qty ∧ index_find o.id b.index_ = none

/-- Book states reachable from the empty book by the four mutating member functions;
`okAdd b o` and `okQuote b o` say which orders may be passed to `add_order` and to
`place_quote_and_sim_fill` in state `b`. -/
inductive ReachableBy (okAdd okQuote : OrderBook → Order → Prop) : OrderBook → Prop where
  | empty : ReachableBy okAdd okQuote OrderBook.empty
  | add (b : OrderBook) (o : Order) : ReachableBy okAdd okQuote b → okAdd b o →
      ReachableBy okAdd okQuote (b.add_order o)
  | cancel (b : OrderBook) (id : String) : ReachableBy okAdd okQuote b →
      ReachableBy okAdd okQuote (b.cancel_order id).1
  | trade (b : OrderBook) (aggressor : Side) (qty : Int) : ReachableBy okAdd okQuote b →
      ReachableBy okAdd okQuote (b.external_trade aggressor qty).1
  | quote (b : OrderBook) (o : Order) (pre_best_opposite : Int) :
      ReachableBy okAdd okQuote b → okQuote b o →
      ReachableBy okAdd okQuote (b.place_quote_and_sim_fill o pre_best_opposite).1

/-- Book states reachable from the empty book by any calls of `add_order`, `cancel_order`,
`external_trade` and `place_quote_and_sim_fill`. -/
def Reachable (b : OrderBook) : Prop :=
  ReachableBy (fun _ _ => True) (fun _ _ => True) b

/-- Book states reachable when `add_order` only receives positive-quantity orders whose
identifier is not in the index, the other three functions being unrestricted. -/
def ReachableAddChecked (b : OrderBook) : Prop :=
  ReachableBy OrderBook.admits (fun _ _ => True) b

/-- Book states reachable when both `add_order` and `place_quote_and_sim_fill` only receive
positive-quantity orders whose identifier is not in the index. -/
def ReachableChecked (b : OrderBook) : Prop :=
  ReachableBy OrderBook.admits OrderBook.admits b

/-- The book `book_S2` after a bid quote at 99 that reuses the identifier `A`. -/
def twice_book : OrderBook :=
  (book_S2.place_quote_and_sim_fill ⟨"A", Side.BID, 99, 1, 3, true⟩ 0).1

/-- Asks at 101 (quantity 5) and at 102 with the negative quantity -3. -/
def book_negative : OrderBook :=
  (OrderBook.empty.add_order ⟨"a1", Side.ASK, 101, 5, 1, false⟩).add_order
    ⟨"a2", Side.ASK, 102, -3, 2, false⟩

/-- The book after one ask `a1` (quantity 1 at 101) was added and then bought entirely by
an external trade. -/
def stale_book : OrderBook :=
  ((OrderBook.empty.add_order ⟨"a1", Side.ASK, 101, 1, 1, false⟩).external_trade Side.BID 1).1

/-- Every bid level is priced strictly below every ask level. -/
def OrderBook.Separated (b : OrderBook) : Prop :=
  ∀ kb ∈ keys b.bids_, ∀ ka ∈ keys b.asks_, kb < ka

/-- The book is not crossed: `best_bid < best_ask` whenever both exist. -/
def OrderBook.Uncrossed (b : OrderBook) : Prop :=
  ∀ bb ba, b.best_bid = some bb → b.best_ask = some ba → bb < ba

/-- The row is an `ADD` whose price crosses the book `b`: a bid at or above the best ask,
or an ask at or below the best bid. -/
def Event.crosses (b : OrderBook) : Event → Bool
  | Event.ADD _ side px qty id => b.crosses (Order.mk id side px qty 0 false)
  | _ => false

/-- Along the replay of `events` from `d`, no `ADD` row crosses the book it is applied
to. -/
def no_crossing_add (P : Params) : Driver → List Event → Bool
  | _, [] => true
  | d, e :: es => !(e.crosses d.ob) && no_crossing_add P (process_event P d e) es

/-- Rows that never cross: a bid at 100, an ask at 102, then an external buy of 1. -/
def calm_rows : List Event :=
  [Event.ADD none Side.BID 100 5 "x", Event.ADD none Side.ASK 102 5 "y",
   Event.TRADE none Side.BID 1]

/-- The fills whose side is `s`, in their order. -/
def fills_on (s : Side) (fills : List Fill) : List Fill :=
  fills.filter (fun f => decide (f.side = s))

/-- Sum of `qty * px` over a list of fills. -/
def fill_notional_sum : List Fill → Int
  | [] => 0
  | f :: fs => f.qty * f.px + fill_notional_sum fs

/-- The mark-to-market value `pnl_ticks` computed by the loop body from the strategy state
and the best prices: `cash_ticks + llround(inv_ticks * mid)`. -/
def mark_to_market (S : State) (bb ba : Int) : Int :=
  S.cash_ticks + llround ((S.inv_ticks : ℚ) * ((1 / 2) * ((bb + ba : Int) : ℚ)))

/-- Scenario S5: flat inventory, mark-to-market value 10000 ticks, peak 30000 ticks. -/
def driver_S5 : Driver :=
  { Driver.init with S := { inv_ticks := 0, cash_ticks := 10000, peak_pnl_ticks := 30000 } }

/-- A flat driver state whose inventory is exactly the hard limit 80 of the defaults. -/
def driver_at_hard_limit : Driver :=
  { Driver.init with S := { inv_ticks := 80, cash_ticks := -8000, peak_pnl_ticks := 0 } }

/-- A flat driver state with mark-to-market value 10001 ticks and peak 30000 ticks: one
tick short of the drawdown limit of the defaults. -/
def driver_below_limit : Driver :=
  { Driver.init with S := { inv_ticks := 0, cash_ticks := 10001, peak_pnl_ticks := 30000 } }

/-- No level of the map has an empty queue. -/
def NoEmptyLevels (m : PriceMap) : Prop := ∀ l ∈ m, l.2 ≠ []

/-- The representation invariant of `std::unordered_map`: at most one entry per key. -/
def OrderBook.IndexKeysUnique (b : OrderBook) : Prop := (b.index_.map Prod.fst).Nodup

instance (m : PriceMap) : Decidable (NoEmptyLevels m) := by
  unfold NoEmptyLevels; infer_instance

instance (b : OrderBook) : Decidable b.IndexKeysUnique := by
  unfold OrderBook.IndexKeysUnique; infer_instance

instance (b : OrderBook) : Decidable b.Filed := by
  unfold OrderBook.Filed; infer_instance

/-- The bid quote built by the loop body at timestamp `ts` from the computed quotes. -/
def bid_quote (q : Quotes) (ts : Int) : Order :=
  Order.mk ("qb" ++ toString ts) Side.BID q.bid_px q.qty_bid ts true

/-- The ask quote built by the loop body at timestamp `ts` from the computed quotes. -/
def ask_quote (q : Quotes) (ts : Int) : Order :=
  Order.mk ("qa" ++ toString ts) Side.ASK q.ask_px q.qty_ask ts true

/-- Section "place quotes" of the loop body: the enabled bid first, then the enabled ask,
with the best prices `bb`, `ba` read before placing. -/
def place_quotes (b : OrderBook) (q : Quotes) (ts bb ba : Int) : OrderBook :=
  let ob1 : OrderBook :=
    if q.enable_bid then (b.place_quote_and_sim_fill (bid_quote q ts) ba).1 else b
  if q.enable_ask then (ob1.place_quote_and_sim_fill (ask_quote q ts) bb).1 else ob1

/-- Asks at 101 (quantity 1) and 105 (quantity 5). -/
def book_gap_asks : OrderBook :=
  (OrderBook.empty.add_order ⟨"a1", Side.ASK, 101, 1, 1, false⟩).add_order
    ⟨"a2", Side.ASK, 105, 5, 2, false⟩

/-- Bids at 100 (quantity 1) and 95 (quantity 5). -/
def book_gap_bids : OrderBook :=
  (OrderBook.empty.add_order ⟨"b1", Side.BID, 100, 1, 1, false⟩).add_order
    ⟨"b2", Side.BID, 95, 5, 2, false⟩

/-! ## Theorems -/

theorem consume_nonpos (L : List Order) (n : Int) (h : n ≤ 0) : consume L n = (L, n) := by
  cases L with
  | nil => rfl
  | cons o os => simp [consume, not_lt.mpr h]

theorem consume_exit (L : List Order) (n : Int) :
    (consume L n).1 = [] ∨ (consume L n).2 ≤ 0 := by
  induction L generalizing n with
  | nil => left; rfl
  | cons o os ih =>
    unfold consume
    split_ifs with h1 h2
    · exact ih _
    · right; simp only; omega
    · right; simp only; omega

theorem sweep_queue_consume (px : Int) (q : LevelQueue) (n : Int) (out : List Fill) :
    (sweep_queue px q n out).1 = (consume q n).1 ∧
    (sweep_queue px q n out).2.1 = (consume q n).2 := by
  induction q generalizing n out with
  | nil => exact ⟨rfl, rfl⟩
  | cons o os ih =>
    by_cases h1 : 0 < n
    · by_cases h2 : o.qty - min n o.qty = 0
      · simp only [sweep_queue, consume, h1, h2, if_true]
        exact ih _ _
      · simp [sweep_queue, consume, h1, h2]
    · simp [sweep_queue, consume, h1]

theorem consume_append (q L : List Order) (n : Int) :
    consume (q ++ L) n =
      if (consume q n).1 = [] then consume L (consume q n).2
      else ((consume q n).1 ++ L, (consume q n).2) := by
  induction q generalizing n with
  | nil => simp [consume]
  | cons o os ih =>
    by_cases h1 : 0 < n
    · by_cases h2 : o.qty - min n o.qty = 0
      · simp only [List.cons_append, consume, h1, h2, if_true]
        exact ih _
      · simp [consume, h1, h2]
    · simp [consume, h1]

theorem sweep_levels_consume (m : PriceMap) (n : Int) (out : List Fill) :
    resting (sweep_levels m n out).1 = (consume (resting m) n).1 ∧
    (sweep_levels m n out).2.1 = (consume (resting m) n).2 := by
  induction m generalizing n out with
  | nil => exact ⟨rfl, rfl⟩
  | cons l rest ih =>
    obtain ⟨px, q⟩ := l
    by_cases h1 : 0 < n
    · have hq := sweep_queue_consume px q n out
      simp only [sweep_levels, h1, if_true, resting, consume_append]
      by_cases h2 : (sweep_queue px q n out).1 = []
      · rw [if_pos h2, if_pos (by rw [← hq.1]; exact h2), ← hq.2]
        exact ih _ _
      · rw [if_neg h2, if_neg (by rw [← hq.1]; exact h2)]
        simp [resting, hq.1, hq.2]
    · simp only [sweep_levels, h1, if_false, resting]
      rw [consume_nonpos _ _ (not_lt.mp h1)]
      exact ⟨rfl, rfl⟩

theorem qty_sum_nonneg (L : List Order) (hpos : ∀ o ∈ L, 0 < o.qty) : 0 ≤ qty_sum L := by
  induction L with
  | nil => simp [qty_sum]
  | cons o os ih =>
    have h1 := hpos o (List.mem_cons_self _ _)
    have h2 := ih (fun x hx => hpos x (List.mem_cons_of_mem _ hx))
    simp only [qty_sum]; omega

theorem consume_pop (o : Order) (os : List Order) (n : Int) (h1 : 0 < n) (h2 : o.qty ≤ n) :
    consume (o :: os) n = consume os (n - o.qty) := by
  have hmin : min n o.qty = o.qty := by omega
  simp [consume, h1, hmin]

theorem consume_keep (o : Order) (os : List Order) (n : Int) (h1 : 0 < n) (h2 : n < o.qty) :
    consume (o :: os) n = ({ o with qty := o.qty - n } :: os, 0) := by
  have hmin : min n o.qty = n := by omega
  have h3 : ¬ o.qty - n = 0 := by omega
  simp [consume, h1, hmin, h3]

theorem consume_taken (L : List Order) (n : Int) (hpos : ∀ o ∈ L, 0 < o.qty) (hn : 0 ≤ n) :
    TakenFromFront L (consume L n).1 (min n (qty_sum L)) := by
  induction L generalizing n with
  | nil => exact ⟨[], [], rfl, Or.inl ⟨rfl, by simp [qty_sum]; omega⟩⟩
  | cons o os ih =>
    have ho := hpos o (List.mem_cons_self _ _)
    have hos : ∀ x ∈ os, 0 < x.qty := fun x hx => hpos x (List.mem_cons_of_mem _ hx)
    have hs := qty_sum_nonneg os hos
    by_cases h1 : 0 < n
    · by_cases h2 : o.qty ≤ n
      · rw [consume_pop o os n h1 h2]
        obtain ⟨gone, rest, hsplit, hcase⟩ := ih (n - o.qty) hos (by omega)
        refine ⟨o :: gone, rest, by simp [hsplit], ?_⟩
        rcases hcase with ⟨h3, h4⟩ | ⟨x, xs, r, h3, h4, h5, h6, h7⟩
        · exact Or.inl ⟨h3, by simp only [qty_sum]; omega⟩
        · exact Or.inr ⟨x, xs, r, h3, h4, h5, h6, by simp only [qty_sum]; omega⟩
      · rw [consume_keep o os n h1 (by omega)]
        exact ⟨[], o :: os, rfl, Or.inr ⟨o, os, n, rfl, h1, by omega, rfl,
          by simp only [qty_sum]; omega⟩⟩
    · have hn0 : n = 0 := by omega
      simp only [consume, h1, if_false]
      exact ⟨[], o :: os, rfl, Or.inl ⟨rfl, by simp only [qty_sum]; omega⟩⟩

theorem qty_sum_append (L M : List Order) : qty_sum (L ++ M) = qty_sum L + qty_sum M := by
  induction L with
  | nil => simp [qty_sum]
  | cons o os ih => simp [qty_sum, ih, add_assoc]

theorem TakenFromFront.qty_sum_eq {L L' : List Order} {taken : Int}
    (h : TakenFromFront L L' taken) : qty_sum L' = qty_sum L - taken := by
  obtain ⟨gone, rest, hsplit, hcase⟩ := h
  subst hsplit
  rcases hcase with ⟨h3, h4⟩ | ⟨x, xs, r, h3, h4, h5, h6, h7⟩
  · subst h3; rw [qty_sum_append]; omega
  · subst h3 h6; rw [qty_sum_append]; simp only [qty_sum]; omega

theorem sweep_levels_keys (m : PriceMap) (n : Int) (out : List Fill) :
    ∃ j, (sweep_levels m n out).1.map Prod.fst = (m.drop j).map Prod.fst := by
  induction m generalizing n out with
  | nil => exact ⟨0, rfl⟩
  | cons l rest ih =>
    obtain ⟨px, q⟩ := l
    by_cases h1 : 0 < n
    · by_cases h2 : (sweep_queue px q n out).1 = []
      · obtain ⟨j, hj⟩ := ih (sweep_queue px q n out).2.1 (sweep_queue px q n out).2.2
        exact ⟨j + 1, by simp only [sweep_levels, h1, h2, if_true, List.drop_succ_cons]; exact hj⟩
      · exact ⟨0, by simp [sweep_levels, h1, h2]⟩
    · exact ⟨0, by simp [sweep_levels, h1]⟩

theorem sweep_levels_zero (m : PriceMap) (out : List Fill) :
    sweep_levels m 0 out = (m, 0, out) := by
  cases m with
  | nil => rfl
  | cons l rest => obtain ⟨px, q⟩ := l; simp [sweep_levels]

/-- Claim C1.  On a book whose resting orders all have positive quantity and for `qty ≥ 0`,
`external_trade` removes exactly `min qty (total opposite quantity)` units from the side
opposite to the aggressor, from the front of that side in priority order (a prefix of the
orders disappears, at most the next order is reduced, all others are untouched); the
surviving levels are a tail of the original levels with their price keys; the aggressor's
own side is unchanged; and with `qty = 0` the book is unchanged and no fill is returned. -/
theorem external_trade_price_time_priority (b : OrderBook) (aggressor : Side) (qty : Int)
    (hpos : ∀ o ∈ resting b.bids_ ++ resting b.asks_, 0 < o.qty) (hqty : 0 ≤ qty) :
    TakenFromFront (resting (b.side_map aggressor.opposite))
        (resting ((b.external_trade aggressor qty).1.side_map aggressor.opposite))
        (min qty (total_qty (b.side_map aggressor.opposite))) ∧
      total_qty ((b.external_trade aggressor qty).1.side_map aggressor.opposite) =
        total_qty (b.side_map aggressor.opposite) -
          min qty (total_qty (b.side_map aggressor.opposite)) ∧
      (∃ j, ((b.external_trade aggressor qty).1.side_map aggressor.opposite).map Prod.fst =
        ((b.side_map aggressor.opposite).drop j).map Prod.fst) ∧
      (b.external_trade aggressor qty).1.side_map aggressor = b.side_map aggressor ∧
      b.external_trade aggressor 0 = (b, []) := by
  have key : ∀ m : PriceMap, (∀ o ∈ resting m, 0 < o.qty) →
      TakenFromFront (resting m) (resting (sweep_levels m qty []).1)
        (min qty (total_qty m)) := by
    intro m hm
    rw [(sweep_levels_consume m qty []).1]
    exact consume_taken _ _ hm hqty
  cases aggressor with
  | BID =>
    have hm : ∀ o ∈ resting b.asks_, 0 < o.qty :=
      fun o ho => hpos o (List.mem_append_right _ ho)
    refine ⟨key _ hm, (key _ hm).qty_sum_eq, sweep_levels_keys _ _ _, rfl, ?_⟩
    simp [external_trade, sweep_levels_zero]
  | ASK =>
    have hm : ∀ o ∈ resting b.bids_, 0 < o.qty :=
      fun o ho => hpos o (List.mem_append_left _ ho)
    refine ⟨key _ hm, (key _ hm).qty_sum_eq, sweep_levels_keys _ _ _, rfl, ?_⟩
    simp [external_trade, sweep_levels_zero]

theorem resting_at_snd (m : PriceMap) : (resting_at m).map Prod.snd = resting m := by
  induction m with
  | nil => rfl
  | cons l rest ih =>
    obtain ⟨p, q⟩ := l
    simp [resting_at, resting, ih, Function.comp_def]

theorem spec_takes_nonpos (L : List (Int × Order)) (n : Int) (h : n ≤ 0) :
    spec_takes L n = [] := by
  cases L with
  | nil => rfl
  | cons l rest => obtain ⟨p, o⟩ := l; simp [spec_takes, not_lt.mpr h]

theorem spec_fills_nonpos (L : List (Int × Order)) (n : Int) (h : n ≤ 0) :
    spec_fills L n = [] := by
  simp [spec_fills, spec_takes_nonpos L n h]

theorem consume_snd_cons (o : Order) (os : List Order) (n : Int) (h : 0 < n) :
    (consume (o :: os) n).2 = (consume os (n - min n o.qty)).2 := by
  by_cases h2 : o.qty - min n o.qty = 0
  · simp [consume, h, h2]
  · have h3 : n - min n o.qty ≤ 0 := by omega
    simp [consume, h, h2, consume_nonpos os _ h3]

theorem spec_takes_append (A B : List (Int × Order)) (n : Int) :
    spec_takes (A ++ B) n =
      spec_takes A n ++ spec_takes B (consume (A.map Prod.snd) n).2 := by
  induction A generalizing n with
  | nil => simp [spec_takes, consume]
  | cons l rest ih =>
    obtain ⟨p, o⟩ := l
    by_cases h : 0 < n
    · simp only [List.cons_append, spec_takes, h, if_true, List.map_cons,
        consume_snd_cons o _ n h]
      exact congrArg _ (ih _)
    · have h' : n ≤ 0 := not_lt.mp h
      simp [spec_takes, h, consume_nonpos _ _ h', spec_takes_nonpos B n h']

theorem spec_fills_append (A B : List (Int × Order)) (n : Int) :
    spec_fills (A ++ B) n =
      spec_fills A n ++ spec_fills B (consume (A.map Prod.snd) n).2 := by
  simp [spec_fills, spec_takes_append]

theorem sweep_queue_fills (px : Int) (q : LevelQueue) (n : Int) (out : List Fill) :
    (sweep_queue px q n out).2.2 = out ++ spec_fills (q.map (fun o => (px, o))) n := by
  induction q generalizing n out with
  | nil => simp [sweep_queue, spec_fills, spec_takes]
  | cons o os ih =>
    by_cases h1 : 0 < n
    · by_cases h2 : o.qty - min n o.qty = 0
      · simp only [sweep_queue, h1, h2, if_true, ih]
        cases ho : o.is_our_quote <;> simp [spec_fills, spec_takes, h1, ho]
      · have h3 : n - min n o.qty ≤ 0 := by omega
        simp only [sweep_queue, h1, h2, if_true, if_false]
        cases ho : o.is_our_quote <;>
          simp [spec_fills, spec_takes, h1, ho, spec_takes_nonpos _ _ h3]
    · simp [sweep_queue, h1, spec_fills_nonpos _ _ (not_lt.mp h1)]

theorem sweep_levels_fills (m : PriceMap) (n : Int) (out : List Fill) :
    (sweep_levels m n out).2.2 = out ++ spec_fills (resting_at m) n := by
  induction m generalizing n out with
  | nil => simp [sweep_levels, spec_fills, spec_takes, resting_at]
  | cons l rest ih =>
    obtain ⟨px, q⟩ := l
    by_cases h1 : 0 < n
    · have hq := sweep_queue_consume px q n out
      have hf := sweep_queue_fills px q n out
      have hmap : (q.map (fun o => (px, o))).map Prod.snd = q := by
        simp [Function.comp_def]
      by_cases h2 : (sweep_queue px q n out).1 = []
      · simp only [sweep_levels, h1, h2, if_true, ih, hf, hq.2, resting_at, spec_fills_append,
          hmap, List.append_assoc]
      · have h3 : (consume q n).2 ≤ 0 := by
          rcases consume_exit q n with h | h
          · exact absurd (hq.1.trans h) h2
          · exact h
        simp [sweep_levels, h1, h2, hf, resting_at, spec_fills_append, hmap,
          spec_fills_nonpos _ _ h3]
    · simp [sweep_levels, h1, spec_fills_nonpos _ _ (not_lt.mp h1)]

theorem spec_takes_mem (L : List (Int × Order)) (n : Int) (t : Int × Order × Int)
    (h : t ∈ spec_takes L n) :
    (t.1, t.2.1) ∈ L ∧ ∃ k, 0 < k ∧ t.2.2 = min k t.2.1.qty := by
  induction L generalizing n with
  | nil => simp [spec_takes] at h
  | cons l rest ih =>
    obtain ⟨p, o⟩ := l
    by_cases h1 : 0 < n
    · simp only [spec_takes, h1, if_true, List.mem_cons] at h
      rcases h with h | h
      · subst h
        exact ⟨List.mem_cons_self _ _, n, h1, rfl⟩
      · obtain ⟨h2, h3⟩ := ih _ h
        exact ⟨List.mem_cons_of_mem _ h2, h3⟩
    · simp [spec_takes, h1] at h

theorem spec_fills_mem (L : List (Int × Order)) (n : Int) (f : Fill)
    (h : f ∈ spec_fills L n) :
    ∃ po ∈ L, po.2.is_our_quote = true ∧ f.side = po.2.side ∧ f.px = po.1 ∧
      f.qty ≤ po.2.qty ∧ (0 < po.2.qty → 0 < f.qty) := by
  simp only [spec_fills, List.mem_map, List.mem_filter] at h
  obtain ⟨t, ⟨ht, hours⟩, rfl⟩ := h
  obtain ⟨hmem, k, hk, htake⟩ := spec_takes_mem L n t ht
  refine ⟨(t.1, t.2.1), hmem, hours, rfl, rfl, ?_, ?_⟩
  · simp only [htake]; omega
  · intro hpos
    have hpos' : 0 < t.2.1.qty := hpos
    simp only [htake]; omega

theorem fill_qty_sum_append (A B : List Fill) :
    fill_qty_sum (A ++ B) = fill_qty_sum A + fill_qty_sum B := by
  induction A with
  | nil => simp [fill_qty_sum]
  | cons f fs ih => simp [fill_qty_sum, ih, add_assoc]

theorem spec_fills_qty_sum (L : List (Int × Order)) (n : Int) :
    fill_qty_sum (spec_fills L n) =
      ours_qty (L.map Prod.snd) - ours_qty (consume (L.map Prod.snd) n).1 := by
  induction L generalizing n with
  | nil => simp [spec_fills, spec_takes, fill_qty_sum, consume]
  | cons l rest ih =>
    obtain ⟨p, o⟩ := l
    by_cases h1 : 0 < n
    · have ih' := ih (n - min n o.qty)
      simp only [spec_fills] at ih'
      by_cases h2 : o.qty - min n o.qty = 0
      · cases ho : o.is_our_quote <;>
          simp [spec_fills, spec_takes, h1, consume, h2, ho, ours_qty, fill_qty_sum,
            qty_sum] at ih' ⊢ <;> omega
      · have h3 : n - min n o.qty ≤ 0 := by omega
        cases ho : o.is_our_quote <;>
          simp [spec_fills, spec_takes, h1, consume, h2, ho, ours_qty, fill_qty_sum,
            qty_sum, spec_takes_nonpos _ _ h3]
    · simp [spec_fills_nonpos _ _ (not_lt.mp h1), consume_nonpos _ _ (not_lt.mp h1),
        fill_qty_sum]

/-- Claim C2.  On a book with positive resting quantities (whose orders are filed under
their own side, as in every reachable book), the fills returned by `external_trade` are
exactly the takes from the ours-tagged resting orders of the opposite side, in consumption
order (`spec_fills`); each fill has the side opposite to the aggressor, a positive
quantity, and the side and level price of an ours-tagged resting order whose quantity it
does not exceed; and the fill quantities add up to the quantity removed from ours-tagged
orders. -/
theorem external_trade_fills_of_ours (b : OrderBook) (aggressor : Side) (qty : Int)
    (hpos : ∀ o ∈ resting b.bids_ ++ resting b.asks_, 0 < o.qty)
    (hside : (∀ o ∈ resting b.bids_, o.side = Side.BID) ∧
      (∀ o ∈ resting b.asks_, o.side = Side.ASK)) :
    (b.external_trade aggressor qty).2 =
        spec_fills (resting_at (b.side_map aggressor.opposite)) qty ∧
      (∀ f ∈ (b.external_trade aggressor qty).2,
        f.side = aggressor.opposite ∧ 0 < f.qty ∧
        ∃ po ∈ resting_at (b.side_map aggressor.opposite),
          po.2.is_our_quote = true ∧ f.side = po.2.side ∧ f.px = po.1 ∧ f.qty ≤ po.2.qty) ∧
      fill_qty_sum (b.external_trade aggressor qty).2 =
        ours_qty (resting (b.side_map aggressor.opposite)) -
          ours_qty (resting ((b.external_trade aggressor qty).1.side_map aggressor.opposite)) := by
  have key : ∀ m : PriceMap, ∀ s : Side, (∀ o ∈ resting m, 0 < o.qty ∧ o.side = s) →
      (sweep_levels m qty []).2.2 = spec_fills (resting_at m) qty ∧
      (∀ f ∈ (sweep_levels m qty []).2.2, f.side = s ∧ 0 < f.qty ∧
        ∃ po ∈ resting_at m,
          po.2.is_our_quote = true ∧ f.side = po.2.side ∧ f.px = po.1 ∧ f.qty ≤ po.2.qty) ∧
      fill_qty_sum (sweep_levels m qty []).2.2 =
        ours_qty (resting m) - ours_qty (resting (sweep_levels m qty []).1) := by
    intro m s hm
    have hf : (sweep_levels m qty []).2.2 = spec_fills (resting_at m) qty := by
      simp [sweep_levels_fills]
    refine ⟨hf, ?_, ?_⟩
    · intro f hmem
      rw [hf] at hmem
      obtain ⟨po, hpo, h1, h2, h3, h4, h5⟩ := spec_fills_mem _ _ f hmem
      have hin : po.2 ∈ resting m := by
        rw [← resting_at_snd]; exact List.mem_map_of_mem _ hpo
      exact ⟨h2.trans (hm _ hin).2, h5 (hm _ hin).1, po, hpo, h1, h2, h3, h4⟩
    · rw [hf, spec_fills_qty_sum, resting_at_snd, (sweep_levels_consume m qty []).1]
  cases aggressor with
  | BID =>
    exact key b.asks_ Side.ASK
      (fun o ho => ⟨hpos o (List.mem_append_right _ ho), hside.2 o ho⟩)
  | ASK =>
    exact key b.bids_ Side.BID
      (fun o ho => ⟨hpos o (List.mem_append_left _ ho), hside.1 o ho⟩)

theorem fill_queue_consume (q : LevelQueue) (n f : Int) :
    fill_queue q n f = ((consume q n).1, (consume q n).2, f + (n - (consume q n).2)) := by
  induction q generalizing n f with
  | nil => simp [fill_queue, consume]
  | cons o os ih =>
    by_cases h1 : 0 < n
    · by_cases h2 : o.qty - min n o.qty = 0
      · simp only [fill_queue, consume, h1, h2, if_true, ih]
        refine Prod.ext rfl (Prod.ext rfl ?_)
        simp only; omega
      · simp only [fill_queue, consume, h1, h2, if_true, if_false]
        refine Prod.ext rfl (Prod.ext rfl ?_)
        simp only; omega
    · simp [fill_queue, consume, h1]

theorem fill_levels_sweep (m : PriceMap) (n f : Int) (out : List Fill) :
    fill_levels m n f =
      ((sweep_levels m n out).1, (sweep_levels m n out).2.1,
        f + (n - (sweep_levels m n out).2.1)) := by
  induction m generalizing n f out with
  | nil => simp [fill_levels, sweep_levels]
  | cons l rest ih =>
    obtain ⟨px, q⟩ := l
    by_cases h1 : 0 < n
    · have hq := sweep_queue_consume px q n out
      by_cases h2 : (sweep_queue px q n out).1 = []
      · have h2' : (consume q n).1 = [] := hq.1 ▸ h2
        simp only [fill_levels, sweep_levels, h1, if_true, fill_queue_consume, h2, h2']
        rw [ih (consume q n).2 _ (sweep_queue px q n out).2.2, hq.2]
        refine Prod.ext rfl (Prod.ext rfl ?_)
        simp only
        ring
      · have h2' : ¬ (consume q n).1 = [] := hq.1 ▸ h2
        simp only [fill_levels, sweep_levels, h1, if_true, if_false, fill_queue_consume, h2, h2']
        refine Prod.ext (by rw [hq.1]) (Prod.ext hq.2.symm ?_)
        simp only [hq.2]
    · simp [fill_levels, sweep_levels, h1]

theorem consume_snd_pos (L : List Order) (n : Int) (hpos : ∀ o ∈ L, 0 < o.qty) (hn : 0 ≤ n) :
    (consume L n).2 = n - min n (qty_sum L) := by
  induction L generalizing n with
  | nil => simp [consume, qty_sum]; omega
  | cons o os ih =>
    have ho := hpos o (List.mem_cons_self _ _)
    have hos : ∀ x ∈ os, 0 < x.qty := fun x hx => hpos x (List.mem_cons_of_mem _ hx)
    have hs := qty_sum_nonneg os hos
    by_cases h1 : 0 < n
    · by_cases h2 : o.qty ≤ n
      · rw [consume_pop o os n h1 h2, ih _ hos (by omega)]
        simp only [qty_sum]; omega
      · rw [consume_keep o os n h1 (by omega)]
        simp only [qty_sum]; omega
    · rw [consume_nonpos _ _ (not_lt.mp h1)]
      simp only [qty_sum]; omega

theorem consume_ids_sublist (L : List Order) (n : Int) :
    ((consume L n).1.map Order.id).Sublist (L.map Order.id) := by
  induction L generalizing n with
  | nil => simp [consume]
  | cons o os ih =>
    by_cases h1 : 0 < n
    · by_cases h2 : o.qty - min n o.qty = 0
      · simp only [consume, h1, h2, if_true, List.map_cons]
        exact (ih _).trans (List.sublist_cons_self _ _)
      · simp [consume, h1, h2]
    · simp [consume, h1]

/-- Claim C3 as the code has it.  For every book and every order that crosses,
`place_quote_and_sim_fill` leaves both price maps as `external_trade o.side o.qty` leaves
them and leaves the order's own side and the index as they were (nothing is rested or
indexed; the identifiers resting on the opposite side are among those resting before); and
when all resting quantities are positive and `o.qty ≥ 0` it returns
`filled = min o.qty (total opposite quantity)`. -/
theorem place_quote_crossing (b : OrderBook) (o : Order) (pre_best_opposite : Int)
    (hcross : b.crosses o = true) :
    (b.place_quote_and_sim_fill o pre_best_opposite).1.bids_ =
        (b.external_trade o.side o.qty).1.bids_ ∧
      (b.place_quote_and_sim_fill o pre_best_opposite).1.asks_ =
        (b.external_trade o.side o.qty).1.asks_ ∧
      (b.place_quote_and_sim_fill o pre_best_opposite).1.side_map o.side = b.side_map o.side ∧
      ((resting ((b.place_quote_and_sim_fill o pre_best_opposite).1.side_map
          o.side.opposite)).map Order.id).Sublist
        ((resting (b.side_map o.side.opposite)).map Order.id) ∧
      (b.place_quote_and_sim_fill o pre_best_opposite).1.index_ = b.index_ ∧
      ((∀ x ∈ resting b.bids_ ++ resting b.asks_, 0 < x.qty) → 0 ≤ o.qty →
        (b.place_quote_and_sim_fill o pre_best_opposite).2.1 =
          min o.qty (total_qty (b.side_map o.side.opposite))) := by
  have hfilled : ∀ m : PriceMap, (∀ x ∈ resting m, 0 < x.qty) → 0 ≤ o.qty →
      0 + (o.qty - (sweep_levels m o.qty []).2.1) = min o.qty (total_qty m) := by
    intro m hm hq
    rw [(sweep_levels_consume m o.qty []).2, consume_snd_pos _ _ hm hq, total_qty]
    omega
  have hids : ∀ m : PriceMap,
      ((resting (sweep_levels m o.qty []).1).map Order.id).Sublist
        ((resting m).map Order.id) := by
    intro m
    rw [(sweep_levels_consume m o.qty []).1]
    exact consume_ids_sublist _ _
  cases hs : o.side with
  | BID =>
    cases ha : b.asks_ with
    | nil => simp [OrderBook.crosses, hs, best_ask, ha] at hcross
    | cons l rest =>
      obtain ⟨p, q⟩ := l
      have hle : p ≤ o.px := by simpa [OrderBook.crosses, hs, best_ask, ha] using hcross
      simp only [place_quote_and_sim_fill, hs, ha, hle, if_true, external_trade,
        fill_levels_sweep _ _ _ [], OrderBook.side_map, Side.opposite]
      refine ⟨trivial, trivial, trivial, ?_, trivial, ?_⟩
      · exact hids _
      · intro hpos hq
        exact hfilled _ (fun x hx => hpos x (List.mem_append_right _ hx)) hq
  | ASK =>
    cases ha : b.bids_ with
    | nil => simp [OrderBook.crosses, hs, best_bid, ha] at hcross
    | cons l rest =>
      obtain ⟨p, q⟩ := l
      have hle : o.px ≤ p := by simpa [OrderBook.crosses, hs, best_bid, ha] using hcross
      simp only [place_quote_and_sim_fill, hs, ha, hle, if_true, external_trade,
        fill_levels_sweep _ _ _ [], OrderBook.side_map, Side.opposite]
      refine ⟨trivial, trivial, trivial, ?_, trivial, ?_⟩
      · exact hids _
      · intro hpos hq
        exact hfilled _ (fun x hx => hpos x (List.mem_append_left _ hx)) hq

theorem sweep_queue_exit (px : Int) (q : LevelQueue) (n : Int) (out : List Fill) :
    ¬ (0 < (sweep_queue px q n out).2.1 ∧ (sweep_queue px q n out).1 ≠ []) := by
  rw [(sweep_queue_consume px q n out).1, (sweep_queue_consume px q n out).2]
  rcases consume_exit q n with h | h
  · exact fun hc => hc.2 h
  · exact fun hc => absurd hc.1 (not_lt.mpr h)

theorem fill_queue_exit (q : LevelQueue) (n f : Int) :
    ¬ (0 < (fill_queue q n f).2.1 ∧ (fill_queue q n f).1 ≠ []) := by
  rw [fill_queue_consume]
  rcases consume_exit q n with h | h
  · exact fun hc => hc.2 h
  · exact fun hc => absurd hc.1 (not_lt.mpr h)

theorem sweep_levels_exit (m : PriceMap) (n : Int) (out : List Fill) :
    ¬ (0 < (sweep_levels m n out).2.1 ∧ (sweep_levels m n out).1 ≠ []) := by
  induction m generalizing n out with
  | nil => simp [sweep_levels]
  | cons l rest ih =>
    obtain ⟨px, q⟩ := l
    by_cases h1 : 0 < n
    · by_cases h2 : (sweep_queue px q n out).1 = []
      · simp only [sweep_levels, h1, h2, if_true]
        exact ih _ _
      · have hx := sweep_queue_exit px q n out
        simp only [sweep_levels, h1, h2, if_true, if_false]
        exact fun hc => hx ⟨hc.1, h2⟩
    · simp [sweep_levels, h1]

theorem external_trade_price_time_priority_witness :
    (∀ o ∈ resting book_S1.bids_ ++ resting book_S1.asks_, 0 < o.qty) ∧ (0 : Int) ≤ 6 ∧
      total_qty ((book_S1.external_trade Side.ASK 6).1.side_map Side.ASK.opposite) =
        total_qty (book_S1.side_map Side.ASK.opposite) -
          min 6 (total_qty (book_S1.side_map Side.ASK.opposite)) ∧
      (book_S1.external_trade Side.ASK 6).1.bids_ =
        [(99, [⟨"b2", Side.BID, 99, 2, 2, false⟩])] ∧
      book_S1.external_trade Side.BID 0 = (book_S1, []) :=
  ⟨by decide, by decide,
    (external_trade_price_time_priority book_S1 Side.ASK 6 (by decide) (by decide)).2.1,
    by decide, by decide⟩

theorem external_trade_fills_of_ours_witness :
    (∀ o ∈ resting book_S2.bids_ ++ resting book_S2.asks_, 0 < o.qty) ∧
      ((∀ o ∈ resting book_S2.bids_, o.side = Side.BID) ∧
        (∀ o ∈ resting book_S2.asks_, o.side = Side.ASK)) ∧
      (book_S2.external_trade Side.ASK 4).2 =
        spec_fills (resting_at (book_S2.side_map Side.ASK.opposite)) 4 ∧
      (book_S2.external_trade Side.ASK 4).2 = [⟨Side.BID, 2, 100⟩] ∧
      (book_S2.external_trade Side.ASK 4).1.bids_ =
        [(100, [⟨"B", Side.BID, 100, 1, 2, false⟩])] :=
  ⟨by decide, by decide,
    (external_trade_fills_of_ours book_S2 Side.ASK 4 (by decide) (by decide)).1,
    by decide, by decide⟩

theorem place_quote_crossing_witness :
    book_S3.crosses quote_S3 = true ∧
      (∀ x ∈ resting book_S3.bids_ ++ resting book_S3.asks_, 0 < x.qty) ∧
      (0 : Int) ≤ quote_S3.qty ∧
      (book_S3.place_quote_and_sim_fill quote_S3 101).2.1 =
        min quote_S3.qty (total_qty (book_S3.side_map quote_S3.side.opposite)) ∧
      (book_S3.place_quote_and_sim_fill quote_S3 101).2.1 = 6 ∧
      (book_S3.place_quote_and_sim_fill quote_S3 101).1.asks_ =
        [(102, [⟨"a2", Side.ASK, 102, 1, 2, true⟩])] ∧
      (book_S3.place_quote_and_sim_fill quote_S3 101).1.bids_ = [] :=
  ⟨by decide, by decide, by decide,
    (place_quote_crossing book_S3 quote_S3 101 (by decide)).2.2.2.2.2 (by decide) (by decide),
    by decide, by decide, by decide⟩

/-- Claim C3 fails on the code where a quantity is not positive.  (1) On `book_S3` a crossing
bid with quantity -1 is filled 0, while `min(-1, 7) = -1`.  (2) On `book_negative` (asks
101 with quantity 5, 102 with quantity -3, total 2) a crossing bid at 102 for 4 is filled 4,
while `min(4, 2) = 2`. -/
theorem place_quote_filled_not_min :
    book_S3.crosses ⟨"q", Side.BID, 102, -1, 3, true⟩ = true ∧
      (book_S3.place_quote_and_sim_fill ⟨"q", Side.BID, 102, -1, 3, true⟩ 101).2.1 = 0 ∧
      min (-1) (total_qty (book_S3.side_map Side.ASK)) = -1 ∧
      book_negative.crosses ⟨"q", Side.BID, 102, 4, 3, true⟩ = true ∧
      (book_negative.place_quote_and_sim_fill ⟨"q", Side.BID, 102, 4, 3, true⟩ 101).2.1 = 4 ∧
      min 4 (total_qty (book_negative.side_map Side.ASK)) = 2 := by
  decide

theorem size_for_inventory_eq_spec (P : Params) (I : Int) :
    size_for_inventory P I = spec_q_base P I := by
  simp only [size_for_inventory, spec_q_base]
  push_cast
  rfl

theorem size_for_inventory_ge_min (P : Params) (I : Int) :
    P.QTY_MIN ≤ size_for_inventory P I := by
  simp only [size_for_inventory]
  exact le_max_left _ _

theorem compute_quotes_bid_le (P : Params) (best_bid best_ask : Int) (st : State)
    (risk_off : Bool) :
    (compute_quotes_inventory_aware P best_bid best_ask st risk_off).bid_px ≤ best_bid := by
  simp only [compute_quotes_inventory_aware]
  split_ifs <;> first | exact min_le_right _ _ | exact le_refl _ | omega

theorem compute_quotes_ask_ge (P : Params) (best_bid best_ask : Int) (st : State)
    (risk_off : Bool) :
    best_ask ≤ (compute_quotes_inventory_aware P best_bid best_ask st risk_off).ask_px := by
  simp only [compute_quotes_inventory_aware]
  split_ifs <;> first | exact le_max_right _ _ | exact le_refl _ | omega

/-- Claim C8.  For all best prices, inventory, risk-off flag and parameters (`DELTA`,
`LAMBDA` exact rationals), the quotes returned by `compute_quotes_inventory_aware` satisfy
`bid_px ≤ best_bid` and `best_ask ≤ ask_px`; the returned prices are those after the
one-tick gating adjustment. -/
theorem compute_quotes_never_cross (P : Params) (best_bid best_ask : Int) (st : State)
    (risk_off : Bool) :
    (compute_quotes_inventory_aware P best_bid best_ask st risk_off).bid_px ≤ best_bid ∧
      best_ask ≤ (compute_quotes_inventory_aware P best_bid best_ask st risk_off).ask_px := by
  simp only [compute_quotes_inventory_aware]
  constructor
  · split_ifs <;> first | exact min_le_right _ _ | exact le_refl _ | omega
  · split_ifs <;> first | exact le_max_right _ _ | exact le_refl _ | omega

/-- Claim C9.  `enable_bid` is false exactly when (`|I| ≥ INV_SOFT` or `risk_off`) and
`I > 0`; `enable_ask` is false exactly when (`|I| ≥ INV_SOFT` or `risk_off`) and `I < 0`;
with `I = 0` both sides are enabled whatever `risk_off` is; the two sides are never both
disabled; and scenario S4 gives `enable_bid = false`, `enable_ask = true`. -/
theorem compute_quotes_side_gating (P : Params) (best_bid best_ask : Int) (st : State)
    (risk_off : Bool) :
    ((compute_quotes_inventory_aware P best_bid best_ask st risk_off).enable_bid = false ↔
        (P.INV_SOFT ≤ |st.inv_ticks| ∨ risk_off = true) ∧ 0 < st.inv_ticks) ∧
      ((compute_quotes_inventory_aware P best_bid best_ask st risk_off).enable_ask = false ↔
        (P.INV_SOFT ≤ |st.inv_ticks| ∨ risk_off = true) ∧ st.inv_ticks < 0) ∧
      (st.inv_ticks = 0 →
        (compute_quotes_inventory_aware P best_bid best_ask st risk_off).enable_bid = true ∧
        (compute_quotes_inventory_aware P best_bid best_ask st risk_off).enable_ask = true) ∧
      ¬ ((compute_quotes_inventory_aware P best_bid best_ask st risk_off).enable_bid = false ∧
        (compute_quotes_inventory_aware P best_bid best_ask st risk_off).enable_ask = false) ∧
      (compute_quotes_inventory_aware Params.defaults 100 101 state_S4 false).enable_bid
        = false ∧
      (compute_quotes_inventory_aware Params.defaults 100 101 state_S4 false).enable_ask
        = true := by
  refine ⟨?_, ?_, ?_, ?_, by decide, by decide⟩
  · simp only [compute_quotes_inventory_aware]
    cases risk_off <;> simp
  · simp only [compute_quotes_inventory_aware]
    cases risk_off <;> simp <;> omega
  · intro h0
    simp [compute_quotes_inventory_aware, h0]
  · simp only [compute_quotes_inventory_aware]
    cases risk_off <;> simp <;> omega

theorem compute_quotes_side_gating_witness :
    ({ inv_ticks := 0, cash_ticks := 0, peak_pnl_ticks := 0 } : State).inv_ticks = 0 ∧
      (compute_quotes_inventory_aware Params.defaults 100 101
        { inv_ticks := 0, cash_ticks := 0, peak_pnl_ticks := 0 } true).enable_bid = true ∧
      (compute_quotes_inventory_aware Params.defaults 100 101
        { inv_ticks := 0, cash_ticks := 0, peak_pnl_ticks := 0 } true).enable_ask = true :=
  ⟨rfl, (compute_quotes_side_gating Params.defaults 100 101
    { inv_ticks := 0, cash_ticks := 0, peak_pnl_ticks := 0 } true).2.2.1 rfl⟩

/-- Claim C10.  With exact arithmetic the base size is
`max(qty_min, floor(qty_base * max(0.2, 1 - |I| / max(1, inv_soft))))`; when
`|I| ≥ inv_soft` and `I > 0` the ask size is `q_base + 1` and the bid size `qty_min`; when
`|I| ≥ inv_soft` and `I < 0` the bid size is `q_base + 1` and the ask size `qty_min`;
otherwise both are `q_base`; every size is at least `qty_min`; and scenario S4 gives
`q_base = 1`, `qty_ask = 2`, `qty_bid = 1`. -/
theorem compute_quotes_sizes (P : Params) (best_bid best_ask : Int) (st : State)
    (risk_off : Bool) :
    size_for_inventory P st.inv_ticks = spec_q_base P st.inv_ticks ∧
      (compute_quotes_inventory_aware P best_bid best_ask st risk_off).qty_ask =
        (if P.INV_SOFT ≤ |st.inv_ticks| ∧ 0 < st.inv_ticks then
          spec_q_base P st.inv_ticks + 1
        else if P.INV_SOFT ≤ |st.inv_ticks| ∧ st.inv_ticks < 0 then P.QTY_MIN
        else spec_q_base P st.inv_ticks) ∧
      (compute_quotes_inventory_aware P best_bid best_ask st risk_off).qty_bid =
        (if P.INV_SOFT ≤ |st.inv_ticks| ∧ 0 < st.inv_ticks then P.QTY_MIN
        else if P.INV_SOFT ≤ |st.inv_ticks| ∧ st.inv_ticks < 0 then
          spec_q_base P st.inv_ticks + 1
        else spec_q_base P st.inv_ticks) ∧
      P.QTY_MIN ≤ (compute_quotes_inventory_aware P best_bid best_ask st risk_off).qty_bid ∧
      P.QTY_MIN ≤ (compute_quotes_inventory_aware P best_bid best_ask st risk_off).qty_ask ∧
      spec_q_base Params.defaults 55 = 1 ∧
      (compute_quotes_inventory_aware Params.defaults 100 101 state_S4 false).qty_ask = 2 ∧
      (compute_quotes_inventory_aware Params.defaults 100 101 state_S4 false).qty_bid = 1 := by
  have hge := size_for_inventory_ge_min P st.inv_ticks
  have heq := size_for_inventory_eq_spec P st.inv_ticks
  have hmax : max (size_for_inventory P st.inv_ticks) (size_for_inventory P st.inv_ticks + 1)
      = size_for_inventory P st.inv_ticks + 1 := max_eq_right (by omega)
  refine ⟨heq, ?_, ?_, ?_, ?_, by decide!, by decide!, by decide!⟩
  · simp only [compute_quotes_inventory_aware, hmax, ← heq]
    by_cases h1 : P.INV_SOFT ≤ |st.inv_ticks| <;> by_cases h2 : 0 < st.inv_ticks <;>
      by_cases h3 : st.inv_ticks < 0 <;> simp [h1, h2, h3]
  · simp only [compute_quotes_inventory_aware, hmax, ← heq]
    by_cases h1 : P.INV_SOFT ≤ |st.inv_ticks| <;> by_cases h2 : 0 < st.inv_ticks <;>
      by_cases h3 : st.inv_ticks < 0 <;> simp [h1, h2, h3]
  · simp only [compute_quotes_inventory_aware, hmax]
    split_ifs <;> omega
  · simp only [compute_quotes_inventory_aware, hmax]
    split_ifs <;> omega

theorem account_fills_append (d : Driver) (xs ys : List Fill) :
    account_fills d (xs ++ ys) = account_fills (account_fills d xs) ys := by
  simp [account_fills, List.foldl_append]

theorem quote_step_keeps_accounting (P : Params) (d : Driver) (bb ba : Int) :
    (quote_step P d bb ba).S.inv_ticks = d.S.inv_ticks ∧
      (quote_step P d bb ba).S.cash_ticks = d.S.cash_ticks ∧
      (quote_step P d bb ba).trades_total = d.trades_total ∧
      (quote_step P d bb ba).buys_total = d.buys_total ∧
      (quote_step P d bb ba).sells_total = d.sells_total :=
  ⟨rfl, rfl, rfl, rfl, rfl⟩

/-- Claim C4, evaluated on the code.  With the default parameters the rows
`ADD BID 100 5 x`, `ADD ASK 99 5 y` leave bid 100 above ask 99; in the second tick the
engine quotes bid 99 and ask 100 for 2 each, both enabled; the bid quote crosses and
`place_quote_and_sim_fill` reports `filled = 2` at `exec_px = 99`, and the ask quote then
fills 2 as well (3 units are left on each side of the book); yet after the tick inventory,
cash and the trade counters are all still 0: the returned fills never reach accounting. -/
theorem crossing_quote_fill_dropped :
    process_events Params.defaults Driver.init crossed_rows =
        quote_step Params.defaults driver_before_quotes 100 99 ∧
      compute_quotes_inventory_aware Params.defaults 100 99 driver_before_quotes.S false =
        { bid_px := 99, ask_px := 100, enable_bid := true, enable_ask := true,
          qty_bid := 2, qty_ask := 2 } ∧
      driver_before_quotes.ob.crosses (Order.mk "qb2" Side.BID 99 2 2 true) = true ∧
      (driver_before_quotes.ob.place_quote_and_sim_fill
        (Order.mk "qb2" Side.BID 99 2 2 true) 99).2 = (2, 99) ∧
      (process_events Params.defaults Driver.init crossed_rows).ob.bids_ =
        [(100, [Order.mk "x" Side.BID 100 3 1 false])] ∧
      (process_events Params.defaults Driver.init crossed_rows).ob.asks_ =
        [(99, [Order.mk "y" Side.ASK 99 3 2 false])] ∧
      (process_events Params.defaults Driver.init crossed_rows).S =
        { inv_ticks := 0, cash_ticks := 0, peak_pnl_ticks := 0 } ∧
      (process_events Params.defaults Driver.init crossed_rows).trades_total = 0 ∧
      (process_events Params.defaults Driver.init crossed_rows).buys_total = 0 ∧
      (process_events Params.defaults Driver.init crossed_rows).sells_total = 0 := by
  refine ⟨by decide!, by decide!, by decide!, by decide!, by decide!, by decide!, by decide!,
    by decide!, by decide!, by decide!⟩

theorem bidBefore_strict : StrictCmp bidBefore :=
  ⟨fun a => by simp [bidBefore],
   fun a b c h1 h2 => by simp only [bidBefore, decide_eq_true_eq] at *; omega,
   fun a b h1 h2 => by simp only [bidBefore, decide_eq_true_eq, decide_eq_false_iff_not] at *; omega⟩

theorem askBefore_strict : StrictCmp askBefore :=
  ⟨fun a => by simp [askBefore],
   fun a b c h1 h2 => by simp only [askBefore, decide_eq_true_eq] at *; omega,
   fun a b h1 h2 => by simp only [askBefore, decide_eq_true_eq, decide_eq_false_iff_not] at *; omega⟩

theorem level_find_none_of_not_mem (px : Int) (m : PriceMap) (h : px ∉ keys m) :
    level_find px m = none := by
  induction m with
  | nil => rfl
  | cons l rest ih =>
    obtain ⟨k, q⟩ := l
    simp only [keys, List.map_cons, List.mem_cons, not_or] at h
    have hk : ¬ k = px := fun e => h.1 e.symm
    simp only [level_find, hk, if_false]
    exact ih h.2

theorem level_find_push_same (before : Int → Int → Bool) (hc : StrictCmp before) (px : Int)
    (o : Order) (m : PriceMap) (hm : KeysOrdered before m) :
    level_find px (level_push before px o m) = some ((level_find px m).getD [] ++ [o]) := by
  induction m with
  | nil => simp [level_push, level_find]
  | cons l rest ih =>
    obtain ⟨k, q⟩ := l
    by_cases h1 : px = k
    · simp [level_push, level_find, h1]
    · have h1' : ¬ k = px := fun e => h1 e.symm
      by_cases h2 : before px k = true
      · have hnot : px ∉ keys ((k, q) :: rest) := by
          simp only [keys, List.map_cons, List.mem_cons, not_or]
          refine ⟨h1, fun hin => ?_⟩
          have hk := (List.pairwise_cons.mp hm).1 px hin
          have := hc.trans px k px h2 hk
          simp [hc.irrefl] at this
        have hnone := level_find_none_of_not_mem px _ hnot
        simp only [level_push, h1, h2, if_true, if_false, hnone]
        simp [level_find]
      · simp only [level_push, h1, h2, if_false, level_find, h1']
        exact ih (List.pairwise_cons.mp hm).2

theorem level_find_push_other (before : Int → Int → Bool) (px p : Int) (o : Order)
    (m : PriceMap) (hp : p ≠ px) :
    level_find p (level_push before px o m) = level_find p m := by
  have hp' : ¬ px = p := fun e => hp e.symm
  induction m with
  | nil => simp [level_push, level_find, hp']
  | cons l rest ih =>
    obtain ⟨k, q⟩ := l
    by_cases h1 : px = k
    · have : ¬ k = p := fun e => hp (e.symm.trans h1.symm)
      simp [level_push, level_find, h1, this]
    · by_cases h2 : before px k = true
      · simp [level_push, level_find, h1, h2, hp']
      · by_cases h3 : k = p
        · subst h3
          simp [level_push, level_find, h1, h2]
        · simp only [level_push, h1, h2, if_false, level_find, h3]
          exact ih

theorem index_find_set_same (id : String) (v : Side × Int) (idx : Index) :
    index_find id (index_set id v idx) = some v := by
  induction idx with
  | nil => simp [index_set, index_find]
  | cons e rest ih =>
    obtain ⟨k, w⟩ := e
    by_cases h : k = id
    · simp [index_set, index_find, h]
    · simp [index_set, index_find, h, ih]

theorem index_find_set_other (id id' : String) (v : Side × Int) (idx : Index)
    (h : id' ≠ id) : index_find id' (index_set id v idx) = index_find id' idx := by
  have h' : ¬ id = id' := fun e => h e.symm
  induction idx with
  | nil => simp [index_set, index_find, h']
  | cons e rest ih =>
    obtain ⟨k, w⟩ := e
    by_cases h1 : k = id
    · have : ¬ k = id' := fun e => h (e.symm.trans h1)
      simp [index_set, index_find, h1, h']
    · by_cases h2 : k = id'
      · subst h2
        simp [index_set, index_find, h1]
      · simp only [index_set, h1, if_false, index_find, h2]
        exact ih

/-- Claim C5 as the code has it.  `add_order` has no duplicate check and no result: on a
well-formed book, whether or not the identifier is already in the index, the order is
appended at the tail of the queue at its price on its side (a new level when there was
none), every other level of that side and the whole opposite side are unchanged, the index
entry of the identifier becomes the order's `(side, px)`, and the other entries are
unchanged. -/
theorem add_order_no_duplicate_check (b : OrderBook) (o : Order) (hwf : b.WellFormed) :
    level_find o.px ((b.add_order o).side_map o.side) =
        some ((level_find o.px (b.side_map o.side)).getD [] ++ [o]) ∧
      (∀ p, p ≠ o.px →
        level_find p ((b.add_order o).side_map o.side) = level_find p (b.side_map o.side)) ∧
      (b.add_order o).side_map o.side.opposite = b.side_map o.side.opposite ∧
      index_find o.id (b.add_order o).index_ = some (o.side, o.px) ∧
      (∀ id, id ≠ o.id → index_find id (b.add_order o).index_ = index_find id b.index_) := by
  cases hs : o.side with
  | BID =>
    simp only [add_order, hs, OrderBook.side_map, Side.opposite]
    exact ⟨level_find_push_same _ bidBefore_strict _ _ _ hwf.1,
      fun p hp => level_find_push_other _ _ _ _ _ hp, trivial,
      index_find_set_same _ _ _, fun id hid => index_find_set_other _ _ _ _ hid⟩
  | ASK =>
    simp only [add_order, hs, OrderBook.side_map, Side.opposite]
    exact ⟨level_find_push_same _ askBefore_strict _ _ _ hwf.2,
      fun p hp => level_find_push_other _ _ _ _ _ hp, trivial,
      index_find_set_same _ _ _, fun id hid => index_find_set_other _ _ _ _ hid⟩

theorem add_order_no_duplicate_check_witness :
    book_S2.WellFormed ∧
      index_find dup_order.id book_S2.index_ = some (Side.BID, 100) ∧
      level_find dup_order.px ((book_S2.add_order dup_order).side_map dup_order.side) =
        some ((level_find dup_order.px (book_S2.side_map dup_order.side)).getD [] ++
          [dup_order]) ∧
      index_find dup_order.id (book_S2.add_order dup_order).index_ =
        some (dup_order.side, dup_order.px) :=
  ⟨by decide, by decide,
    (add_order_no_duplicate_check book_S2 dup_order (by decide)).1,
    (add_order_no_duplicate_check book_S2 dup_order (by decide)).2.2.2.1⟩

/-- Claim C5 fails on the code: `book_S2` indexes the identifier `A` (a bid at 100), and
`add_order` of another order with identifier `A` (an ask at 105) is not rejected: it rests
on the ask side and the index entry of `A` is overwritten. -/
theorem add_order_duplicate_changes_state :
    index_find dup_order.id book_S2.index_ = some (Side.BID, 100) ∧
      book_S2.asks_ = [] ∧
      (book_S2.add_order dup_order).asks_ = [(105, [dup_order])] ∧
      index_find dup_order.id (book_S2.add_order dup_order).index_ = some (Side.ASK, 105) ∧
      book_S2.add_order dup_order ≠ book_S2 := by
  decide

theorem resting_append (A B : PriceMap) : resting (A ++ B) = resting A ++ resting B := by
  induction A with
  | nil => rfl
  | cons l rest ih => obtain ⟨p, q⟩ := l; simp [resting, ih]

theorem resting_at_append (A B : PriceMap) :
    resting_at (A ++ B) = resting_at A ++ resting_at B := by
  induction A with
  | nil => rfl
  | cons l rest ih => obtain ⟨p, q⟩ := l; simp [resting_at, ih]

theorem mem_resting_at (m : PriceMap) (p : Int) (o : Order) :
    (p, o) ∈ resting_at m ↔ ∃ q, (p, q) ∈ m ∧ o ∈ q := by
  induction m with
  | nil => simp [resting_at]
  | cons l rest ih =>
    obtain ⟨k, q0⟩ := l
    simp only [resting_at, List.mem_append, List.mem_map, Prod.mk.injEq, ih, List.mem_cons]
    constructor
    · rintro (⟨x, hx, rfl, rfl⟩ | ⟨q, hq, ho⟩)
      · exact ⟨q0, Or.inl ⟨rfl, rfl⟩, hx⟩
      · exact ⟨q, Or.inr hq, ho⟩
    · rintro ⟨q, (⟨rfl, rfl⟩ | hq), ho⟩
      · exact Or.inl ⟨o, ho, rfl, rfl⟩
      · exact Or.inr ⟨q, hq, ho⟩

theorem sweep_queue_mem (px : Int) (q : LevelQueue) (n : Int) (out : List Fill) (o' : Order)
    (h : o' ∈ (sweep_queue px q n out).1) : ∃ o ∈ q, Shrunk o' o := by
  induction q generalizing n out with
  | nil => simp [sweep_queue] at h
  | cons x xs ih =>
    by_cases h1 : 0 < n
    · by_cases h2 : x.qty - min n x.qty = 0
      · simp only [sweep_queue, h1, h2, if_true] at h
        obtain ⟨o, ho, hs⟩ := ih _ _ h
        exact ⟨o, List.mem_cons_of_mem _ ho, hs⟩
      · simp only [sweep_queue, h1, h2, if_true, if_false, List.mem_cons] at h
        rcases h with rfl | h
        · refine ⟨x, List.mem_cons_self _ _, rfl, rfl, rfl, Or.inr ?_⟩
          show 0 < x.qty - min n x.qty
          omega
        · exact ⟨o', List.mem_cons_of_mem _ h, rfl, rfl, rfl, Or.inl rfl⟩
    · simp only [sweep_queue, h1, if_false] at h
      exact ⟨o', h, rfl, rfl, rfl, Or.inl rfl⟩

theorem sweep_levels_mem (m : PriceMap) (n : Int) (out : List Fill) (p : Int) (o' : Order)
    (h : (p, o') ∈ resting_at (sweep_levels m n out).1) :
    ∃ o, (p, o) ∈ resting_at m ∧ Shrunk o' o := by
  induction m generalizing n out with
  | nil => simp [sweep_levels, resting_at] at h
  | cons l rest ih =>
    obtain ⟨px, q⟩ := l
    by_cases h1 : 0 < n
    · by_cases h2 : (sweep_queue px q n out).1 = []
      · simp only [sweep_levels, h1, h2, if_true] at h
        obtain ⟨o, ho, hs⟩ := ih _ _ h
        obtain ⟨qq, hqq, hoq⟩ := (mem_resting_at _ _ _).mp ho
        exact ⟨o, (mem_resting_at _ _ _).mpr ⟨qq, List.mem_cons_of_mem _ hqq, hoq⟩, hs⟩
      · simp only [sweep_levels, h1, h2, if_true, if_false] at h
        obtain ⟨qq, hqq, hoq⟩ := (mem_resting_at _ _ _).mp h
        rcases List.mem_cons.mp hqq with heq | hqq
        · obtain ⟨rfl, rfl⟩ := Prod.mk.inj heq
          obtain ⟨o, ho, hs⟩ := sweep_queue_mem _ _ _ _ _ hoq
          exact ⟨o, (mem_resting_at _ _ _).mpr ⟨q, List.mem_cons_self _ _, ho⟩, hs⟩
        · exact ⟨o', (mem_resting_at _ _ _).mpr ⟨qq, List.mem_cons_of_mem _ hqq, hoq⟩,
            rfl, rfl, rfl, Or.inl rfl⟩
    · simp only [sweep_levels, h1, if_false] at h
      exact ⟨o', h, rfl, rfl, rfl, Or.inl rfl⟩

theorem sweep_levels_ids (m : PriceMap) (n : Int) (out : List Fill) :
    ((resting (sweep_levels m n out).1).map Order.id).Sublist ((resting m).map Order.id) := by
  rw [(sweep_levels_consume m n out).1]
  exact consume_ids_sublist _ _

theorem sweep_levels_keys_sublist (m : PriceMap) (n : Int) (out : List Fill) :
    (keys (sweep_levels m n out).1).Sublist (keys m) := by
  obtain ⟨j, hj⟩ := sweep_levels_keys m n out
  simp only [keys, hj]
  exact (List.drop_sublist j m).map _

theorem fill_levels_fst (m : PriceMap) (n f : Int) :
    (fill_levels m n f).1 = (sweep_levels m n []).1 := by
  rw [fill_levels_sweep m n f []]

theorem level_push_resting_perm (before : Int → Int → Bool) (px : Int) (o : Order)
    (m : PriceMap) : List.Perm (resting (level_push before px o m)) (o :: resting m) := by
  induction m with
  | nil => simp [level_push, resting]
  | cons l rest ih =>
    obtain ⟨k, q⟩ := l
    by_cases h1 : px = k
    · simp only [level_push, h1, if_true, resting, List.append_assoc, List.singleton_append]
      exact (List.perm_middle).trans (List.Perm.refl _)
    · by_cases h2 : before px k = true
      · simp [level_push, h1, h2, resting]
      · simp only [level_push, h1, h2, if_false, resting]
        exact ((List.Perm.append_left q ih).trans List.perm_middle)

theorem level_push_resting_at (before : Int → Int → Bool) (px : Int) (o : Order)
    (m : PriceMap) (po : Int × Order) :
    po ∈ resting_at (level_push before px o m) ↔ po = (px, o) ∨ po ∈ resting_at m := by
  induction m with
  | nil => simp [level_push, resting_at]
  | cons l rest ih =>
    obtain ⟨k, q⟩ := l
    by_cases h1 : px = k
    · subst h1
      simp only [level_push, if_true, resting_at, List.map_append, List.mem_append,
        List.map_cons, List.map_nil, List.mem_singleton]
      tauto
    · by_cases h2 : before px k = true
      · simp [level_push, h1, h2, resting_at]
      · simp only [level_push, h1, h2, if_false, resting_at, List.mem_append, ih]
        tauto

theorem level_push_keys_mem (before : Int → Int → Bool) (px : Int) (o : Order)
    (m : PriceMap) (k' : Int) (h : k' ∈ keys (level_push before px o m)) :
    k' = px ∨ k' ∈ keys m := by
  induction m with
  | nil => simpa [level_push, keys] using h
  | cons l rest ih =>
    obtain ⟨k, q⟩ := l
    by_cases h1 : px = k
    · simp only [level_push, h1, if_true] at h
      exact Or.inr h
    · by_cases h2 : before px k = true
      · simp only [level_push, h1, h2, if_true, if_false] at h
        exact List.mem_cons.mp h
      · simp only [level_push, h1, h2, if_false] at h
        rcases List.mem_cons.mp h with h3 | h3
        · exact Or.inr (h3 ▸ List.mem_cons_self _ _)
        · rcases ih h3 with h4 | h4
          · exact Or.inl h4
          · exact Or.inr (List.mem_cons_of_mem _ h4)

theorem level_push_ordered (before : Int → Int → Bool) (hc : StrictCmp before) (px : Int)
    (o : Order) (m : PriceMap) (hm : KeysOrdered before m) :
    KeysOrdered before (level_push before px o m) := by
  induction m with
  | nil => simp [level_push, KeysOrdered, keys]
  | cons l rest ih =>
    obtain ⟨k, q⟩ := l
    have hm' := List.pairwise_cons.mp hm
    by_cases h1 : px = k
    · simpa [level_push, h1, KeysOrdered, keys] using hm
    · by_cases h2 : before px k = true
      · simp only [level_push, h1, h2, if_true, if_false, KeysOrdered, keys, List.map_cons]
        refine List.pairwise_cons.mpr ⟨?_, hm⟩
        intro x hx
        rcases List.mem_cons.mp hx with rfl | hx
        · exact h2
        · exact hc.trans _ _ _ h2 (hm'.1 x hx)
      · simp only [level_push, h1, h2, if_false, KeysOrdered, keys, List.map_cons]
        refine List.pairwise_cons.mpr ⟨?_, ih hm'.2⟩
        intro x hx
        rcases level_push_keys_mem before px o rest x hx with rfl | hx
        · exact hc.total _ _ h1 (by simpa using h2)
        · exact hm'.1 x hx

theorem queue_erase_split (id : String) (q q' : LevelQueue)
    (h : queue_erase id q = some q') : ∃ A x B, q = A ++ x :: B ∧ x.id = id ∧ q' = A ++ B := by
  induction q generalizing q' with
  | nil => simp [queue_erase] at h
  | cons o rest ih =>
    by_cases h1 : o.id = id
    · simp only [queue_erase, h1, if_true, Option.some.injEq] at h
      exact ⟨[], o, rest, rfl, h1, h.symm⟩
    · simp only [queue_erase, h1, if_false, Option.map_eq_some'] at h
      obtain ⟨r, hr, rfl⟩ := h
      obtain ⟨A, x, B, h2, h3, h4⟩ := ih r hr
      exact ⟨o :: A, x, B, by simp [h2], h3, by simp [h4]⟩

theorem level_find_split (px : Int) (m : PriceMap) (q : LevelQueue)
    (h : level_find px m = some q) :
    ∃ pre post, m = pre ++ (px, q) :: post ∧
      (∀ q', level_set px q' m = pre ++ (px, q') :: post) ∧
      level_erase px m = pre ++ post := by
  induction m with
  | nil => simp [level_find] at h
  | cons l rest ih =>
    obtain ⟨k, q0⟩ := l
    by_cases h1 : k = px
    · simp only [level_find, h1, if_true, Option.some.injEq] at h
      subst h1 h
      exact ⟨[], rest, rfl, fun q' => by simp [level_set], by simp [level_erase]⟩
    · simp only [level_find, h1, if_false] at h
      obtain ⟨pre, post, h2, h3, h4⟩ := ih h
      exact ⟨(k, q0) :: pre, post, by simp [h2], fun q' => by simp [level_set, h1, h3 q'],
        by simp [level_erase, h1, h4]⟩

theorem cancel_map_effect (px : Int) (id : String) (m : PriceMap) (q q' : LevelQueue)
    (hf : level_find px m = some q) (hq : queue_erase id q = some q') :
    (keys (if q' = [] then level_erase px m else level_set px q' m)).Sublist (keys m) ∧
      (∀ po ∈ resting_at (if q' = [] then level_erase px m else level_set px q' m),
        po ∈ resting_at m) ∧
      ∃ A x B, resting m = A ++ x :: B ∧ x.id = id ∧
        resting (if q' = [] then level_erase px m else level_set px q' m) = A ++ B := by
  obtain ⟨pre, post, hm, hset, herase⟩ := level_find_split px m q hf
  obtain ⟨A, x, B, hq1, hx, hq2⟩ := queue_erase_split id q q' hq
  have hrest : resting (if q' = [] then level_erase px m else level_set px q' m) =
      resting pre ++ (q' ++ resting post) := by
    by_cases he : q' = []
    · simp [he, herase, resting_append]
    · simp [he, hset, resting_append, resting]
  refine ⟨?_, ?_, resting pre ++ A, x, B ++ resting post, ?_, hx, ?_⟩
  · by_cases he : q' = []
    · rw [if_pos he, herase, hm]
      simp only [keys, List.map_append, List.map_cons]
      exact List.Sublist.append_left (List.sublist_cons_self _ _) _
    · rw [if_neg he, hset, hm]
      simp only [keys, List.map_append, List.map_cons]
      exact List.Sublist.refl _
  · intro po hpo
    obtain ⟨p, o⟩ := po
    have hsub : ∀ y ∈ q', y ∈ q := by
      intro y hy
      rw [hq1]; rw [hq2] at hy
      rcases List.mem_append.mp hy with h | h
      · exact List.mem_append_left _ h
      · exact List.mem_append_right _ (List.mem_cons_of_mem _ h)
    by_cases he : q' = []
    · simp only [he, if_true, herase, resting_at_append, List.mem_append] at hpo
      rw [hm, resting_at_append, List.mem_append]
      rcases hpo with h | h
      · exact Or.inl h
      · exact Or.inr (by simp only [resting_at, List.mem_append]; exact Or.inr h)
    · simp only [he, if_false, hset, resting_at_append, List.mem_append, resting_at,
        List.mem_map] at hpo
      rw [hm, resting_at_append]
      simp only [List.mem_append, resting_at, List.mem_map]
      rcases hpo with h | ⟨y, hy, hyeq⟩ | h
      · exact Or.inl h
      · exact Or.inr (Or.inl ⟨y, hsub y hy, hyeq⟩)
      · exact Or.inr (Or.inr h)
  · simp [hm, resting_append, resting, hq1]
  · rw [hrest, hq2]
    simp

theorem mem_resting_iff (m : PriceMap) (o : Order) :
    o ∈ resting m ↔ ∃ p, (p, o) ∈ resting_at m := by
  rw [← resting_at_snd]
  simp only [List.mem_map]
  constructor
  · rintro ⟨po, hpo, rfl⟩
    exact ⟨po.1, hpo⟩
  · rintro ⟨p, hp⟩
    exact ⟨(p, o), hp, rfl⟩

theorem keysOrdered_of_sublist (before : Int → Int → Bool) (m m' : PriceMap)
    (h : (keys m').Sublist (keys m)) (hm : KeysOrdered before m) : KeysOrdered before m' :=
  List.Pairwise.sublist h hm

theorem consistent_empty : OrderBook.empty.Consistent :=
  ⟨⟨by simp [OrderBook.empty, KeysOrdered, keys], by simp [OrderBook.empty, KeysOrdered, keys]⟩,
   ⟨by simp [OrderBook.empty, resting_at], by simp [OrderBook.empty, resting_at]⟩,
   by simp [OrderBook.all_resting, OrderBook.empty, resting],
   by simp [OrderBook.all_resting, OrderBook.empty, resting],
   by simp [OrderBook.all_resting, OrderBook.empty, resting]⟩

theorem consistent_of_shrunk (b b' : OrderBook) (hc : b.Consistent)
    (hidx : b'.index_ = b.index_)
    (hkb : (keys b'.bids_).Sublist (keys b.bids_))
    (hka : (keys b'.asks_).Sublist (keys b.asks_))
    (hmb : ∀ p o', (p, o') ∈ resting_at b'.bids_ →
      ∃ o, (p, o) ∈ resting_at b.bids_ ∧ Shrunk o' o)
    (hma : ∀ p o', (p, o') ∈ resting_at b'.asks_ →
      ∃ o, (p, o) ∈ resting_at b.asks_ ∧ Shrunk o' o)
    (hids : (b'.all_resting.map Order.id).Sublist (b.all_resting.map Order.id)) :
    b'.Consistent := by
  have hall : ∀ o' ∈ b'.all_resting, ∃ o ∈ b.all_resting, Shrunk o' o := by
    intro o' ho'
    rcases List.mem_append.mp ho' with h | h
    · obtain ⟨p, hp⟩ := (mem_resting_iff _ _).mp h
      obtain ⟨o, ho, hs⟩ := hmb p o' hp
      exact ⟨o, List.mem_append_left _ ((mem_resting_iff _ _).mpr ⟨p, ho⟩), hs⟩
    · obtain ⟨p, hp⟩ := (mem_resting_iff _ _).mp h
      obtain ⟨o, ho, hs⟩ := hma p o' hp
      exact ⟨o, List.mem_append_right _ ((mem_resting_iff _ _).mpr ⟨p, ho⟩), hs⟩
  refine ⟨⟨keysOrdered_of_sublist _ _ _ hkb hc.wf.1, keysOrdered_of_sublist _ _ _ hka hc.wf.2⟩,
    ⟨?_, ?_⟩, ?_, ?_, List.Nodup.sublist hids hc.unique⟩
  · rintro ⟨p, o'⟩ hpo
    obtain ⟨o, ho, hs⟩ := hmb p o' hpo
    have := hc.filed.1 (p, o) ho
    exact ⟨hs.2.1.trans this.1, hs.2.2.1.trans this.2⟩
  · rintro ⟨p, o'⟩ hpo
    obtain ⟨o, ho, hs⟩ := hma p o' hpo
    have := hc.filed.2 (p, o) ho
    exact ⟨hs.2.1.trans this.1, hs.2.2.1.trans this.2⟩
  · intro o' ho'
    obtain ⟨o, ho, hs⟩ := hall o' ho'
    rcases hs.2.2.2 with h | h
    · rw [h]; exact hc.positive o ho
    · exact h
  · intro o' ho'
    obtain ⟨o, ho, hs⟩ := hall o' ho'
    rw [hidx, hs.1, hs.2.1, hs.2.2.1]
    exact hc.indexed o ho

theorem shrunk_refl_mem (m : PriceMap) (p : Int) (o' : Order) (h : (p, o') ∈ resting_at m) :
    ∃ o, (p, o) ∈ resting_at m ∧ Shrunk o' o :=
  ⟨o', h, rfl, rfl, rfl, Or.inl rfl⟩

theorem consistent_external_trade (b : OrderBook) (aggressor : Side) (qty : Int)
    (hc : b.Consistent) : (b.external_trade aggressor qty).1.Consistent := by
  cases aggressor with
  | BID =>
    refine consistent_of_shrunk b _ hc rfl (List.Sublist.refl _)
      (sweep_levels_keys_sublist _ _ _) (shrunk_refl_mem _)
      (fun p o' h => sweep_levels_mem _ _ _ p o' h) ?_
    simp only [OrderBook.all_resting, external_trade, List.map_append]
    exact List.Sublist.append (List.Sublist.refl _) (sweep_levels_ids _ _ _)
  | ASK =>
    refine consistent_of_shrunk b _ hc rfl (sweep_levels_keys_sublist _ _ _)
      (List.Sublist.refl _) (fun p o' h => sweep_levels_mem _ _ _ p o' h)
      (shrunk_refl_mem _) ?_
    simp only [OrderBook.all_resting, external_trade, List.map_append]
    exact List.Sublist.append (sweep_levels_ids _ _ _) (List.Sublist.refl _)

theorem index_find_erase_other (id id' : String) (idx : Index) (h : id' ≠ id) :
    index_find id' (index_erase id idx) = index_find id' idx := by
  induction idx with
  | nil => rfl
  | cons e rest ih =>
    obtain ⟨k, w⟩ := e
    by_cases h1 : k = id
    · subst h1
      have : ¬ k = id' := fun e => h e.symm
      simp [index_erase, index_find, this]
    · by_cases h2 : k = id'
      · subst h2
        simp [index_erase, index_find, h1]
      · simp only [index_erase, h1, if_false, index_find, h2]
        exact ih

theorem consistent_of_removed (b b' : OrderBook) (id : String) (hc : b.Consistent)
    (hidx : b'.index_ = index_erase id b.index_)
    (hkb : (keys b'.bids_).Sublist (keys b.bids_))
    (hka : (keys b'.asks_).Sublist (keys b.asks_))
    (hmb : ∀ po ∈ resting_at b'.bids_, po ∈ resting_at b.bids_)
    (hma : ∀ po ∈ resting_at b'.asks_, po ∈ resting_at b.asks_)
    (hsplit : ∃ L1 x L2, b.all_resting = L1 ++ x :: L2 ∧ x.id = id ∧
      b'.all_resting = L1 ++ L2) :
    b'.Consistent := by
  obtain ⟨L1, x, L2, h1, hx, h2⟩ := hsplit
  have hsub : ∀ o ∈ b'.all_resting, o ∈ b.all_resting := by
    intro o ho
    rw [h1]; rw [h2] at ho
    rcases List.mem_append.mp ho with h | h
    · exact List.mem_append_left _ h
    · exact List.mem_append_right _ (List.mem_cons_of_mem _ h)
  have hnd := hc.unique
  rw [h1, List.map_append, List.map_cons] at hnd
  have hnd' := List.nodup_middle.mp hnd
  refine ⟨⟨keysOrdered_of_sublist _ _ _ hkb hc.wf.1, keysOrdered_of_sublist _ _ _ hka hc.wf.2⟩,
    ⟨fun po hpo => hc.filed.1 po (hmb po hpo), fun po hpo => hc.filed.2 po (hma po hpo)⟩,
    fun o ho => hc.positive o (hsub o ho), ?_, ?_⟩
  · intro o ho
    have hne : o.id ≠ id := by
      intro he
      have hin : o.id ∈ L1.map Order.id ++ L2.map Order.id := by
        rw [← List.map_append, ← h2]
        exact List.mem_map_of_mem _ ho
      exact (List.nodup_cons.mp hnd').1 (by rw [hx, ← he]; exact hin)
    rw [hidx, index_find_erase_other _ _ _ hne]
    exact hc.indexed o (hsub o ho)
  · rw [h2, List.map_append]
    exact (List.nodup_cons.mp hnd').2

theorem cancel_order_cases (b : OrderBook) (id : String) :
    b.cancel_order id = (b, false) ∨
      (∃ px q q', level_find px b.bids_ = some q ∧ queue_erase id q = some q' ∧
        b.cancel_order id =
          ({ bids_ := if q' = [] then level_erase px b.bids_ else level_set px q' b.bids_,
             asks_ := b.asks_, index_ := index_erase id b.index_ }, true)) ∨
      (∃ px q q', level_find px b.asks_ = some q ∧ queue_erase id q = some q' ∧
        b.cancel_order id =
          ({ bids_ := b.bids_,
             asks_ := if q' = [] then level_erase px b.asks_ else level_set px q' b.asks_,
             index_ := index_erase id b.index_ }, true)) := by
  cases hi : index_find id b.index_ with
  | none => left; simp only [cancel_order, hi]
  | some sp =>
    obtain ⟨side, px⟩ := sp
    cases side with
    | BID =>
      cases hf : level_find px b.bids_ with
      | none => left; simp only [cancel_order, hi, hf]
      | some q =>
        cases hq : queue_erase id q with
        | none => left; simp only [cancel_order, hi, hf, hq]
        | some q' =>
          right; left
          exact ⟨px, q, q', hf, hq, by simp only [cancel_order, hi, hf, hq]⟩
    | ASK =>
      cases hf : level_find px b.asks_ with
      | none => left; simp only [cancel_order, hi, hf]
      | some q =>
        cases hq : queue_erase id q with
        | none => left; simp only [cancel_order, hi, hf, hq]
        | some q' =>
          right; right
          exact ⟨px, q, q', hf, hq, by simp only [cancel_order, hi, hf, hq]⟩

theorem consistent_cancel_order (b : OrderBook) (id : String) (hc : b.Consistent) :
    (b.cancel_order id).1.Consistent := by
  rcases cancel_order_cases b id with h | ⟨px, q, q', hf, hq, h⟩ | ⟨px, q, q', hf, hq, h⟩
  · rw [h]; exact hc
  · rw [h]
    obtain ⟨hk, hm, A, x, B, hr, hx, hr'⟩ := cancel_map_effect px id b.bids_ q q' hf hq
    refine consistent_of_removed b _ id hc rfl hk (List.Sublist.refl _) hm
      (fun po h => h) ⟨A, x, B ++ resting b.asks_, ?_, hx, ?_⟩
    · simp [OrderBook.all_resting, hr]
    · simp only [OrderBook.all_resting, hr', List.append_assoc]
  · rw [h]
    obtain ⟨hk, hm, A, x, B, hr, hx, hr'⟩ := cancel_map_effect px id b.asks_ q q' hf hq
    refine consistent_of_removed b _ id hc rfl (List.Sublist.refl _) hk
      (fun po h => h) hm ⟨resting b.bids_ ++ A, x, B, ?_, hx, ?_⟩
    · simp [OrderBook.all_resting, hr]
    · simp only [OrderBook.all_resting, hr', List.append_assoc]

theorem level_find_of_mem (before : Int → Int → Bool) (hcmp : StrictCmp before) (m : PriceMap)
    (hm : KeysOrdered before m) (p : Int) (q : LevelQueue) (h : (p, q) ∈ m) :
    level_find p m = some q := by
  induction m with
  | nil => simp at h
  | cons l rest ih =>
    obtain ⟨k, q0⟩ := l
    have hm' := List.pairwise_cons.mp hm
    rcases List.mem_cons.mp h with heq | hin
    · obtain ⟨rfl, rfl⟩ := Prod.mk.inj heq
      simp [level_find]
    · have hk : p ∈ keys rest := List.mem_map_of_mem Prod.fst hin
      have hb := hm'.1 p hk
      have hne : ¬ k = p := by
        intro e
        rw [e, hcmp.irrefl] at hb
        exact Bool.noConfusion hb
      simp only [level_find, hne, if_false]
      exact ih hm'.2 hin

theorem add_order_all_resting_perm (b : OrderBook) (o : Order) :
    List.Perm (b.add_order o).all_resting (o :: b.all_resting) := by
  cases hs : o.side with
  | BID =>
    simp only [add_order, hs, OrderBook.all_resting]
    exact (List.Perm.append_right _ (level_push_resting_perm _ _ _ _))
  | ASK =>
    simp only [add_order, hs, OrderBook.all_resting]
    exact (List.Perm.append_left _ (level_push_resting_perm _ _ _ _)).trans
      List.perm_middle

theorem consistent_add_order (b : OrderBook) (o : Order) (hc : b.Consistent)
    (hq : 0 < o.qty) (hid : index_find o.id b.index_ = none) :
    (b.add_order o).Consistent := by
  have hperm := add_order_all_resting_perm b o
  have hfresh : ∀ x ∈ b.all_resting, x.id ≠ o.id := by
    intro x hx he
    have := hc.indexed x hx
    rw [he, hid] at this
    exact Option.noConfusion this
  have hidx : (b.add_order o).index_ = index_set o.id (o.side, o.px) b.index_ := by
    cases hs : o.side <;> simp [add_order, hs]
  refine ⟨?_, ?_, ?_, ?_, ?_⟩
  · cases hs : o.side with
    | BID =>
      simp only [add_order, hs, OrderBook.WellFormed]
      exact ⟨level_push_ordered _ bidBefore_strict _ _ _ hc.wf.1, hc.wf.2⟩
    | ASK =>
      simp only [add_order, hs, OrderBook.WellFormed]
      exact ⟨hc.wf.1, level_push_ordered _ askBefore_strict _ _ _ hc.wf.2⟩
  · cases hs : o.side with
    | BID =>
      simp only [add_order, hs, OrderBook.Filed]
      refine ⟨fun po hpo => ?_, hc.filed.2⟩
      rcases (level_push_resting_at _ _ _ _ po).mp hpo with rfl | h
      · exact ⟨hs, rfl⟩
      · exact hc.filed.1 po h
    | ASK =>
      simp only [add_order, hs, OrderBook.Filed]
      refine ⟨hc.filed.1, fun po hpo => ?_⟩
      rcases (level_push_resting_at _ _ _ _ po).mp hpo with rfl | h
      · exact ⟨hs, rfl⟩
      · exact hc.filed.2 po h
  · intro x hx
    rcases List.mem_cons.mp (hperm.mem_iff.mp hx) with rfl | h
    · exact hq
    · exact hc.positive x h
  · intro x hx
    rw [hidx]
    rcases List.mem_cons.mp (hperm.mem_iff.mp hx) with rfl | h
    · exact index_find_set_same _ _ _
    · rw [index_find_set_other _ _ _ _ (hfresh x h)]
      exact hc.indexed x h
  · have hp2 : List.Perm ((b.add_order o).all_resting.map Order.id)
        (o.id :: b.all_resting.map Order.id) := by
      simpa using hperm.map Order.id
    rw [hp2.nodup_iff, List.nodup_cons]
    refine ⟨fun hin => ?_, hc.unique⟩
    obtain ⟨x, hx, he⟩ := List.mem_map.mp hin
    exact hfresh x hx he

theorem place_quote_cases (b : OrderBook) (o : Order) (pre_best_opposite : Int) :
    (b.crosses o = true ∧
        (b.place_quote_and_sim_fill o pre_best_opposite).1 =
          (b.external_trade o.side o.qty).1) ∨
      (b.crosses o = false ∧
        b.place_quote_and_sim_fill o pre_best_opposite =
          (b.add_order { o with is_our_quote := true }, (0, 0))) := by
  cases hs : o.side with
  | BID =>
    cases ha : b.asks_ with
    | nil => right; simp [OrderBook.crosses, hs, best_ask, ha, place_quote_and_sim_fill]
    | cons l rest =>
      obtain ⟨p, q⟩ := l
      by_cases hle : p ≤ o.px
      · left
        refine ⟨by simp [OrderBook.crosses, hs, best_ask, ha, hle], ?_⟩
        simp only [place_quote_and_sim_fill, hs, ha, hle, if_true, external_trade,
          fill_levels_sweep _ _ _ []]
      · right
        simp [OrderBook.crosses, hs, best_ask, ha, hle, place_quote_and_sim_fill]
  | ASK =>
    cases ha : b.bids_ with
    | nil => right; simp [OrderBook.crosses, hs, best_bid, ha, place_quote_and_sim_fill]
    | cons l rest =>
      obtain ⟨p, q⟩ := l
      by_cases hle : o.px ≤ p
      · left
        refine ⟨by simp [OrderBook.crosses, hs, best_bid, ha, hle], ?_⟩
        simp only [place_quote_and_sim_fill, hs, ha, hle, if_true, external_trade,
          fill_levels_sweep _ _ _ []]
      · right
        simp [OrderBook.crosses, hs, best_bid, ha, hle, place_quote_and_sim_fill]

theorem consistent_place_quote (b : OrderBook) (o : Order) (pre_best_opposite : Int)
    (hc : b.Consistent) (hq : 0 < o.qty) (hid : index_find o.id b.index_ = none) :
    (b.place_quote_and_sim_fill o pre_best_opposite).1.Consistent := by
  rcases place_quote_cases b o pre_best_opposite with ⟨_, h⟩ | ⟨_, h⟩
  · rw [h]; exact consistent_external_trade b _ _ hc
  · rw [h]; exact consistent_add_order b _ hc hq hid

theorem reachable_consistent (b : OrderBook) (h : ReachableChecked b) : b.Consistent := by
  induction h with
  | empty => exact consistent_empty
  | add b o _ hok ih => exact consistent_add_order b o ih hok.1 hok.2
  | cancel b id _ ih => exact consistent_cancel_order b id ih
  | trade b s n _ ih => exact consistent_external_trade b s n ih
  | quote b o pre _ hok ih => exact consistent_place_quote b o pre ih hok.1 hok.2

/-- Claim C6 as the code has it.  In every book reachable from the empty book by
`add_order` and `place_quote_and_sim_fill` of positive-quantity orders whose identifier is
not in the index, `cancel_order` and `external_trade`: if an order with identifier `id`
rests in the book, then exactly one resting order carries `id`, it has positive quantity,
the index maps `id` to that order's side and price, and the order is in the queue of the
level at that price on that side.  (Nothing is stated about index entries whose order has
left the book.) -/
theorem reachable_resting_is_indexed (b : OrderBook) (hb : ReachableChecked b) (id : String)
    (hrest : id ∈ b.all_resting.map Order.id) :
    (b.all_resting.map Order.id).count id = 1 ∧
      ∃ o q, o.id = id ∧ 0 < o.qty ∧ index_find id b.index_ = some (o.side, o.px) ∧
        level_find o.px (b.side_map o.side) = some q ∧ o ∈ q := by
  have hc := reachable_consistent b hb
  refine ⟨List.count_eq_one_of_mem hc.unique hrest, ?_⟩
  obtain ⟨o, ho, rfl⟩ := List.mem_map.mp hrest
  rcases List.mem_append.mp ho with h | h
  · obtain ⟨p, hp⟩ := (mem_resting_iff _ _).mp h
    obtain ⟨hside, hpx⟩ := hc.filed.1 (p, o) hp
    obtain ⟨q, hq, hoq⟩ := (mem_resting_at _ _ _).mp hp
    refine ⟨o, q, rfl, hc.positive o ho, hc.indexed o ho, ?_, hoq⟩
    simp only at hside hpx
    rw [hside, hpx]
    exact level_find_of_mem _ bidBefore_strict _ hc.wf.1 p q hq
  · obtain ⟨p, hp⟩ := (mem_resting_iff _ _).mp h
    obtain ⟨hside, hpx⟩ := hc.filed.2 (p, o) hp
    obtain ⟨q, hq, hoq⟩ := (mem_resting_at _ _ _).mp hp
    refine ⟨o, q, rfl, hc.positive o ho, hc.indexed o ho, ?_, hoq⟩
    simp only at hside hpx
    rw [hside, hpx]
    exact level_find_of_mem _ askBefore_strict _ hc.wf.2 p q hq

theorem reachable_book_S2 (okQuote : OrderBook → Order → Prop) :
    ReachableBy OrderBook.admits okQuote book_S2 :=
  ReachableBy.add _ _ (ReachableBy.add _ _ ReachableBy.empty ⟨by decide, by decide⟩)
    ⟨by decide, by decide⟩

theorem reachable_resting_is_indexed_witness :
    ReachableChecked book_S2 ∧ "B" ∈ book_S2.all_resting.map Order.id ∧
      (book_S2.all_resting.map Order.id).count "B" = 1 ∧
      index_find "B" book_S2.index_ = some (Side.BID, 100) :=
  ⟨reachable_book_S2 _, by decide,
    (reachable_resting_is_indexed book_S2 (reachable_book_S2 _) "B" (by decide)).1, by decide⟩

/-- Claim C6 fails on the code, in both directions of the equivalence.  (1) `stale_book` is
reachable (add the ask `a1` with quantity 1, then an external buy of 1 consumes it); its
index still maps `a1` to `(ASK, 101)` although no order rests in the book.  (2) `twice_book`
is reachable (`book_S2`, then `place_quote_and_sim_fill` of a non-crossing bid that reuses
the identifier `A`); the index holds `A` and two resting orders carry it. -/
theorem index_not_in_lockstep :
    ReachableAddChecked stale_book ∧
      index_find "a1" stale_book.index_ = some (Side.ASK, 101) ∧
      stale_book.all_resting = [] ∧
      (stale_book.all_resting.map Order.id).count "a1" = 0 ∧
      ReachableAddChecked twice_book ∧
      index_find "A" twice_book.index_ = some (Side.BID, 99) ∧
      (twice_book.all_resting.map Order.id).count "A" = 2 :=
  ⟨ReachableBy.trade _ _ _ (ReachableBy.add _ _ ReachableBy.empty ⟨by decide, by decide⟩),
    by decide, by decide, by decide,
    ReachableBy.quote _ _ _ (reachable_book_S2 _) trivial,
    by decide, by decide⟩

theorem best_bid_mem_keys (b : OrderBook) (bb : Int) (h : b.best_bid = some bb) :
    bb ∈ keys b.bids_ := by
  cases hb : b.bids_ with
  | nil => simp [best_bid, hb] at h
  | cons l rest =>
    obtain ⟨p, q⟩ := l
    simp only [best_bid, hb, Option.some.injEq] at h
    simp [keys, h]

theorem best_ask_mem_keys (b : OrderBook) (ba : Int) (h : b.best_ask = some ba) :
    ba ∈ keys b.asks_ := by
  cases hb : b.asks_ with
  | nil => simp [best_ask, hb] at h
  | cons l rest =>
    obtain ⟨p, q⟩ := l
    simp only [best_ask, hb, Option.some.injEq] at h
    simp [keys, h]

theorem separated_uncrossed (b : OrderBook) (h : b.Separated) : b.Uncrossed :=
  fun bb ba hb ha => h bb (best_bid_mem_keys b bb hb) ba (best_ask_mem_keys b ba ha)

theorem keys_le_best_bid (b : OrderBook) (hwf : b.WellFormed) (bb : Int)
    (h : b.best_bid = some bb) : ∀ k ∈ keys b.bids_, k ≤ bb := by
  have hord := hwf.1
  cases hb : b.bids_ with
  | nil => simp [keys]
  | cons l rest =>
    obtain ⟨p, q⟩ := l
    simp only [best_bid, hb, Option.some.injEq] at h
    subst h
    rw [hb] at hord
    intro k hk
    rcases List.mem_cons.mp hk with rfl | hk
    · exact le_refl _
    · have := (List.pairwise_cons.mp hord).1 k hk
      simp only [bidBefore, decide_eq_true_eq] at this
      exact le_of_lt this

theorem best_ask_le_keys (b : OrderBook) (hwf : b.WellFormed) (ba : Int)
    (h : b.best_ask = some ba) : ∀ k ∈ keys b.asks_, ba ≤ k := by
  have hord := hwf.2
  cases hb : b.asks_ with
  | nil => simp [keys]
  | cons l rest =>
    obtain ⟨p, q⟩ := l
    simp only [best_ask, hb, Option.some.injEq] at h
    subst h
    rw [hb] at hord
    intro k hk
    rcases List.mem_cons.mp hk with rfl | hk
    · exact le_refl _
    · have := (List.pairwise_cons.mp hord).1 k hk
      simp only [askBefore, decide_eq_true_eq] at this
      exact le_of_lt this

theorem sound_of_keys_sublist (b b' : OrderBook)
    (hkb : (keys b'.bids_).Sublist (keys b.bids_))
    (hka : (keys b'.asks_).Sublist (keys b.asks_))
    (h : b.WellFormed ∧ b.Separated) : b'.WellFormed ∧ b'.Separated :=
  ⟨⟨keysOrdered_of_sublist _ _ _ hkb h.1.1, keysOrdered_of_sublist _ _ _ hka h.1.2⟩,
    fun kb hb ka ha => h.2 kb (hkb.subset hb) ka (hka.subset ha)⟩

theorem sound_external_trade (b : OrderBook) (aggressor : Side) (qty : Int)
    (h : b.WellFormed ∧ b.Separated) :
    (b.external_trade aggressor qty).1.WellFormed ∧
      (b.external_trade aggressor qty).1.Separated := by
  cases aggressor with
  | BID =>
    exact sound_of_keys_sublist b _ (List.Sublist.refl _) (sweep_levels_keys_sublist _ _ _) h
  | ASK =>
    exact sound_of_keys_sublist b _ (sweep_levels_keys_sublist _ _ _) (List.Sublist.refl _) h

theorem sound_cancel_order (b : OrderBook) (id : String) (h : b.WellFormed ∧ b.Separated) :
    (b.cancel_order id).1.WellFormed ∧ (b.cancel_order id).1.Separated := by
  rcases cancel_order_cases b id with hc | ⟨px, q, q', hf, hq, hc⟩ | ⟨px, q, q', hf, hq, hc⟩
  · rw [hc]; exact h
  · rw [hc]
    exact sound_of_keys_sublist b _ (cancel_map_effect px id b.bids_ q q' hf hq).1
      (List.Sublist.refl _) h
  · rw [hc]
    exact sound_of_keys_sublist b _ (List.Sublist.refl _)
      (cancel_map_effect px id b.asks_ q q' hf hq).1 h

theorem sound_add_order (b : OrderBook) (o : Order) (h : b.WellFormed ∧ b.Separated)
    (hnc : b.crosses o = false) :
    (b.add_order o).WellFormed ∧ (b.add_order o).Separated := by
  cases hs : o.side with
  | BID =>
    have hlt : ∀ ka ∈ keys b.asks_, o.px < ka := by
      intro ka hka
      cases hba : b.best_ask with
      | none =>
        cases hm : b.asks_ with
        | nil => simp [hm, keys] at hka
        | cons l rest => obtain ⟨p, q⟩ := l; simp [best_ask, hm] at hba
      | some ba =>
        have h1 : o.px < ba := by simpa [OrderBook.crosses, hs, hba] using hnc
        exact lt_of_lt_of_le h1 (best_ask_le_keys b h.1 ba hba ka hka)
    simp only [add_order, hs, OrderBook.WellFormed, OrderBook.Separated]
    refine ⟨⟨level_push_ordered _ bidBefore_strict _ _ _ h.1.1, h.1.2⟩, ?_⟩
    intro kb hkb ka hka
    rcases level_push_keys_mem _ _ _ _ _ hkb with rfl | hkb
    · exact hlt ka hka
    · exact h.2 kb hkb ka hka
  | ASK =>
    have hlt : ∀ kb ∈ keys b.bids_, kb < o.px := by
      intro kb hkb
      cases hbb : b.best_bid with
      | none =>
        cases hm : b.bids_ with
        | nil => simp [hm, keys] at hkb
        | cons l rest => obtain ⟨p, q⟩ := l; simp [best_bid, hm] at hbb
      | some bb =>
        have h1 : bb < o.px := by simpa [OrderBook.crosses, hs, hbb] using hnc
        exact lt_of_le_of_lt (keys_le_best_bid b h.1 bb hbb kb hkb) h1
    simp only [add_order, hs, OrderBook.WellFormed, OrderBook.Separated]
    refine ⟨⟨h.1.1, level_push_ordered _ askBefore_strict _ _ _ h.1.2⟩, ?_⟩
    intro kb hkb ka hka
    rcases level_push_keys_mem _ _ _ _ _ hka with rfl | hka
    · exact hlt kb hkb
    · exact h.2 kb hkb ka hka

theorem account_fills_ob (d : Driver) (fills : List Fill) :
    (account_fills d fills).ob = d.ob := by
  induction fills generalizing d with
  | nil => rfl
  | cons f fs ih =>
    simp only [account_fills, List.foldl_cons] at ih ⊢
    rw [ih]
    cases hf : f.side <;> simp [account_fill, hf]

theorem sound_apply_event (d : Driver) (e : Event)
    (h : d.ob.WellFormed ∧ d.ob.Separated) (hnc : e.crosses d.ob = false) :
    (apply_event d e).ob.WellFormed ∧ (apply_event d e).ob.Separated := by
  cases e with
  | ADD ts side px qty id =>
    simp only [apply_event]
    exact sound_add_order d.ob _ h (by simpa [Event.crosses, OrderBook.crosses] using hnc)
  | CANCEL ts id =>
    simp only [apply_event]
    exact sound_cancel_order d.ob id h
  | TRADE ts side qty =>
    simp only [apply_event, account_fills_ob]
    exact sound_external_trade d.ob side qty h
  | OTHER ts => exact h

theorem sound_place_quote (b : OrderBook) (o : Order) (pre_best_opposite : Int)
    (h : b.WellFormed ∧ b.Separated) (hnc : b.crosses o = false) :
    (b.place_quote_and_sim_fill o pre_best_opposite).1 =
        b.add_order { o with is_our_quote := true } ∧
      (b.place_quote_and_sim_fill o pre_best_opposite).2.1 = 0 ∧
      (b.place_quote_and_sim_fill o pre_best_opposite).1.WellFormed ∧
      (b.place_quote_and_sim_fill o pre_best_opposite).1.Separated := by
  rcases place_quote_cases b o pre_best_opposite with ⟨hc, _⟩ | ⟨_, hp⟩
  · rw [hnc] at hc; exact Bool.noConfusion hc
  · rw [hp]
    exact ⟨rfl, rfl, sound_add_order b _ h (by simpa [OrderBook.crosses] using hnc)⟩

theorem crosses_false_of_bid (b : OrderBook) (o : Order) (hs : o.side = Side.BID)
    (h : ∀ ba, b.best_ask = some ba → o.px < ba) : b.crosses o = false := by
  cases hba : b.best_ask with
  | none => simp [OrderBook.crosses, hs, hba]
  | some ba => simpa [OrderBook.crosses, hs, hba] using h ba hba

theorem crosses_false_of_ask (b : OrderBook) (o : Order) (hs : o.side = Side.ASK)
    (h : ∀ bb, b.best_bid = some bb → bb < o.px) : b.crosses o = false := by
  cases hbb : b.best_bid with
  | none => simp [OrderBook.crosses, hs, hbb]
  | some bb => simpa [OrderBook.crosses, hs, hbb] using h bb hbb

theorem sound_place_quotes (b : OrderBook) (bb ba : Int) (ob oa : Order)
    (enable_bid enable_ask : Bool)
    (h : b.WellFormed ∧ b.Separated)
    (hba : b.best_ask = some ba)
    (hsb : ob.side = Side.BID) (hsa : oa.side = Side.ASK)
    (hbid : ob.px < ba) (hask : ba ≤ oa.px) :
    (if enable_ask = true then
        ((if enable_bid = true then (b.place_quote_and_sim_fill ob ba).1
          else b).place_quote_and_sim_fill oa bb).1
      else (if enable_bid = true then (b.place_quote_and_sim_fill ob ba).1 else b)).WellFormed ∧
    (if enable_ask = true then
        ((if enable_bid = true then (b.place_quote_and_sim_fill ob ba).1
          else b).place_quote_and_sim_fill oa bb).1
      else (if enable_bid = true then (b.place_quote_and_sim_fill ob ba).1 else b)).Separated := by
  have hncb : b.crosses ob = false :=
    crosses_false_of_bid b ob hsb (fun x hx => by rw [hba] at hx; cases hx; exact hbid)
  have h1 : (if enable_bid = true then (b.place_quote_and_sim_fill ob ba).1 else b).WellFormed ∧
      (if enable_bid = true then (b.place_quote_and_sim_fill ob ba).1 else b).Separated ∧
      (if enable_bid = true then (b.place_quote_and_sim_fill ob ba).1 else b).asks_ = b.asks_ := by
    cases enable_bid with
    | false => exact ⟨h.1, h.2, rfl⟩
    | true =>
      have hp := sound_place_quote b ob ba h hncb
      refine ⟨hp.2.2.1, hp.2.2.2, ?_⟩
      simp only [if_true, hp.1, add_order, hsb]
  generalize (if enable_bid = true then (b.place_quote_and_sim_fill ob ba).1 else b) = b1 at h1 ⊢
  cases enable_ask with
  | false => exact ⟨h1.1, h1.2.1⟩
  | true =>
    have hba1 : ba ∈ keys b1.asks_ := by rw [h1.2.2]; exact best_ask_mem_keys b ba hba
    have hnca : b1.crosses oa = false :=
      crosses_false_of_ask b1 oa hsa (fun x hx =>
        lt_of_lt_of_le (h1.2.1 x (best_bid_mem_keys b1 x hx) ba hba1) hask)
    have hp := sound_place_quote b1 oa bb ⟨h1.1, h1.2.1⟩ hnca
    exact ⟨hp.2.2.1, hp.2.2.2⟩

theorem sound_quote_step (P : Params) (d : Driver) (bb ba : Int)
    (h : d.ob.WellFormed ∧ d.ob.Separated)
    (hbb : d.ob.best_bid = some bb) (hba : d.ob.best_ask = some ba) :
    (quote_step P d bb ba).ob.WellFormed ∧ (quote_step P d bb ba).ob.Separated := by
  have hlt : bb < ba := separated_uncrossed _ h.2 bb ba hbb hba
  simp only [quote_step]
  exact sound_place_quotes d.ob bb ba _ _ _ _ h hba rfl rfl
    (lt_of_le_of_lt (compute_quotes_bid_le P bb ba _ _) hlt) (compute_quotes_ask_ge P bb ba _ _)

theorem sound_process_event (P : Params) (d : Driver) (e : Event)
    (h : d.ob.WellFormed ∧ d.ob.Separated) (hnc : e.crosses d.ob = false) :
    (process_event P d e).ob.WellFormed ∧ (process_event P d e).ob.Separated := by
  simp only [process_event]
  split
  · next bb ba hbb hba =>
    exact sound_quote_step P _ bb ba (sound_apply_event _ e h hnc) hbb hba
  · exact sound_apply_event _ e h hnc

theorem sound_process_events (P : Params) (d : Driver) (events : List Event)
    (h : d.ob.WellFormed ∧ d.ob.Separated) (hnc : no_crossing_add P d events = true) :
    (process_events P d events).ob.WellFormed ∧ (process_events P d events).ob.Separated := by
  induction events generalizing d with
  | nil => exact h
  | cons e es ih =>
    simp only [no_crossing_add, Bool.and_eq_true, Bool.not_eq_true'] at hnc
    simp only [process_events, List.foldl_cons]
    exact ih (process_event P d e) (sound_process_event P d e h hnc.1) hnc.2

theorem no_crossing_add_take (P : Params) (d : Driver) (events : List Event) (k : Nat)
    (hnc : no_crossing_add P d events = true) :
    no_crossing_add P d (events.take k) = true := by
  induction events generalizing d k with
  | nil => simp [no_crossing_add]
  | cons e es ih =>
    cases k with
    | zero => simp [no_crossing_add]
    | succ k =>
      simp only [no_crossing_add, Bool.and_eq_true, Bool.not_eq_true', List.take_succ_cons]
        at hnc ⊢
      exact ⟨hnc.1, ih _ k hnc.2⟩

/-- Claim C7 as the code has it.  Starting from an empty book (any strategy state, synthetic
flow off), for every sequence of rows in which no `ADD` crosses the book it is applied to,
after each row completes `best_bid < best_ask` whenever both sides are non-empty. -/
theorem replay_uncrossed (P : Params) (d : Driver) (events : List Event) (k : Nat)
    (hempty : d.ob = OrderBook.empty) (hnc : no_crossing_add P d events = true) :
    (process_events P d (events.take k)).ob.Uncrossed := by
  have h0 : d.ob.WellFormed ∧ d.ob.Separated := by
    rw [hempty]
    exact ⟨consistent_empty.wf, by simp [OrderBook.Separated, OrderBook.empty, keys]⟩
  exact separated_uncrossed _
    (sound_process_events P d _ h0 (no_crossing_add_take P d events k hnc)).2

theorem replay_uncrossed_witness :
    Driver.init.ob = OrderBook.empty ∧
      no_crossing_add Params.defaults Driver.init calm_rows = true ∧
      (process_events Params.defaults Driver.init (calm_rows.take 3)).ob.Uncrossed ∧
      (process_events Params.defaults Driver.init (calm_rows.take 3)).ob.best_bid = some 100 ∧
      (process_events Params.defaults Driver.init (calm_rows.take 3)).ob.best_ask = some 102 :=
  ⟨rfl, by decide!,
    replay_uncrossed Params.defaults Driver.init calm_rows 3 rfl (by decide!),
    by decide!, by decide!⟩

/-- Claim C7 fails on the code: after the rows `ADD BID 100 5 x`, `ADD ASK 99 5 y` (default
parameters, empty start) the second tick ends with best bid 100 and best ask 99, so the
book is crossed after the event completes. -/
theorem crossing_add_leaves_book_crossed :
    (process_events Params.defaults Driver.init crossed_rows).ob.best_bid = some 100 ∧
      (process_events Params.defaults Driver.init crossed_rows).ob.best_ask = some 99 ∧
      ¬ (process_events Params.defaults Driver.init crossed_rows).ob.Uncrossed := by
  have hb : (process_events Params.defaults Driver.init crossed_rows).ob.best_bid = some 100 := by
    decide!
  have ha : (process_events Params.defaults Driver.init crossed_rows).ob.best_ask = some 99 := by
    decide!
  exact ⟨hb, ha, fun h => absurd (h 100 99 hb ha) (by decide)⟩

theorem reachableBy_mono (okAdd okQuote okAdd' okQuote' : OrderBook → Order → Prop)
    (hadd : ∀ b o, okAdd b o → okAdd' b o) (hquote : ∀ b o, okQuote b o → okQuote' b o)
    (b : OrderBook) (h : ReachableBy okAdd okQuote b) : ReachableBy okAdd' okQuote' b := by
  induction h with
  | empty => exact ReachableBy.empty
  | add b o _ hok ih => exact ReachableBy.add b o ih (hadd b o hok)
  | cancel b id _ ih => exact ReachableBy.cancel b id ih
  | trade b s n _ ih => exact ReachableBy.trade b s n ih
  | quote b o pre _ hok ih => exact ReachableBy.quote b o pre ih (hquote b o hok)

theorem sane_add_order (b : OrderBook) (o : Order) (h : b.WellFormed ∧ b.Filed) :
    (b.add_order o).WellFormed ∧ (b.add_order o).Filed := by
  cases hs : o.side with
  | BID =>
    simp only [add_order, hs, OrderBook.WellFormed, OrderBook.Filed]
    refine ⟨⟨level_push_ordered _ bidBefore_strict _ _ _ h.1.1, h.1.2⟩,
      fun po hpo => ?_, h.2.2⟩
    rcases (level_push_resting_at _ _ _ _ po).mp hpo with rfl | hin
    · exact ⟨hs, rfl⟩
    · exact h.2.1 po hin
  | ASK =>
    simp only [add_order, hs, OrderBook.WellFormed, OrderBook.Filed]
    refine ⟨⟨h.1.1, level_push_ordered _ askBefore_strict _ _ _ h.1.2⟩, h.2.1,
      fun po hpo => ?_⟩
    rcases (level_push_resting_at _ _ _ _ po).mp hpo with rfl | hin
    · exact ⟨hs, rfl⟩
    · exact h.2.2 po hin

theorem sane_of_shrunk (b b' : OrderBook) (h : b.WellFormed ∧ b.Filed)
    (hkb : (keys b'.bids_).Sublist (keys b.bids_))
    (hka : (keys b'.asks_).Sublist (keys b.asks_))
    (hmb : ∀ p o', (p, o') ∈ resting_at b'.bids_ →
      ∃ o, (p, o) ∈ resting_at b.bids_ ∧ Shrunk o' o)
    (hma : ∀ p o', (p, o') ∈ resting_at b'.asks_ →
      ∃ o, (p, o) ∈ resting_at b.asks_ ∧ Shrunk o' o) :
    b'.WellFormed ∧ b'.Filed := by
  refine ⟨⟨keysOrdered_of_sublist _ _ _ hkb h.1.1, keysOrdered_of_sublist _ _ _ hka h.1.2⟩,
    ?_, ?_⟩
  · rintro ⟨p, o'⟩ hpo
    obtain ⟨o, ho, hs⟩ := hmb p o' hpo
    have := h.2.1 (p, o) ho
    exact ⟨hs.2.1.trans this.1, hs.2.2.1.trans this.2⟩
  · rintro ⟨p, o'⟩ hpo
    obtain ⟨o, ho, hs⟩ := hma p o' hpo
    have := h.2.2 (p, o) ho
    exact ⟨hs.2.1.trans this.1, hs.2.2.1.trans this.2⟩

theorem sane_external_trade (b : OrderBook) (aggressor : Side) (qty : Int)
    (h : b.WellFormed ∧ b.Filed) :
    (b.external_trade aggressor qty).1.WellFormed ∧ (b.external_trade aggressor qty).1.Filed := by
  cases aggressor with
  | BID =>
    exact sane_of_shrunk b _ h (List.Sublist.refl _) (sweep_levels_keys_sublist _ _ _)
      (shrunk_refl_mem _) (fun p o' hm => sweep_levels_mem _ _ _ p o' hm)
  | ASK =>
    exact sane_of_shrunk b _ h (sweep_levels_keys_sublist _ _ _) (List.Sublist.refl _)
      (fun p o' hm => sweep_levels_mem _ _ _ p o' hm) (shrunk_refl_mem _)

theorem sane_cancel_order (b : OrderBook) (id : String) (h : b.WellFormed ∧ b.Filed) :
    (b.cancel_order id).1.WellFormed ∧ (b.cancel_order id).1.Filed := by
  rcases cancel_order_cases b id with hc | ⟨px, q, q', hf, hq, hc⟩ | ⟨px, q, q', hf, hq, hc⟩
  · rw [hc]; exact h
  · rw [hc]
    obtain ⟨hk, hm, _⟩ := cancel_map_effect px id b.bids_ q q' hf hq
    exact ⟨⟨keysOrdered_of_sublist _ _ _ hk h.1.1, h.1.2⟩,
      fun po hpo => h.2.1 po (hm po hpo), h.2.2⟩
  · rw [hc]
    obtain ⟨hk, hm, _⟩ := cancel_map_effect px id b.asks_ q q' hf hq
    exact ⟨⟨h.1.1, keysOrdered_of_sublist _ _ _ hk h.1.2⟩,
      h.2.1, fun po hpo => h.2.2 po (hm po hpo)⟩

theorem sane_place_quote (b : OrderBook) (o : Order) (pre_best_opposite : Int)
    (h : b.WellFormed ∧ b.Filed) :
    (b.place_quote_and_sim_fill o pre_best_opposite).1.WellFormed ∧
      (b.place_quote_and_sim_fill o pre_best_opposite).1.Filed := by
  rcases place_quote_cases b o pre_best_opposite with ⟨_, hp⟩ | ⟨_, hp⟩
  · rw [hp]; exact sane_external_trade b _ _ h
  · rw [hp]; exact sane_add_order b _ h

theorem reachable_wellFormed_filed (b : OrderBook) (h : Reachable b) :
    b.WellFormed ∧ b.Filed := by
  induction h with
  | empty => exact ⟨consistent_empty.wf, consistent_empty.filed⟩
  | add b o _ _ ih => exact sane_add_order b o ih
  | cancel b id _ ih => exact sane_cancel_order b id ih
  | trade b s n _ ih => exact sane_external_trade b s n ih
  | quote b o pre _ _ ih => exact sane_place_quote b o pre ih

theorem account_fill_totals (d : Driver) (f : Fill) :
    (account_fill d f).S.inv_ticks =
        d.S.inv_ticks + fill_qty_sum (fills_on Side.BID [f]) -
          fill_qty_sum (fills_on Side.ASK [f]) ∧
      (account_fill d f).S.cash_ticks =
        d.S.cash_ticks + fill_notional_sum (fills_on Side.ASK [f]) -
          fill_notional_sum (fills_on Side.BID [f]) ∧
      (account_fill d f).trades_total = d.trades_total + 1 ∧
      (account_fill d f).buys_total = d.buys_total + ((fills_on Side.BID [f]).length : Int) ∧
      (account_fill d f).sells_total = d.sells_total + ((fills_on Side.ASK [f]).length : Int) ∧
      (account_fill d f).S.peak_pnl_ticks = d.S.peak_pnl_ticks := by
  cases hs : f.side <;>
    simp [account_fill, hs, fills_on, fill_qty_sum, fill_notional_sum]

theorem fills_on_cons (s : Side) (f : Fill) (fs : List Fill) :
    fills_on s (f :: fs) = fills_on s [f] ++ fills_on s fs := by
  simp only [fills_on, List.filter_cons, List.filter_nil]
  split <;> simp

theorem fill_notional_sum_append (A B : List Fill) :
    fill_notional_sum (A ++ B) = fill_notional_sum A + fill_notional_sum B := by
  induction A with
  | nil => simp [fill_notional_sum]
  | cons f fs ih => simp [fill_notional_sum, ih, add_assoc]

theorem account_fills_totals (d : Driver) (fills : List Fill) :
    (account_fills d fills).S.inv_ticks =
        d.S.inv_ticks + fill_qty_sum (fills_on Side.BID fills) -
          fill_qty_sum (fills_on Side.ASK fills) ∧
      (account_fills d fills).S.cash_ticks =
        d.S.cash_ticks + fill_notional_sum (fills_on Side.ASK fills) -
          fill_notional_sum (fills_on Side.BID fills) ∧
      (account_fills d fills).trades_total = d.trades_total + (fills.length : Int) ∧
      (account_fills d fills).buys_total =
        d.buys_total + ((fills_on Side.BID fills).length : Int) ∧
      (account_fills d fills).sells_total =
        d.sells_total + ((fills_on Side.ASK fills).length : Int) ∧
      (account_fills d fills).S.peak_pnl_ticks = d.S.peak_pnl_ticks := by
  induction fills generalizing d with
  | nil => simp [account_fills, fills_on, fill_qty_sum, fill_notional_sum]
  | cons f fs ih =>
    have h1 := account_fill_totals d f
    have h2 := ih (account_fill d f)
    simp only [account_fills, List.foldl_cons] at h2 ⊢
    obtain ⟨a1, a2, a3, a4, a5, a6⟩ := h1
    obtain ⟨b1, b2, b3, b4, b5, b6⟩ := h2
    rw [fills_on_cons Side.BID f fs, fills_on_cons Side.ASK f fs]
    simp only [fill_qty_sum_append, fill_notional_sum_append, List.length_append,
      List.length_cons, Nat.cast_add, Nat.cast_succ]
    refine ⟨?_, ?_, ?_, ?_, ?_, ?_⟩
    · rw [b1, a1]; ring
    · rw [b2, a2]; ring
    · rw [b3, a3]; ring
    · rw [b4, a4]; ring
    · rw [b5, a5]; ring
    · rw [b6, a6]

theorem fills_on_length (fills : List Fill) :
    ((fills_on Side.BID fills).length : Int) + ((fills_on Side.ASK fills).length : Int) =
      (fills.length : Int) := by
  induction fills with
  | nil => simp [fills_on]
  | cons f fs ih =>
    rw [fills_on_cons Side.BID f fs, fills_on_cons Side.ASK f fs]
    simp only [List.length_append, List.length_cons, Nat.cast_add, Nat.cast_succ]
    have : ((fills_on Side.BID [f]).length : Int) + ((fills_on Side.ASK [f]).length : Int) = 1 := by
      cases hs : f.side <;> simp [fills_on, hs]
    linarith

theorem apply_event_counters (d : Driver) (e : Event)
    (h : d.trades_total = d.buys_total + d.sells_total) :
    (apply_event d e).trades_total = (apply_event d e).buys_total + (apply_event d e).sells_total := by
  cases e with
  | ADD ts side px qty id => exact h
  | CANCEL ts id => exact h
  | TRADE ts side qty =>
    simp only [apply_event]
    obtain ⟨_, _, h3, h4, h5, _⟩ :=
      account_fills_totals { d with ob := (d.ob.external_trade side qty).1 }
        (d.ob.external_trade side qty).2
    rw [h3, h4, h5]
    have := fills_on_length (d.ob.external_trade side qty).2
    simp only
    linarith
  | OTHER ts => exact h

theorem process_event_counters (P : Params) (d : Driver) (e : Event)
    (h : d.trades_total = d.buys_total + d.sells_total) :
    (process_event P d e).trades_total =
      (process_event P d e).buys_total + (process_event P d e).sells_total := by
  simp only [process_event]
  split
  · exact apply_event_counters _ e h
  · exact apply_event_counters _ e h

theorem process_events_counters (P : Params) (d : Driver) (events : List Event)
    (h : d.trades_total = d.buys_total + d.sells_total) :
    (process_events P d events).trades_total =
      (process_events P d events).buys_total + (process_events P d events).sells_total := by
  induction events generalizing d with
  | nil => exact h
  | cons e es ih =>
    simp only [process_events, List.foldl_cons]
    exact ih _ (process_event_counters P d e h)

/-- Claim C11.  For every list of fills and every starting state, the accounting loop
changes inventory by (sum of `qty` over BID fills) - (sum of `qty` over ASK fills), changes
cash by (sum of `qty * px` over ASK fills) - (sum of `qty * px` over BID fills), and raises
`trades_total` by the number of fills, `buys_total` by the number of BID fills and
`sells_total` by the number of ASK fills; and when `trades = buys + sells` holds
initially it holds after every event of every replayed sequence. -/
theorem accounting_totals (d : Driver) (fills : List Fill) :
    (account_fills d fills).S.inv_ticks - d.S.inv_ticks =
        fill_qty_sum (fills_on Side.BID fills) - fill_qty_sum (fills_on Side.ASK fills) ∧
      (account_fills d fills).S.cash_ticks - d.S.cash_ticks =
        fill_notional_sum (fills_on Side.ASK fills) -
          fill_notional_sum (fills_on Side.BID fills) ∧
      (account_fills d fills).trades_total - d.trades_total = (fills.length : Int) ∧
      (account_fills d fills).buys_total - d.buys_total =
        ((fills_on Side.BID fills).length : Int) ∧
      (account_fills d fills).sells_total - d.sells_total =
        ((fills_on Side.ASK fills).length : Int) ∧
      (d.trades_total = d.buys_total + d.sells_total →
        ∀ (P : Params) (events : List Event) (k : Nat),
          (process_events P d (events.take k)).trades_total =
            (process_events P d (events.take k)).buys_total +
              (process_events P d (events.take k)).sells_total) := by
  obtain ⟨h1, h2, h3, h4, h5, _⟩ := account_fills_totals d fills
  refine ⟨by rw [h1]; ring, by rw [h2]; ring, by rw [h3]; ring, by rw [h4]; ring,
    by rw [h5]; ring, ?_⟩
  intro h P events k
  exact process_events_counters P d _ h

theorem accounting_totals_witness :
    Driver.init.trades_total = Driver.init.buys_total + Driver.init.sells_total ∧
      (process_events Params.defaults Driver.init (calm_rows.take 3)).trades_total =
        (process_events Params.defaults Driver.init (calm_rows.take 3)).buys_total +
          (process_events Params.defaults Driver.init (calm_rows.take 3)).sells_total ∧
      (account_fills Driver.init
        [Fill.mk Side.BID 2 100, Fill.mk Side.ASK 1 103, Fill.mk Side.BID 1 99]).S =
        { inv_ticks := 2, cash_ticks := -196, peak_pnl_ticks := 0 } :=
  ⟨rfl,
    (accounting_totals Driver.init []).2.2.2.2.2 rfl Params.defaults calm_rows 3,
    by decide⟩

theorem quote_step_peak (P : Params) (d : Driver) (bb ba : Int) :
    (quote_step P d bb ba).S.peak_pnl_ticks =
      max d.S.peak_pnl_ticks (mark_to_market d.S bb ba) := rfl

theorem quote_step_risk_off (P : Params) (d : Driver) (bb ba : Int) :
    (quote_step P d bb ba).risk_off =
      (decide (|d.S.inv_ticks| ≥ P.INV_HARD) ||
        decide ((((max d.S.peak_pnl_ticks (mark_to_market d.S bb ba) -
          mark_to_market d.S bb ba : Int) : ℚ) * P.TICK_USD) ≥ P.MAX_DD_USD)) := rfl

theorem apply_event_peak (d : Driver) (e : Event) :
    (apply_event d e).S.peak_pnl_ticks = d.S.peak_pnl_ticks := by
  cases e with
  | ADD ts side px qty id => rfl
  | CANCEL ts id => rfl
  | TRADE ts side qty =>
    simp only [apply_event]
    exact (account_fills_totals _ _).2.2.2.2.2
  | OTHER ts => rfl

theorem process_event_peak (P : Params) (d : Driver) (e : Event) :
    d.S.peak_pnl_ticks ≤ (process_event P d e).S.peak_pnl_ticks := by
  simp only [process_event]
  split
  · next bb ba hbb hba =>
    rw [quote_step_peak, apply_event_peak]
    exact le_max_left _ _
  · rw [apply_event_peak]

theorem process_events_peak (P : Params) (d : Driver) (events : List Event) :
    d.S.peak_pnl_ticks ≤ (process_events P d events).S.peak_pnl_ticks := by
  induction events generalizing d with
  | nil => exact le_refl _
  | cons e es ih =>
    simp only [process_events, List.foldl_cons]
    exact le_trans (process_event_peak P d e) (ih _)

theorem process_events_append (P : Params) (d : Driver) (xs ys : List Event) :
    process_events P d (xs ++ ys) = process_events P (process_events P d xs) ys := by
  simp [process_events, List.foldl_append]

/-- Claim C12.  With exact arithmetic, for every strategy state the loop body sets
`risk_off` to true exactly when `|inv_ticks| ≥ INV_HARD` or
`(peak_pnl_ticks - pnl_ticks) * TICK_USD ≥ MAX_DD_USD`, where `pnl_ticks` is the current
mark-to-market value and `peak_pnl_ticks` the peak after this tick's update; both
thresholds are inclusive.  Scenario S5 (peak 30000, value 10000, tick 0.01, limit 200,
flat) has drawdown exactly 200 and `risk_off = true`; one tick less of drawdown gives
`false`; inventory exactly `INV_HARD = 80` gives `true`. -/
theorem risk_off_exactly (P : Params) (d : Driver) (bb ba : Int) :
    ((quote_step P d bb ba).risk_off = true ↔
        P.INV_HARD ≤ |d.S.inv_ticks| ∨
        P.MAX_DD_USD ≤
          (((quote_step P d bb ba).S.peak_pnl_ticks - mark_to_market d.S bb ba : Int) : ℚ) *
            P.TICK_USD) ∧
      (quote_step P d bb ba).S.peak_pnl_ticks =
        max d.S.peak_pnl_ticks (mark_to_market d.S bb ba) ∧
      mark_to_market driver_S5.S 100 101 = 10000 ∧
      (quote_step Params.defaults driver_S5 100 101).S.peak_pnl_ticks = 30000 ∧
      (((30000 - 10000 : Int) : ℚ) * Params.defaults.TICK_USD = 200) ∧
      (quote_step Params.defaults driver_S5 100 101).risk_off = true ∧
      (quote_step Params.defaults driver_below_limit 100 101).risk_off = false ∧
      (quote_step Params.defaults driver_at_hard_limit 100 101).risk_off = true := by
  refine ⟨?_, rfl, by decide!, by decide!, by decide!, by decide!, by decide!, by decide!⟩
  rw [quote_step_risk_off, quote_step_peak]
  simp only [Bool.or_eq_true, decide_eq_true_eq, ge_iff_le]

/-- Claim C13.  In every tick the mark-to-market step leaves `peak_pnl_ticks` at least its
previous value and at least the current `pnl_ticks`, so the drawdown
`(peak_pnl_ticks - pnl_ticks) * TICK_USD` is non-negative whenever `TICK_USD ≥ 0`; and over
any event sequence `peak_pnl_ticks` never decreases from one event to a later one. -/
theorem peak_pnl_monotone (P : Params) (d : Driver) (bb ba : Int) :
    d.S.peak_pnl_ticks ≤ (quote_step P d bb ba).S.peak_pnl_ticks ∧
      mark_to_market d.S bb ba ≤ (quote_step P d bb ba).S.peak_pnl_ticks ∧
      (0 ≤ P.TICK_USD →
        0 ≤ (((quote_step P d bb ba).S.peak_pnl_ticks - mark_to_market d.S bb ba : Int) : ℚ) *
          P.TICK_USD) ∧
      (∀ (events : List Event) (j k : Nat), j ≤ k →
        (process_events P d (events.take j)).S.peak_pnl_ticks ≤
          (process_events P d (events.take k)).S.peak_pnl_ticks) := by
  rw [quote_step_peak]
  refine ⟨le_max_left _ _, le_max_right _ _, ?_, ?_⟩
  · intro ht
    apply mul_nonneg _ ht
    have : mark_to_market d.S bb ba ≤ max d.S.peak_pnl_ticks (mark_to_market d.S bb ba) :=
      le_max_right _ _
    exact_mod_cast sub_nonneg.mpr this
  · intro events j k hjk
    have hsplit : events.take k = events.take j ++ (events.take k).drop j := by
      have h1 : (events.take k).take j = events.take j := by
        rw [List.take_take, min_eq_left hjk]
      rw [← h1, List.take_append_drop]
    rw [hsplit, process_events_append]
    exact process_events_peak P _ _

theorem peak_pnl_monotone_witness :
    (0 : ℚ) ≤ Params.defaults.TICK_USD ∧
      (0 : ℚ) ≤
        (((quote_step Params.defaults driver_S5 100 101).S.peak_pnl_ticks -
          mark_to_market driver_S5.S 100 101 : Int) : ℚ) * Params.defaults.TICK_USD ∧
      (process_events Params.defaults Driver.init (calm_rows.take 1)).S.peak_pnl_ticks ≤
        (process_events Params.defaults Driver.init (calm_rows.take 3)).S.peak_pnl_ticks :=
  ⟨by decide!,
    (peak_pnl_monotone Params.defaults driver_S5 100 101).2.2.1 (by decide!),
    (peak_pnl_monotone Params.defaults Driver.init 100 101).2.2.2 calm_rows 1 3 (by decide)⟩

theorem keysOrdered_nodup (before : Int → Int → Bool) (hc : StrictCmp before) (m : PriceMap)
    (hm : KeysOrdered before m) : (keys m).Nodup := by
  refine List.Pairwise.imp ?_ hm
  intro a b hab heq
  rw [heq, hc.irrefl] at hab
  exact Bool.noConfusion hab

theorem level_find_erase_same (px : Int) (m : PriceMap) (hm : (keys m).Nodup) :
    level_find px (level_erase px m) = none := by
  induction m with
  | nil => rfl
  | cons l rest ih =>
    obtain ⟨k, q⟩ := l
    have hnd := List.nodup_cons.mp hm
    by_cases h : k = px
    · subst h
      simp only [level_erase, if_true]
      exact level_find_none_of_not_mem k rest hnd.1
    · simp only [level_erase, h, if_false, level_find]
      exact ih hnd.2

theorem level_find_erase_other (px p : Int) (m : PriceMap) (hp : p ≠ px) :
    level_find p (level_erase px m) = level_find p m := by
  induction m with
  | nil => rfl
  | cons l rest ih =>
    obtain ⟨k, q⟩ := l
    by_cases h : k = px
    · subst h
      have : ¬ k = p := fun e => hp e.symm
      simp [level_erase, level_find, this]
    · by_cases h2 : k = p
      · subst h2
        simp [level_erase, level_find, h]
      · simp only [level_erase, h, if_false, level_find, h2]
        exact ih

theorem level_find_set_same (px : Int) (q q' : LevelQueue) (m : PriceMap)
    (h : level_find px m = some q) : level_find px (level_set px q' m) = some q' := by
  induction m with
  | nil => simp [level_find] at h
  | cons l rest ih =>
    obtain ⟨k, q0⟩ := l
    by_cases h1 : k = px
    · simp [level_set, level_find, h1]
    · simp only [level_find, h1, if_false] at h
      simp only [level_set, h1, if_false, level_find]
      exact ih h

theorem level_find_set_other (px p : Int) (q' : LevelQueue) (m : PriceMap) (hp : p ≠ px) :
    level_find p (level_set px q' m) = level_find p m := by
  induction m with
  | nil => rfl
  | cons l rest ih =>
    obtain ⟨k, q⟩ := l
    by_cases h : k = px
    · subst h
      have : ¬ k = p := fun e => hp e.symm
      simp [level_set, level_find, this]
    · by_cases h2 : k = p
      · subst h2
        simp [level_set, level_find, h]
      · simp only [level_set, h, if_false, level_find, h2]
        exact ih

theorem index_find_none_of_not_mem (id : String) (idx : Index)
    (h : id ∉ idx.map Prod.fst) : index_find id idx = none := by
  induction idx with
  | nil => rfl
  | cons e rest ih =>
    obtain ⟨k, w⟩ := e
    simp only [List.map_cons, List.mem_cons, not_or] at h
    have hk : ¬ k = id := fun e => h.1 e.symm
    simp only [index_find, hk, if_false]
    exact ih h.2

theorem index_find_erase_same (id : String) (idx : Index) (h : (idx.map Prod.fst).Nodup) :
    index_find id (index_erase id idx) = none := by
  induction idx with
  | nil => rfl
  | cons e rest ih =>
    obtain ⟨k, w⟩ := e
    have hnd := List.nodup_cons.mp h
    by_cases hk : k = id
    · subst hk
      simp only [index_erase, if_true]
      exact index_find_none_of_not_mem k rest hnd.1
    · simp only [index_erase, hk, if_false, index_find]
      exact ih hnd.2

theorem index_set_keys (id : String) (v : Side × Int) (idx : Index) :
    (index_set id v idx).map Prod.fst =
      if id ∈ idx.map Prod.fst then idx.map Prod.fst else idx.map Prod.fst ++ [id] := by
  induction idx with
  | nil => simp [index_set]
  | cons e rest ih =>
    obtain ⟨k, w⟩ := e
    by_cases hk : k = id
    · subst hk
      simp [index_set]
    · have hk' : ¬ id = k := fun e => hk e.symm
      simp only [index_set, hk, if_false, List.map_cons, ih, List.mem_cons, hk', false_or]
      split <;> simp

theorem index_set_nodup (id : String) (v : Side × Int) (idx : Index)
    (h : (idx.map Prod.fst).Nodup) : ((index_set id v idx).map Prod.fst).Nodup := by
  rw [index_set_keys]
  split
  · exact h
  · next hn =>
    rw [List.nodup_append]
    refine ⟨h, by simp, ?_⟩
    intro a ha hb
    rw [List.mem_singleton] at hb
    exact hn (hb ▸ ha)

theorem index_erase_sublist (id : String) (idx : Index) :
    ((index_erase id idx).map Prod.fst).Sublist (idx.map Prod.fst) := by
  induction idx with
  | nil => exact List.Sublist.refl _
  | cons e rest ih =>
    obtain ⟨k, w⟩ := e
    by_cases hk : k = id
    · simp only [index_erase, hk, if_true, List.map_cons]
      exact List.sublist_cons_self _ _
    · simp only [index_erase, hk, if_false, List.map_cons]
      exact ih.cons₂ _

theorem index_erase_set (id : String) (v : Side × Int) (idx : Index)
    (h : index_find id idx = none) : index_erase id (index_set id v idx) = idx := by
  induction idx with
  | nil => simp [index_set, index_erase]
  | cons e rest ih =>
    obtain ⟨k, w⟩ := e
    by_cases hk : k = id
    · simp [index_find, hk] at h
    · simp only [index_find, hk, if_false] at h
      simp only [index_set, hk, if_false, index_erase, ih h]

theorem queue_erase_append_last (id : String) (q : LevelQueue) (o : Order) (ho : o.id = id)
    (hq : ∀ x ∈ q, x.id ≠ id) : queue_erase id (q ++ [o]) = some q := by
  induction q with
  | nil => simp [queue_erase, ho]
  | cons x xs ih =>
    have hx : ¬ x.id = id := hq x (List.mem_cons_self _ _)
    have ih' := ih (fun y hy => hq y (List.mem_cons_of_mem _ hy))
    show queue_erase id (x :: (xs ++ [o])) = some (x :: xs)
    simp only [queue_erase, hx, if_false, ih', Option.map_some']

theorem queue_erase_isSome_of_mem (id : String) (q : LevelQueue) (o : Order) (ho : o ∈ q)
    (hid : o.id = id) : ∃ q', queue_erase id q = some q' := by
  induction q with
  | nil => simp at ho
  | cons x xs ih =>
    by_cases hx : x.id = id
    · exact ⟨xs, by simp [queue_erase, hx]⟩
    · rcases List.mem_cons.mp ho with rfl | hin
      · exact absurd hid hx
      · obtain ⟨q', hq'⟩ := ih hin
        exact ⟨x :: q', by simp [queue_erase, hx, hq']⟩

theorem level_erase_push (before : Int → Int → Bool) (px : Int) (o : Order) (m : PriceMap)
    (h : level_find px m = none) : level_erase px (level_push before px o m) = m := by
  induction m with
  | nil => simp [level_push, level_erase]
  | cons l rest ih =>
    obtain ⟨k, q⟩ := l
    by_cases h1 : k = px
    · simp [level_find, h1] at h
    · have h1' : ¬ px = k := fun e => h1 e.symm
      simp only [level_find, h1, if_false] at h
      by_cases h2 : before px k = true
      · simp [level_push, h1', h2, level_erase]
      · simp only [level_push, h1', h2, if_false, level_erase, h1, ih h]

theorem level_set_push (before : Int → Int → Bool) (hc : StrictCmp before) (px : Int)
    (o : Order) (m : PriceMap) (q : LevelQueue) (hm : KeysOrdered before m)
    (h : level_find px m = some q) : level_set px q (level_push before px o m) = m := by
  induction m with
  | nil => simp [level_find] at h
  | cons l rest ih =>
    obtain ⟨k, q0⟩ := l
    have hm' := List.pairwise_cons.mp hm
    by_cases h1 : k = px
    · subst h1
      simp only [level_find, if_true, Option.some.injEq] at h
      subst h
      simp [level_push, level_set]
    · have h1' : ¬ px = k := fun e => h1 e.symm
      simp only [level_find, h1, if_false] at h
      by_cases h2 : before px k = true
      · exfalso
        have hin : px ∈ keys rest := by
          by_contra hnot
          rw [level_find_none_of_not_mem px rest hnot] at h
          exact Option.noConfusion h
        have hk := hm'.1 px hin
        have := hc.trans px k px h2 hk
        rw [hc.irrefl] at this
        exact Bool.noConfusion this
      · simp only [level_push, h1', h2, if_false, level_set, h1, ih hm'.2 h]

theorem noEmpty_level_push (before : Int → Int → Bool) (px : Int) (o : Order) (m : PriceMap)
    (h : NoEmptyLevels m) : NoEmptyLevels (level_push before px o m) := by
  induction m with
  | nil =>
    intro l hl
    simp only [level_push, List.mem_singleton] at hl
    rw [hl]
    simp
  | cons l0 rest ih =>
    obtain ⟨k, q⟩ := l0
    have hrest : NoEmptyLevels rest := fun l hl => h l (List.mem_cons_of_mem _ hl)
    intro l hl
    by_cases h1 : px = k
    · simp only [level_push, h1, if_true] at hl
      rcases List.mem_cons.mp hl with he | hl
      · rw [he]; simp
      · exact hrest l hl
    · by_cases h2 : before px k = true
      · simp only [level_push, h1, h2, if_true, if_false] at hl
        rcases List.mem_cons.mp hl with he | hl
        · rw [he]; simp
        · exact h l hl
      · simp only [level_push, h1, h2, if_false] at hl
        rcases List.mem_cons.mp hl with he | hl
        · rw [he]; exact h _ (List.mem_cons_self _ _)
        · exact ih hrest l hl

theorem noEmpty_cancel (px : Int) (m : PriceMap) (q q' : LevelQueue)
    (hf : level_find px m = some q) (h : NoEmptyLevels m) :
    NoEmptyLevels (if q' = [] then level_erase px m else level_set px q' m) := by
  obtain ⟨pre, post, hm, hset, herase⟩ := level_find_split px m q hf
  by_cases he : q' = []
  · rw [if_pos he, herase]
    intro l hl
    apply h l
    rw [hm]
    rcases List.mem_append.mp hl with hl | hl
    · exact List.mem_append_left _ hl
    · exact List.mem_append_right _ (List.mem_cons_of_mem _ hl)
  · rw [if_neg he, hset]
    intro l hl
    rcases List.mem_append.mp hl with hl | hl
    · exact h l (by rw [hm]; exact List.mem_append_left _ hl)
    · rcases List.mem_cons.mp hl with hl' | hl
      · rw [hl']; exact he
      · exact h l (by rw [hm]; exact List.mem_append_right _ (List.mem_cons_of_mem _ hl))

theorem noEmpty_sweep_levels (m : PriceMap) (n : Int) (out : List Fill)
    (h : NoEmptyLevels m) : NoEmptyLevels (sweep_levels m n out).1 := by
  induction m generalizing n out with
  | nil => simpa [sweep_levels] using h
  | cons l0 rest ih =>
    obtain ⟨px, q⟩ := l0
    have hrest : NoEmptyLevels rest := fun l hl => h l (List.mem_cons_of_mem _ hl)
    by_cases h1 : 0 < n
    · by_cases h2 : (sweep_queue px q n out).1 = []
      · simp only [sweep_levels, h1, h2, if_true]
        exact ih _ _ hrest
      · simp only [sweep_levels, h1, h2, if_true, if_false]
        intro l hl
        rcases List.mem_cons.mp hl with he | hl
        · rw [he]; exact h2
        · exact hrest l hl
    · simpa [sweep_levels, h1] using h

theorem tidy_add_order (b : OrderBook) (o : Order)
    (h : NoEmptyLevels b.bids_ ∧ NoEmptyLevels b.asks_ ∧ b.IndexKeysUnique) :
    NoEmptyLevels (b.add_order o).bids_ ∧ NoEmptyLevels (b.add_order o).asks_ ∧
      (b.add_order o).IndexKeysUnique := by
  cases hs : o.side with
  | BID =>
    simp only [add_order, hs, OrderBook.IndexKeysUnique]
    exact ⟨noEmpty_level_push _ _ _ _ h.1, h.2.1, index_set_nodup _ _ _ h.2.2⟩
  | ASK =>
    simp only [add_order, hs, OrderBook.IndexKeysUnique]
    exact ⟨h.1, noEmpty_level_push _ _ _ _ h.2.1, index_set_nodup _ _ _ h.2.2⟩

theorem tidy_cancel_order (b : OrderBook) (id : String)
    (h : NoEmptyLevels b.bids_ ∧ NoEmptyLevels b.asks_ ∧ b.IndexKeysUnique) :
    NoEmptyLevels (b.cancel_order id).1.bids_ ∧ NoEmptyLevels (b.cancel_order id).1.asks_ ∧
      (b.cancel_order id).1.IndexKeysUnique := by
  rcases cancel_order_cases b id with hc | ⟨px, q, q', hf, hq, hc⟩ | ⟨px, q, q', hf, hq, hc⟩
  · rw [hc]; exact h
  · rw [hc]
    exact ⟨noEmpty_cancel px _ q q' hf h.1, h.2.1,
      List.Nodup.sublist (index_erase_sublist _ _) h.2.2⟩
  · rw [hc]
    exact ⟨h.1, noEmpty_cancel px _ q q' hf h.2.1,
      List.Nodup.sublist (index_erase_sublist _ _) h.2.2⟩

theorem tidy_external_trade (b : OrderBook) (aggressor : Side) (qty : Int)
    (h : NoEmptyLevels b.bids_ ∧ NoEmptyLevels b.asks_ ∧ b.IndexKeysUnique) :
    NoEmptyLevels (b.external_trade aggressor qty).1.bids_ ∧
      NoEmptyLevels (b.external_trade aggressor qty).1.asks_ ∧
      (b.external_trade aggressor qty).1.IndexKeysUnique := by
  cases aggressor with
  | BID => exact ⟨h.1, noEmpty_sweep_levels _ _ _ h.2.1, h.2.2⟩
  | ASK => exact ⟨noEmpty_sweep_levels _ _ _ h.1, h.2.1, h.2.2⟩

theorem tidy_place_quote (b : OrderBook) (o : Order) (pre_best_opposite : Int)
    (h : NoEmptyLevels b.bids_ ∧ NoEmptyLevels b.asks_ ∧ b.IndexKeysUnique) :
    NoEmptyLevels (b.place_quote_and_sim_fill o pre_best_opposite).1.bids_ ∧
      NoEmptyLevels (b.place_quote_and_sim_fill o pre_best_opposite).1.asks_ ∧
      (b.place_quote_and_sim_fill o pre_best_opposite).1.IndexKeysUnique := by
  rcases place_quote_cases b o pre_best_opposite with ⟨_, hp⟩ | ⟨_, hp⟩
  · rw [hp]; exact tidy_external_trade b _ _ h
  · rw [hp]; exact tidy_add_order b _ h

theorem reachable_tidy (b : OrderBook) (h : Reachable b) :
    NoEmptyLevels b.bids_ ∧ NoEmptyLevels b.asks_ ∧ b.IndexKeysUnique := by
  induction h with
  | empty =>
    exact ⟨by simp [NoEmptyLevels, OrderBook.empty], by simp [NoEmptyLevels, OrderBook.empty],
      by simp [OrderBook.IndexKeysUnique, OrderBook.empty]⟩
  | add b o _ _ ih => exact tidy_add_order b o ih
  | cancel b id _ ih => exact tidy_cancel_order b id ih
  | trade b s n _ ih => exact tidy_external_trade b s n ih
  | quote b o pre _ _ ih => exact tidy_place_quote b o pre ih

theorem best_bid_none_iff (b : OrderBook) (hne : NoEmptyLevels b.bids_) :
    b.best_bid = none ↔ resting b.bids_ = [] := by
  cases hb : b.bids_ with
  | nil => simp [best_bid, hb, resting]
  | cons l rest =>
    obtain ⟨p, q⟩ := l
    have hq : q ≠ [] := by
      have := hne (p, q) (by rw [hb]; exact List.mem_cons_self _ _)
      exact this
    simp [best_bid, hb, resting, hq]

theorem best_ask_none_iff (b : OrderBook) (hne : NoEmptyLevels b.asks_) :
    b.best_ask = none ↔ resting b.asks_ = [] := by
  cases hb : b.asks_ with
  | nil => simp [best_ask, hb, resting]
  | cons l rest =>
    obtain ⟨p, q⟩ := l
    have hq : q ≠ [] := by
      have := hne (p, q) (by rw [hb]; exact List.mem_cons_self _ _)
      exact this
    simp [best_ask, hb, resting, hq]

theorem best_bid_is_highest (b : OrderBook) (hwf : b.WellFormed) (hf : b.Filed)
    (hne : NoEmptyLevels b.bids_) (bb : Int) :
    b.best_bid = some bb ↔
      (∃ o ∈ resting b.bids_, o.px = bb) ∧ ∀ o ∈ resting b.bids_, o.px ≤ bb := by
  have hall : ∀ p, b.best_bid = some p →
      (∃ o ∈ resting b.bids_, o.px = p) ∧ ∀ o ∈ resting b.bids_, o.px ≤ p := by
    intro p hp
    constructor
    · cases hb : b.bids_ with
      | nil => simp [best_bid, hb] at hp
      | cons l rest =>
        obtain ⟨k, q⟩ := l
        simp only [best_bid, hb, Option.some.injEq] at hp
        subst hp
        have hmem : (k, q) ∈ b.bids_ := by rw [hb]; exact List.mem_cons_self _ _
        have hq : q ≠ [] := hne (k, q) hmem
        obtain ⟨o, ho⟩ := List.exists_mem_of_ne_nil q hq
        have hat : (k, o) ∈ resting_at b.bids_ := (mem_resting_at _ _ _).mpr ⟨q, hmem, ho⟩
        refine ⟨o, ?_, (hf.1 (k, o) hat).2⟩
        rw [← hb]
        exact (mem_resting_iff _ _).mpr ⟨k, hat⟩
    · intro o ho
      obtain ⟨k, hk⟩ := (mem_resting_iff _ _).mp ho
      have hpx : o.px = k := (hf.1 (k, o) hk).2
      obtain ⟨q, hq, _⟩ := (mem_resting_at _ _ _).mp hk
      have hkey : k ∈ keys b.bids_ := List.mem_map_of_mem Prod.fst hq
      rw [hpx]
      exact keys_le_best_bid b hwf p hp k hkey
  constructor
  · exact hall bb
  · rintro ⟨⟨o, ho, hobb⟩, hmax⟩
    cases hbest : b.best_bid with
    | none =>
      rw [(best_bid_none_iff b hne).mp hbest] at ho
      simp at ho
    | some p =>
      obtain ⟨⟨o', ho', hop⟩, hmax'⟩ := hall p hbest
      have h1 : p ≤ bb := hop ▸ hmax o' ho'
      have h2 : bb ≤ p := hobb ▸ hmax' o ho
      rw [le_antisymm h1 h2]

theorem best_ask_is_lowest (b : OrderBook) (hwf : b.WellFormed) (hf : b.Filed)
    (hne : NoEmptyLevels b.asks_) (ba : Int) :
    b.best_ask = some ba ↔
      (∃ o ∈ resting b.asks_, o.px = ba) ∧ ∀ o ∈ resting b.asks_, ba ≤ o.px := by
  have hall : ∀ p, b.best_ask = some p →
      (∃ o ∈ resting b.asks_, o.px = p) ∧ ∀ o ∈ resting b.asks_, p ≤ o.px := by
    intro p hp
    constructor
    · cases hb : b.asks_ with
      | nil => simp [best_ask, hb] at hp
      | cons l rest =>
        obtain ⟨k, q⟩ := l
        simp only [best_ask, hb, Option.some.injEq] at hp
        subst hp
        have hmem : (k, q) ∈ b.asks_ := by rw [hb]; exact List.mem_cons_self _ _
        have hq : q ≠ [] := hne (k, q) hmem
        obtain ⟨o, ho⟩ := List.exists_mem_of_ne_nil q hq
        have hat : (k, o) ∈ resting_at b.asks_ := (mem_resting_at _ _ _).mpr ⟨q, hmem, ho⟩
        refine ⟨o, ?_, (hf.2 (k, o) hat).2⟩
        rw [← hb]
        exact (mem_resting_iff _ _).mpr ⟨k, hat⟩
    · intro o ho
      obtain ⟨k, hk⟩ := (mem_resting_iff _ _).mp ho
      have hpx : o.px = k := (hf.2 (k, o) hk).2
      obtain ⟨q, hq, _⟩ := (mem_resting_at _ _ _).mp hk
      have hkey : k ∈ keys b.asks_ := List.mem_map_of_mem Prod.fst hq
      rw [hpx]
      exact best_ask_le_keys b hwf p hp k hkey
  constructor
  · exact hall ba
  · rintro ⟨⟨o, ho, hoba⟩, hmin⟩
    cases hbest : b.best_ask with
    | none =>
      rw [(best_ask_none_iff b hne).mp hbest] at ho
      simp at ho
    | some p =>
      obtain ⟨⟨o', ho', hop⟩, hmin'⟩ := hall p hbest
      have h1 : ba ≤ p := hop ▸ hmin o' ho'
      have h2 : p ≤ ba := hoba ▸ hmin' o ho
      rw [le_antisymm h2 h1]

theorem cancel_map_resting (px : Int) (m : PriceMap) (q A B : LevelQueue) (x : Order)
    (hf : level_find px m = some q) (hq : q = A ++ x :: B) :
    ∃ L1 L2, resting m = L1 ++ x :: L2 ∧
      resting (if A ++ B = [] then level_erase px m else level_set px (A ++ B) m) =
        L1 ++ L2 := by
  obtain ⟨pre, post, hm, hset, herase⟩ := level_find_split px m q hf
  refine ⟨resting pre ++ A, B ++ resting post, ?_, ?_⟩
  · rw [hm, resting_append]
    simp [resting, hq]
  · by_cases he : A ++ B = []
    · rw [if_pos he, herase, resting_append]
      have hA : A = [] := (List.append_eq_nil.mp he).1
      have hB : B = [] := (List.append_eq_nil.mp he).2
      simp [hA, hB]
    · rw [if_neg he, hset, resting_append]
      simp [resting]

theorem cancel_order_unknown (b : OrderBook) (id : String)
    (h : index_find id b.index_ = none) : b.cancel_order id = (b, false) := by
  simp only [cancel_order, h]

theorem cancel_order_twice (b : OrderBook) (id : String) (hidx : b.IndexKeysUnique) :
    ((b.cancel_order id).1.cancel_order id).1 = (b.cancel_order id).1 := by
  rcases cancel_order_cases b id with hc | ⟨px, q, q', hf, hq, hc⟩ | ⟨px, q, q', hf, hq, hc⟩
  · rw [hc]; simp only [hc]
  · rw [hc]
    simp only
    rw [cancel_order_unknown _ id (index_find_erase_same id b.index_ hidx)]
  · rw [hc]
    simp only
    rw [cancel_order_unknown _ id (index_find_erase_same id b.index_ hidx)]

/-- Claim C17.  For every book and every identifier that is not in the index,
`cancel_order` returns false and leaves both price maps and the index unchanged; hence
cancelling that identifier twice leaves the same book as cancelling it once. -/
theorem cancel_unknown_is_noop (b : OrderBook) (id : String)
    (h : index_find id b.index_ = none) :
    (b.cancel_order id).2 = false ∧
      (b.cancel_order id).1.bids_ = b.bids_ ∧
      (b.cancel_order id).1.asks_ = b.asks_ ∧
      (b.cancel_order id).1.index_ = b.index_ ∧
      (b.cancel_order id).1 = b ∧
      ((b.cancel_order id).1.cancel_order id).1 = (b.cancel_order id).1 := by
  have h1 : b.cancel_order id = (b, false) := by simp only [cancel_order, h]
  rw [h1]
  refine ⟨rfl, rfl, rfl, rfl, rfl, ?_⟩
  simp only [h1]

theorem cancel_unknown_is_noop_witness :
    index_find "zz" book_S1.index_ = none ∧
      (book_S1.cancel_order "zz").2 = false ∧
      (book_S1.cancel_order "zz").1 = book_S1 :=
  ⟨by decide, (cancel_unknown_is_noop book_S1 "zz" (by decide)).1,
    (cancel_unknown_is_noop book_S1 "zz" (by decide)).2.2.2.2.1⟩

/-- Claim C14.  On a book whose resting identifiers are unique and indexed at their order's
side and price (a well-formed, filed book with a functional index, as every reachable book
is), `cancel_order` of an identifier that rests returns true and removes exactly the order
`x` carrying it: the queue `A ++ x :: B` of its level becomes `A ++ B` (the level
disappears when that is empty), every other level of that side and the whole opposite side
are unchanged, the list of all resting orders loses `x` and nothing else, the identifier is
no longer in the index and the other index entries are unchanged. -/
theorem cancel_resting_order (b : OrderBook) (id : String)
    (hwf : b.WellFormed) (hfiled : b.Filed) (hidx : b.IndexKeysUnique)
    (huniq : (b.all_resting.map Order.id).Nodup)
    (hindexed : ∀ o ∈ b.all_resting, index_find o.id b.index_ = some (o.side, o.px))
    (hrest : id ∈ b.all_resting.map Order.id) :
    (b.cancel_order id).2 = true ∧
      ∃ x A B, x ∈ b.all_resting ∧ x.id = id ∧
        level_find x.px (b.side_map x.side) = some (A ++ x :: B) ∧
        level_find x.px ((b.cancel_order id).1.side_map x.side) =
          (if A ++ B = [] then none else some (A ++ B)) ∧
        (∀ p, p ≠ x.px →
          level_find p ((b.cancel_order id).1.side_map x.side) =
            level_find p (b.side_map x.side)) ∧
        (b.cancel_order id).1.side_map x.side.opposite = b.side_map x.side.opposite ∧
        (∃ L1 L2, b.all_resting = L1 ++ x :: L2 ∧ (b.cancel_order id).1.all_resting = L1 ++ L2) ∧
        id ∉ (b.cancel_order id).1.all_resting.map Order.id ∧
        index_find id (b.cancel_order id).1.index_ = none ∧
        (∀ id', id' ≠ id →
          index_find id' (b.cancel_order id).1.index_ = index_find id' b.index_) := by
  obtain ⟨o, ho, hoid⟩ := List.mem_map.mp hrest
  have hi := hindexed o ho
  rw [hoid] at hi
  have hgone : ∀ (x : Order) (L1 L2 : List Order), x.id = id → b.all_resting = L1 ++ x :: L2 →
      id ∉ (L1 ++ L2).map Order.id := by
    intro x L1 L2 hx hL
    have hnd := huniq
    rw [hL, List.map_append, List.map_cons] at hnd
    have := (List.nodup_cons.mp (List.nodup_middle.mp hnd)).1
    rw [List.map_append, ← hx]
    exact this
  rcases List.mem_append.mp ho with hob | hoa
  · obtain ⟨p, hp⟩ := (mem_resting_iff _ _).mp hob
    obtain ⟨hside, hpx⟩ := hfiled.1 (p, o) hp
    simp only at hside hpx
    obtain ⟨q, hq, hoq⟩ := (mem_resting_at _ _ _).mp hp
    have hf := level_find_of_mem _ bidBefore_strict _ hwf.1 p q hq
    obtain ⟨q', hq'⟩ := queue_erase_isSome_of_mem id q o hoq hoid
    obtain ⟨A, x, B, hsplit, hx, hq2⟩ := queue_erase_split id q q' hq'
    rw [hside, hpx] at hi
    have hc : b.cancel_order id =
        ({ bids_ := if q' = [] then level_erase p b.bids_ else level_set p q' b.bids_,
           asks_ := b.asks_, index_ := index_erase id b.index_ }, true) := by
      simp only [cancel_order, hi, hf, hq']
    have hxq : x ∈ q := by rw [hsplit]; exact List.mem_append_right _ (List.mem_cons_self _ _)
    have hxat : (p, x) ∈ resting_at b.bids_ := (mem_resting_at _ _ _).mpr ⟨q, hq, hxq⟩
    obtain ⟨hxside, hxpx⟩ := hfiled.1 (p, x) hxat
    simp only at hxside hxpx
    have hxall : x ∈ b.all_resting :=
      List.mem_append_left _ ((mem_resting_iff _ _).mpr ⟨p, hxat⟩)
    obtain ⟨L1, L2, hr1, hr2⟩ := cancel_map_resting p b.bids_ q A B x hf hsplit
    rw [hc]
    refine ⟨rfl, x, A, B, hxall, hx, ?_, ?_, ?_, ?_, ?_, ?_, ?_, ?_⟩
    · rw [hxside, hxpx, ← hsplit]; exact hf
    · simp only [hxside, hxpx, OrderBook.side_map, hq2]
      by_cases he : A ++ B = []
      · simp only [he, if_true]
        exact level_find_erase_same p _ (keysOrdered_nodup _ bidBefore_strict _ hwf.1)
      · simp only [he, if_false]
        exact level_find_set_same p q _ _ hf
    · intro p' hp'
      rw [hxpx] at hp'
      simp only [hxside, OrderBook.side_map]
      by_cases he : q' = []
      · simp only [he, if_true]; exact level_find_erase_other p p' _ hp'
      · simp only [he, if_false]; exact level_find_set_other p p' _ _ hp'
    · simp only [hxside, OrderBook.side_map, Side.opposite]
    · refine ⟨L1, L2 ++ resting b.asks_, ?_, ?_⟩
      · simp only [OrderBook.all_resting, hr1, List.append_assoc, List.cons_append]
      · simp only [OrderBook.all_resting, hq2, hr2, List.append_assoc]
    · have hL : b.all_resting = L1 ++ x :: (L2 ++ resting b.asks_) := by
        simp only [OrderBook.all_resting, hr1, List.append_assoc, List.cons_append]
      have hgoal := hgone x L1 _ hx hL
      simp only [OrderBook.all_resting, hq2, hr2, List.append_assoc]
      exact hgoal
    · exact index_find_erase_same id _ hidx
    · intro id' hid'
      exact index_find_erase_other id id' _ hid'
  · obtain ⟨p, hp⟩ := (mem_resting_iff _ _).mp hoa
    obtain ⟨hside, hpx⟩ := hfiled.2 (p, o) hp
    simp only at hside hpx
    obtain ⟨q, hq, hoq⟩ := (mem_resting_at _ _ _).mp hp
    have hf := level_find_of_mem _ askBefore_strict _ hwf.2 p q hq
    obtain ⟨q', hq'⟩ := queue_erase_isSome_of_mem id q o hoq hoid
    obtain ⟨A, x, B, hsplit, hx, hq2⟩ := queue_erase_split id q q' hq'
    rw [hside, hpx] at hi
    have hc : b.cancel_order id =
        ({ bids_ := b.bids_,
           asks_ := if q' = [] then level_erase p b.asks_ else level_set p q' b.asks_,
           index_ := index_erase id b.index_ }, true) := by
      simp only [cancel_order, hi, hf, hq']
    have hxq : x ∈ q := by rw [hsplit]; exact List.mem_append_right _ (List.mem_cons_self _ _)
    have hxat : (p, x) ∈ resting_at b.asks_ := (mem_resting_at _ _ _).mpr ⟨q, hq, hxq⟩
    obtain ⟨hxside, hxpx⟩ := hfiled.2 (p, x) hxat
    simp only at hxside hxpx
    have hxall : x ∈ b.all_resting :=
      List.mem_append_right _ ((mem_resting_iff _ _).mpr ⟨p, hxat⟩)
    obtain ⟨L1, L2, hr1, hr2⟩ := cancel_map_resting p b.asks_ q A B x hf hsplit
    rw [hc]
    refine ⟨rfl, x, A, B, hxall, hx, ?_, ?_, ?_, ?_, ?_, ?_, ?_, ?_⟩
    · rw [hxside, hxpx, ← hsplit]; exact hf
    · simp only [hxside, hxpx, OrderBook.side_map, hq2]
      by_cases he : A ++ B = []
      · simp only [he, if_true]
        exact level_find_erase_same p _ (keysOrdered_nodup _ askBefore_strict _ hwf.2)
      · simp only [he, if_false]
        exact level_find_set_same p q _ _ hf
    · intro p' hp'
      rw [hxpx] at hp'
      simp only [hxside, OrderBook.side_map]
      by_cases he : q' = []
      · simp only [he, if_true]; exact level_find_erase_other p p' _ hp'
      · simp only [he, if_false]; exact level_find_set_other p p' _ _ hp'
    · simp only [hxside, OrderBook.side_map, Side.opposite]
    · refine ⟨resting b.bids_ ++ L1, L2, ?_, ?_⟩
      · simp only [OrderBook.all_resting, hr1, List.append_assoc]
      · simp only [OrderBook.all_resting, hq2, hr2, List.append_assoc]
    · have hL : b.all_resting = (resting b.bids_ ++ L1) ++ x :: L2 := by
        simp only [OrderBook.all_resting, hr1, List.append_assoc]
      have hgoal := hgone x _ L2 hx hL
      simp only [OrderBook.all_resting, hq2, hr2, List.append_assoc] at hgoal ⊢
      exact hgoal
    · exact index_find_erase_same id _ hidx
    · intro id' hid'
      exact index_find_erase_other id id' _ hid'

theorem cancel_resting_order_witness :
    book_S2.WellFormed ∧ book_S2.Filed ∧ book_S2.IndexKeysUnique ∧
      (book_S2.all_resting.map Order.id).Nodup ∧
      (∀ o ∈ book_S2.all_resting, index_find o.id book_S2.index_ = some (o.side, o.px)) ∧
      "A" ∈ book_S2.all_resting.map Order.id ∧
      (book_S2.cancel_order "A").2 = true ∧
      (book_S2.cancel_order "A").1.bids_ = [(100, [⟨"B", Side.BID, 100, 3, 2, false⟩])] ∧
      (book_S2.cancel_order "A").1.index_ = [("B", (Side.BID, 100))] :=
  ⟨by decide, by decide, by decide, by decide, by decide, by decide,
    (cancel_resting_order book_S2 "A" (by decide) (by decide) (by decide) (by decide)
      (by decide) (by decide)).1,
    by decide, by decide⟩

theorem level_find_nonempty (m : PriceMap) (px : Int) (q : LevelQueue)
    (hne : NoEmptyLevels m) (h : level_find px m = some q) : q ≠ [] := by
  obtain ⟨pre, post, hm, _, _⟩ := level_find_split px m q h
  exact hne (px, q) (by rw [hm]; exact List.mem_append_right _ (List.mem_cons_self _ _))

theorem level_find_mem_resting (m : PriceMap) (px : Int) (q : LevelQueue)
    (h : level_find px m = some q) : ∀ x ∈ q, x ∈ resting m := by
  obtain ⟨pre, post, hm, _, _⟩ := level_find_split px m q h
  intro x hx
  rw [hm, resting_append]
  exact List.mem_append_right _ (by simp only [resting]; exact List.mem_append_left _ hx)

theorem push_then_cancel_map (before : Int → Int → Bool) (hc : StrictCmp before)
    (m : PriceMap) (o : Order) (hm : KeysOrdered before m) (hne : NoEmptyLevels m)
    (hfresh : ∀ x ∈ resting m, x.id ≠ o.id) :
    ∃ q, level_find o.px (level_push before o.px o m) = some (q ++ [o]) ∧
      queue_erase o.id (q ++ [o]) = some q ∧
      (if q = [] then level_erase o.px (level_push before o.px o m)
        else level_set o.px q (level_push before o.px o m)) = m := by
  refine ⟨(level_find o.px m).getD [], level_find_push_same before hc o.px o m hm, ?_, ?_⟩
  · apply queue_erase_append_last o.id _ o rfl
    intro x hx
    cases hf : level_find o.px m with
    | none => simp [hf] at hx
    | some q =>
      simp only [hf, Option.getD_some] at hx
      exact hfresh x (level_find_mem_resting m o.px q hf x hx)
  · cases hf : level_find o.px m with
    | none =>
      simp only [Option.getD_none, if_true]
      exact level_erase_push before o.px o m hf
    | some q =>
      have hq : q ≠ [] := level_find_nonempty m o.px q hne hf
      simp only [Option.getD_some, hq, if_false]
      exact level_set_push before hc o.px o m q hm hf

/-- Claim C15.  On a book (well-formed and without empty levels, as every reachable book
is) in which an identifier is neither in the index nor carried by a resting order,
`add_order` of an order with that identifier followed by `cancel_order` of the identifier
returns true and gives back the book exactly: both price maps and the index are equal to
their values before the add. -/
theorem add_then_cancel_restores (b : OrderBook) (o : Order)
    (hwf : b.WellFormed) (hne : NoEmptyLevels b.bids_ ∧ NoEmptyLevels b.asks_)
    (hidx : index_find o.id b.index_ = none)
    (hrest : o.id ∉ b.all_resting.map Order.id) :
    ((b.add_order o).cancel_order o.id).2 = true ∧
      ((b.add_order o).cancel_order o.id).1.bids_ = b.bids_ ∧
      ((b.add_order o).cancel_order o.id).1.asks_ = b.asks_ ∧
      ((b.add_order o).cancel_order o.id).1.index_ = b.index_ ∧
      ((b.add_order o).cancel_order o.id).1 = b := by
  have hfresh : ∀ x ∈ b.all_resting, x.id ≠ o.id :=
    fun x hx he => hrest (he ▸ List.mem_map_of_mem Order.id hx)
  have key : (b.add_order o).cancel_order o.id = (b, true) := by
    cases hs : o.side with
    | BID =>
      obtain ⟨q, h1, h2, h3⟩ := push_then_cancel_map bidBefore bidBefore_strict b.bids_ o
        hwf.1 hne.1 (fun x hx => hfresh x (List.mem_append_left _ hx))
      simp only [cancel_order, add_order, hs, index_find_set_same, h1, h2, h3,
        index_erase_set _ _ _ hidx]
    | ASK =>
      obtain ⟨q, h1, h2, h3⟩ := push_then_cancel_map askBefore askBefore_strict b.asks_ o
        hwf.2 hne.2 (fun x hx => hfresh x (List.mem_append_right _ hx))
      simp only [cancel_order, add_order, hs, index_find_set_same, h1, h2, h3,
        index_erase_set _ _ _ hidx]
  rw [key]
  exact ⟨rfl, rfl, rfl, rfl, rfl⟩

theorem add_then_cancel_restores_witness :
    book_S1.WellFormed ∧ (NoEmptyLevels book_S1.bids_ ∧ NoEmptyLevels book_S1.asks_) ∧
      index_find "n1" book_S1.index_ = none ∧
      "n1" ∉ book_S1.all_resting.map Order.id ∧
      ((book_S1.add_order ⟨"n1", Side.BID, 100, 7, 4, false⟩).cancel_order "n1").2 = true ∧
      ((book_S1.add_order ⟨"n1", Side.BID, 100, 7, 4, false⟩).cancel_order "n1").1 = book_S1 ∧
      ((book_S1.add_order ⟨"n2", Side.ASK, 103, 7, 4, false⟩).cancel_order "n2").1 = book_S1 :=
  ⟨by decide, by decide, by decide, by decide,
    (add_then_cancel_restores book_S1 ⟨"n1", Side.BID, 100, 7, 4, false⟩ (by decide) (by decide)
      (by decide) (by decide)).1,
    (add_then_cancel_restores book_S1 ⟨"n1", Side.BID, 100, 7, 4, false⟩ (by decide) (by decide)
      (by decide) (by decide)).2.2.2.2,
    by decide⟩

theorem quote_step_ob (P : Params) (d : Driver) (bb ba : Int) :
    (quote_step P d bb ba).ob =
      place_quotes d.ob
        (compute_quotes_inventory_aware P bb ba (quote_step P d bb ba).S
          (quote_step P d bb ba).risk_off) d.ts_counter bb ba := rfl

theorem crosses_eq_false_iff (b : OrderBook) (o : Order) :
    b.crosses o = false ↔
      (o.side = Side.BID ∧ (b.asks_ = [] ∨ ∃ ba, b.best_ask = some ba ∧ o.px < ba)) ∨
      (o.side = Side.ASK ∧ (b.bids_ = [] ∨ ∃ bb, b.best_bid = some bb ∧ bb < o.px)) := by
  cases hs : o.side with
  | BID =>
    cases ha : b.asks_ with
    | nil => simp [OrderBook.crosses, hs, best_ask, ha]
    | cons l rest => obtain ⟨p, q⟩ := l; simp [OrderBook.crosses, hs, best_ask, ha]
  | ASK =>
    cases ha : b.bids_ with
    | nil => simp [OrderBook.crosses, hs, best_bid, ha]
    | cons l rest => obtain ⟨p, q⟩ := l; simp [OrderBook.crosses, hs, best_bid, ha]

/-- Claim C16.  For every (well-formed) book and every order that does not cross,
`place_quote_and_sim_fill` returns `(0, 0)`, appends the order with `is_our_quote = true`
at the tail of the queue at its price on its own side (a new level when there was none),
sets the index entry of its identifier to its side and price, and leaves the other levels
of that side, the opposite side and the other index entries unchanged. -/
theorem place_quote_not_crossing (b : OrderBook) (o : Order) (pre_best_opposite : Int)
    (hwf : b.WellFormed) (hnc : b.crosses o = false) :
    (b.place_quote_and_sim_fill o pre_best_opposite).2 = (0, 0) ∧
      (b.place_quote_and_sim_fill o pre_best_opposite).1 =
        b.add_order { o with is_our_quote := true } ∧
      level_find o.px ((b.place_quote_and_sim_fill o pre_best_opposite).1.side_map o.side) =
        some ((level_find o.px (b.side_map o.side)).getD [] ++
          [{ o with is_our_quote := true }]) ∧
      (∀ p, p ≠ o.px →
        level_find p ((b.place_quote_and_sim_fill o pre_best_opposite).1.side_map o.side) =
          level_find p (b.side_map o.side)) ∧
      (b.place_quote_and_sim_fill o pre_best_opposite).1.side_map o.side.opposite =
        b.side_map o.side.opposite ∧
      index_find o.id (b.place_quote_and_sim_fill o pre_best_opposite).1.index_ =
        some (o.side, o.px) ∧
      (∀ id, id ≠ o.id →
        index_find id (b.place_quote_and_sim_fill o pre_best_opposite).1.index_ =
          index_find id b.index_) := by
  have hp : b.place_quote_and_sim_fill o pre_best_opposite =
      (b.add_order { o with is_our_quote := true }, (0, 0)) := by
    rcases place_quote_cases b o pre_best_opposite with ⟨hc, _⟩ | ⟨_, hp⟩
    · rw [hnc] at hc; exact Bool.noConfusion hc
    · exact hp
  rw [hp]
  cases hs : o.side with
  | BID =>
    simp only [add_order, hs, OrderBook.side_map, Side.opposite]
    exact ⟨trivial, trivial, level_find_push_same _ bidBefore_strict _ _ _ hwf.1,
      fun p hp => level_find_push_other _ _ _ _ _ hp, trivial,
      index_find_set_same _ _ _, fun id hid => index_find_set_other _ _ _ _ hid⟩
  | ASK =>
    simp only [add_order, hs, OrderBook.side_map, Side.opposite]
    exact ⟨trivial, trivial, level_find_push_same _ askBefore_strict _ _ _ hwf.2,
      fun p hp => level_find_push_other _ _ _ _ _ hp, trivial,
      index_find_set_same _ _ _, fun id hid => index_find_set_other _ _ _ _ hid⟩

theorem place_quote_not_crossing_witness :
    book_S1.WellFormed ∧ book_S1.crosses ⟨"q1", Side.BID, 100, 2, 4, false⟩ = false ∧
      (book_S1.place_quote_and_sim_fill ⟨"q1", Side.BID, 100, 2, 4, false⟩ 101).2 = (0, 0) ∧
      (book_S1.place_quote_and_sim_fill ⟨"q1", Side.BID, 100, 2, 4, false⟩ 101).1.bids_ =
        [(100, [⟨"b1", Side.BID, 100, 5, 1, false⟩, ⟨"q1", Side.BID, 100, 2, 4, true⟩]),
         (99, [⟨"b2", Side.BID, 99, 3, 2, false⟩])] ∧
      index_find "q1"
        (book_S1.place_quote_and_sim_fill ⟨"q1", Side.BID, 100, 2, 4, false⟩ 101).1.index_ =
        some (Side.BID, 100) :=
  ⟨by decide, by decide,
    (place_quote_not_crossing book_S1 ⟨"q1", Side.BID, 100, 2, 4, false⟩ 101 (by decide)
      (by decide)).1,
    by decide, by decide⟩

theorem best_after_add_bid (b : OrderBook) (o : Order) (bb : Int) (hs : o.side = Side.BID)
    (hbb : b.best_bid = some bb) (hle : o.px ≤ bb) :
    (b.add_order o).best_bid = some bb ∧ (b.add_order o).asks_ = b.asks_ := by
  cases hb : b.bids_ with
  | nil => simp [best_bid, hb] at hbb
  | cons l rest =>
    obtain ⟨k, q⟩ := l
    simp only [best_bid, hb, Option.some.injEq] at hbb
    subst hbb
    by_cases h1 : o.px = k
    · simp [add_order, hs, hb, level_push, h1, best_bid]
    · have h2 : bidBefore o.px k = false := by
        simp only [bidBefore, decide_eq_false_iff_not]; omega
      simp [add_order, hs, hb, level_push, h1, h2, best_bid]

theorem best_after_add_ask (b : OrderBook) (o : Order) (ba : Int) (hs : o.side = Side.ASK)
    (hba : b.best_ask = some ba) (hle : ba ≤ o.px) :
    (b.add_order o).best_ask = some ba ∧ (b.add_order o).bids_ = b.bids_ := by
  cases hb : b.asks_ with
  | nil => simp [best_ask, hb] at hba
  | cons l rest =>
    obtain ⟨k, q⟩ := l
    simp only [best_ask, hb, Option.some.injEq] at hba
    subst hba
    by_cases h1 : o.px = k
    · simp [add_order, hs, hb, level_push, h1, best_ask]
    · have h2 : askBefore o.px k = false := by
        simp only [askBefore, decide_eq_false_iff_not]; omega
      simp [add_order, hs, hb, level_push, h1, h2, best_ask]

theorem place_quotes_keep_best (b : OrderBook) (q : Quotes) (ts bb ba : Int)
    (hbb : b.best_bid = some bb) (hba : b.best_ask = some ba) (hlt : bb < ba)
    (hbid : q.bid_px ≤ bb) (hask : ba ≤ q.ask_px) :
    b.crosses (bid_quote q ts) = false ∧
      b.place_quote_and_sim_fill (bid_quote q ts) ba =
        (b.add_order (bid_quote q ts), (0, 0)) ∧
      (if q.enable_bid = true then (b.place_quote_and_sim_fill (bid_quote q ts) ba).1
        else b).crosses (ask_quote q ts) = false ∧
      (if q.enable_bid = true then (b.place_quote_and_sim_fill (bid_quote q ts) ba).1
          else b).place_quote_and_sim_fill (ask_quote q ts) bb =
        ((if q.enable_bid = true then (b.place_quote_and_sim_fill (bid_quote q ts) ba).1
          else b).add_order (ask_quote q ts), (0, 0)) ∧
      (place_quotes b q ts bb ba).best_bid = some bb ∧
      (place_quotes b q ts bb ba).best_ask = some ba := by
  have hncb : b.crosses (bid_quote q ts) = false :=
    crosses_false_of_bid b _ rfl (fun x hx => by
      rw [hba] at hx; cases hx
      exact lt_of_le_of_lt hbid hlt)
  have hpb : b.place_quote_and_sim_fill (bid_quote q ts) ba =
      (b.add_order (bid_quote q ts), (0, 0)) := by
    rcases place_quote_cases b (bid_quote q ts) ba with ⟨hc, _⟩ | ⟨_, hp⟩
    · rw [hncb] at hc; exact Bool.noConfusion hc
    · exact hp
  have hb1 := best_after_add_bid b (bid_quote q ts) bb rfl hbb hbid
  have h1 : (if q.enable_bid = true then (b.place_quote_and_sim_fill (bid_quote q ts) ba).1
        else b).best_bid = some bb ∧
      (if q.enable_bid = true then (b.place_quote_and_sim_fill (bid_quote q ts) ba).1
        else b).best_ask = some ba := by
    cases q.enable_bid with
    | false => exact ⟨hbb, hba⟩
    | true =>
      simp only [if_true, hpb]
      refine ⟨hb1.1, ?_⟩
      simp only [best_ask, hb1.2]
      exact hba
  simp only [place_quotes]
  generalize (if q.enable_bid = true then (b.place_quote_and_sim_fill (bid_quote q ts) ba).1
    else b) = b1 at h1 ⊢
  have hnca : b1.crosses (ask_quote q ts) = false :=
    crosses_false_of_ask b1 _ rfl (fun x hx => by
      rw [h1.1] at hx; cases hx
      exact lt_of_lt_of_le hlt hask)
  have hpa : b1.place_quote_and_sim_fill (ask_quote q ts) bb =
      (b1.add_order (ask_quote q ts), (0, 0)) := by
    rcases place_quote_cases b1 (ask_quote q ts) bb with ⟨hc, _⟩ | ⟨_, hp⟩
    · rw [hnca] at hc; exact Bool.noConfusion hc
    · exact hp
  have ha2 := best_after_add_ask b1 (ask_quote q ts) ba rfl h1.2 hask
  refine ⟨hncb, hpb, hnca, hpa, ?_, ?_⟩
  · cases q.enable_ask with
    | false => exact h1.1
    | true =>
      simp only [if_true, hpa, best_bid, ha2.2]
      exact h1.1
  · cases q.enable_ask with
    | false => exact h1.2
    | true =>
      simp only [if_true, hpa]
      exact ha2.1

theorem reachable_book_S1 : Reachable book_S1 :=
  ReachableBy.add _ _
    (ReachableBy.add _ _ (ReachableBy.add _ _ ReachableBy.empty trivial) trivial) trivial

/-- Claim C18.  In every book reachable from the empty book by `add_order`,
`cancel_order`, `external_trade` and `place_quote_and_sim_fill`, no level of either map has
an empty queue; `best_bid()` is the highest price of a resting bid order and `best_ask()`
the lowest price of a resting ask order; and each is absent exactly when its side holds no
order. -/
theorem reachable_best_prices (b : OrderBook) (h : Reachable b) :
    NoEmptyLevels b.bids_ ∧ NoEmptyLevels b.asks_ ∧
      (∀ bb, b.best_bid = some bb ↔
        (∃ o ∈ resting b.bids_, o.px = bb) ∧ ∀ o ∈ resting b.bids_, o.px ≤ bb) ∧
      (∀ ba, b.best_ask = some ba ↔
        (∃ o ∈ resting b.asks_, o.px = ba) ∧ ∀ o ∈ resting b.asks_, ba ≤ o.px) ∧
      (b.best_bid = none ↔ resting b.bids_ = []) ∧
      (b.best_ask = none ↔ resting b.asks_ = []) := by
  obtain ⟨hwf, hf⟩ := reachable_wellFormed_filed b h
  obtain ⟨hnb, hna, _⟩ := reachable_tidy b h
  exact ⟨hnb, hna, fun bb => best_bid_is_highest b hwf hf hnb bb,
    fun ba => best_ask_is_lowest b hwf hf hna ba,
    best_bid_none_iff b hnb, best_ask_none_iff b hna⟩

theorem reachable_best_prices_witness :
    Reachable book_S1 ∧ NoEmptyLevels book_S1.bids_ ∧ NoEmptyLevels book_S1.asks_ ∧
      book_S1.best_bid = some 100 ∧ book_S1.best_ask = some 101 ∧
      Reachable stale_book ∧ stale_book.best_ask = none ∧ resting stale_book.asks_ = [] :=
  ⟨reachable_book_S1, (reachable_best_prices book_S1 reachable_book_S1).1,
    (reachable_best_prices book_S1 reachable_book_S1).2.1, by decide, by decide,
    ReachableBy.trade _ _ _ (ReachableBy.add _ _ ReachableBy.empty trivial),
    by decide, by decide⟩

/-- Claim C19.  For every book with `best_bid = bb < ba = best_ask` and every inventory,
`risk_off` flag and parameters, with `q` the quotes computed from `bb` and `ba`: the bid
quote does not cross and `place_quote_and_sim_fill` rests it with result `(0, 0)`; on the
book left by the bid step the ask quote does not cross either and is rested with result
`(0, 0)`; and after the placement in the order of the loop body (enabled bid, then enabled
ask) `best_bid` is still `bb` and `best_ask` still `ba`, so the book is still uncrossed.
The same holds for the book left by `quote_step`. -/
theorem quotes_rest_on_uncrossed_book (P : Params) (b : OrderBook) (bb ba : Int) (st : State)
    (risk_off : Bool) (ts : Int) (q : Quotes)
    (hq : q = compute_quotes_inventory_aware P bb ba st risk_off)
    (hbb : b.best_bid = some bb) (hba : b.best_ask = some ba) (hlt : bb < ba) :
    b.crosses (bid_quote q ts) = false ∧
      b.place_quote_and_sim_fill (bid_quote q ts) ba =
        (b.add_order (bid_quote q ts), (0, 0)) ∧
      (if q.enable_bid = true then (b.place_quote_and_sim_fill (bid_quote q ts) ba).1
        else b).crosses (ask_quote q ts) = false ∧
      (if q.enable_bid = true then (b.place_quote_and_sim_fill (bid_quote q ts) ba).1
          else b).place_quote_and_sim_fill (ask_quote q ts) bb =
        ((if q.enable_bid = true then (b.place_quote_and_sim_fill (bid_quote q ts) ba).1
          else b).add_order (ask_quote q ts), (0, 0)) ∧
      (place_quotes b q ts bb ba).best_bid = some bb ∧
      (place_quotes b q ts bb ba).best_ask = some ba ∧
      (place_quotes b q ts bb ba).Uncrossed ∧
      (∀ d : Driver, d.ob = b →
        (quote_step P d bb ba).ob.best_bid = some bb ∧
        (quote_step P d bb ba).ob.best_ask = some ba) := by
  have hbid : q.bid_px ≤ bb := by rw [hq]; exact compute_quotes_bid_le P bb ba st risk_off
  have hask : ba ≤ q.ask_px := by rw [hq]; exact compute_quotes_ask_ge P bb ba st risk_off
  obtain ⟨h1, h2, h3, h4, h5, h6⟩ := place_quotes_keep_best b q ts bb ba hbb hba hlt hbid hask
  refine ⟨h1, h2, h3, h4, h5, h6, ?_, ?_⟩
  · intro x y hx hy
    rw [h5] at hx; rw [h6] at hy
    cases hx; cases hy
    exact hlt
  · intro d hd
    subst hd
    rw [quote_step_ob]
    have hk := place_quotes_keep_best d.ob
      (compute_quotes_inventory_aware P bb ba (quote_step P d bb ba).S
        (quote_step P d bb ba).risk_off) d.ts_counter bb ba hbb hba hlt
      (compute_quotes_bid_le P bb ba _ _) (compute_quotes_ask_ge P bb ba _ _)
    exact ⟨hk.2.2.2.2.1, hk.2.2.2.2.2⟩

theorem quotes_rest_on_uncrossed_book_witness :
    book_S1.best_bid = some 100 ∧ book_S1.best_ask = some 101 ∧ (100 : Int) < 101 ∧
      (place_quotes book_S1
        (compute_quotes_inventory_aware Params.defaults 100 101 Driver.init.S false)
        7 100 101).best_bid = some 100 ∧
      (place_quotes book_S1
        (compute_quotes_inventory_aware Params.defaults 100 101 Driver.init.S false)
        7 100 101).best_ask = some 101 ∧
      (place_quotes book_S1
        (compute_quotes_inventory_aware Params.defaults 100 101 Driver.init.S false)
        7 100 101).bids_ =
        [(100, [⟨"b1", Side.BID, 100, 5, 1, false⟩, ⟨"qb7", Side.BID, 100, 2, 7, true⟩]),
         (99, [⟨"b2", Side.BID, 99, 3, 2, false⟩])] ∧
      (place_quotes book_S1
        (compute_quotes_inventory_aware Params.defaults 100 101 Driver.init.S false)
        7 100 101).asks_ =
        [(101, [⟨"a1", Side.ASK, 101, 4, 3, false⟩, ⟨"qa7", Side.ASK, 101, 2, 7, true⟩])] :=
  ⟨by decide, by decide, by decide,
    (quotes_rest_on_uncrossed_book Params.defaults book_S1 100 101 Driver.init.S false 7 _ rfl
      (by decide) (by decide) (by decide)).2.2.2.2.1,
    (quotes_rest_on_uncrossed_book Params.defaults book_S1 100 101 Driver.init.S false 7 _ rfl
      (by decide) (by decide) (by decide)).2.2.2.2.2.1,
    by decide!, by decide!⟩

/-- Claim C20.  The sweep of a crossing quote is not bounded by the limit price of the
quote.  On asks 101 (quantity 1) and 105 (quantity 5) a bid at 101 for 3 crosses and is
filled 3: the level 101 is emptied and two units are taken from the level 105, priced
strictly above 101.  Symmetrically, on bids 100 (quantity 1) and 95 (quantity 5) an ask at
100 for 3 is filled 3, two units coming from the level 95, priced strictly below 100. -/
theorem crossing_sweep_ignores_limit :
    (∃ (b : OrderBook) (o : Order) (p : Int) (q q' : LevelQueue),
        o.side = Side.BID ∧ b.crosses o = true ∧ o.px < p ∧
        level_find p b.asks_ = some q ∧
        level_find p (b.place_quote_and_sim_fill o 0).1.asks_ = some q' ∧
        qty_sum q' < qty_sum q) ∧
      (∃ (b : OrderBook) (o : Order) (p : Int) (q q' : LevelQueue),
        o.side = Side.ASK ∧ b.crosses o = true ∧ p < o.px ∧
        level_find p b.bids_ = some q ∧
        level_find p (b.place_quote_and_sim_fill o 0).1.bids_ = some q' ∧
        qty_sum q' < qty_sum q) ∧
      book_gap_asks.asks_ =
        [(101, [⟨"a1", Side.ASK, 101, 1, 1, false⟩]),
         (105, [⟨"a2", Side.ASK, 105, 5, 2, false⟩])] ∧
      book_gap_asks.place_quote_and_sim_fill ⟨"q", Side.BID, 101, 3, 3, true⟩ 101 =
        ({ bids_ := [], asks_ := [(105, [⟨"a2", Side.ASK, 105, 3, 2, false⟩])],
           index_ := book_gap_asks.index_ }, (3, 101)) ∧
      book_gap_bids.bids_ =
        [(100, [⟨"b1", Side.BID, 100, 1, 1, false⟩]),
         (95, [⟨"b2", Side.BID, 95, 5, 2, false⟩])] ∧
      book_gap_bids.place_quote_and_sim_fill ⟨"q", Side.ASK, 100, 3, 3, true⟩ 100 =
        ({ bids_ := [(95, [⟨"b2", Side.BID, 95, 3, 2, false⟩])], asks_ := [],
           index_ := book_gap_bids.index_ }, (3, 100)) := by
  refine ⟨⟨book_gap_asks, ⟨"q", Side.BID, 101, 3, 3, true⟩, 105,
      [⟨"a2", Side.ASK, 105, 5, 2, false⟩], [⟨"a2", Side.ASK, 105, 3, 2, false⟩],
      by decide⟩,
    ⟨book_gap_bids, ⟨"q", Side.ASK, 100, 3, 3, true⟩, 95,
      [⟨"b2", Side.BID, 95, 5, 2, false⟩], [⟨"b2", Side.BID, 95, 3, 2, false⟩],
      by decide⟩,
    by decide, by decide, by decide, by decide⟩

end Lob
